import Mathlib

/-!
# Long-range loop-erased random walk primitives

Shallow embedding of the step sampler (`useful_code_snippets.cpp`), the alias method
(`lr_lerw/rng/alias_method.cpp`), the random number wrapper (`rng.cpp`) and the bit-packed
occupancy vector (`weird_hashmap_lerw.cpp`).

Conventions of the embedding.
* A C++ `int` is an integer (`Int`). Every `int` sum, difference or product of the ring
  step and of the linear index is reduced to 32 bits in two's complement by `int_wrap`,
  which is the value the compiled code computes; the language leaves an overflowing
  operation undefined, and each theorem states the range of its `int` arguments, in which
  no reduction takes place. The `int` values of the alias method are loop indices between
  `0` and `r_max`.
* A `size_t` is a natural number; every conversion to it and every operation on it is
  reduced modulo `2^64` explicitly, and the narrowing `static_cast<int>` is two's
  complement reduction modulo `2^32`.
* A `double` or multi-precision value is an element of a linearly ordered field, that is
  exact arithmetic without rounding. The library functions `mpfr_log` and `mpfr_exp` are
  parameters `logFn` and `expFn`.
* The 64-bit value returned by one call of the `pcg64_fast` engine is a parameter of the
  function that performs the call.
* A `std::vector` is a list; a vector used as a stack keeps its back at the head of the
  list. An access outside a vector of caller-supplied size yields `none`.
-/

namespace LrSim

/-! ## Machine integers -/

/-- Conversion of a C++ `int` value to the 64-bit `size_t`: reduction modulo `2^64`. -/
def size_t_of_int (z : Int) : Nat := (z % 18446744073709551616).toNat

/-- Result of an `int` operation whose mathematical value is `z`: two's complement
reduction modulo `2^32` into `[-2^31, 2^31)`. -/
def int_wrap (z : Int) : Int := (z + 2147483648) % 4294967296 - 2147483648

/-- Narrowing conversion `static_cast<int>` of a `size_t` value: two's complement
reduction modulo `2^32` into `[-2^31, 2^31)`. -/
def int_of_size_t (n : Nat) : Int :=
  ((n : Int) + 2147483648) % 4294967296 - 2147483648

/-! ## `position2d.cpp` -/

/-- Lattice point of `position2d.cpp`, compared structurally. -/
structure Position2D where
  x : Int
  y : Int
deriving DecidableEq

/-- Chebyshev norm: `norm_2D` of `position2d.cpp`. `NORM_P` is the constant infinity, so
the first branch is the one taken; the result is an integer that the cast to `double`
represents exactly. -/
def norm_2D (pos : Position2D) : Int := max |pos.x| |pos.y|

/-! ## `rng.cpp` -/

/-- Integer draw `rngWrapper::generate_int(n)`, namely `rng() % n`, where `x` is the
64-bit value produced by the engine call `rng()`. A zero modulus is a division by zero
and yields no value. -/
def generate_int (x : Nat) (n : Nat) : Option Nat :=
  if n = 0 then none else some (x % n)

/-- Real draw `rngWrapper::generate_double()`, namely `(rng() >> 11) * (1.0 / 2^53)`, where
`x` is the 64-bit value produced by the engine call `rng()`. -/
def generate_double {α : Type} [LinearOrderedField α] (x : Nat) : α :=
  ((x >>> 11 : Nat) : α) * ((1 : α) / ((1 <<< 53 : Nat) : α))

/-! ## `useful_code_snippets.cpp` -/

/-- Ring step `get_next_pos_2D_infL` of `useful_code_snippets.cpp`; `x` is the engine
output consumed by the single call of `generate_int`. The products `8 * r`, `2 * r`,
`sign * r` and the sums are `int` operations; a comparison or a remainder between the
`size_t` index `k` and an `int` converts the `int` to `size_t`. -/
def get_next_pos_2D_infL (curr_pos : Position2D) (x : Nat) (r : Int) : Option Position2D :=
  let total_vectors : Nat := size_t_of_int (int_wrap (8 * r))
  match generate_int x total_vectors with
  | none => none
  | some k =>
    if k < size_t_of_int (int_wrap (2 * int_wrap (int_wrap (2 * r) + 1))) then
      let sign : Int := if k < size_t_of_int (int_wrap (int_wrap (2 * r) + 1)) then 1 else -1
      let y : Int := int_wrap (int_wrap (-r)
        + int_of_size_t (k % size_t_of_int (int_wrap (int_wrap (2 * r) + 1))))
      let x : Int := int_wrap (sign * r)
      some ⟨int_wrap (curr_pos.x + x), int_wrap (curr_pos.y + y)⟩
    else
      let k : Nat :=
        (k + (18446744073709551616
          - size_t_of_int (int_wrap (2 * int_wrap (int_wrap (2 * r) + 1)))))
          % 18446744073709551616
      let sign : Int := if k < size_t_of_int (int_wrap (int_wrap (2 * r) - 1)) then 1 else -1
      let x : Int := int_wrap (int_wrap (int_wrap (-r) + 1)
        + int_of_size_t (k % size_t_of_int (int_wrap (int_wrap (2 * r) - 1))))
      let y : Int := int_wrap (sign * r)
      some ⟨int_wrap (curr_pos.x + x), int_wrap (curr_pos.y + y)⟩

/-! ## `lr_lerw/rng/alias_method.cpp` -/

/-- The table `AliasTable`: the vectors `prob` and `alias`. The entries of `alias` are
loop indices, kept as natural numbers. -/
structure AliasTable (α : Type) where
  prob : List α
  alias_ : List Nat

/-- Failure of `build_alias_table`: the exception `std::length_error` that the
constructor `std::vector<mpf_class>(r_max)` throws for a negative count. -/
inductive BuildError where
  | length_error
deriving DecidableEq

section Alias

variable {α : Type} [LinearOrderedField α]

/-- First loop of `build_alias_table` (lines 26-37): `high_prec_probs[r-1]` is
`exp(log(r) * (-exponent))` for `r = 1..r_max`. -/
def weight_terms (logFn expFn : α → α) (exponent : α) (r_max : Nat) : List α :=
  (List.range r_max).map (fun i => expFn (logFn ((i + 1 : Nat) : α) * (-exponent)))

/-- The accumulator `prob_sum` after the first loop: the terms added in order to `0`. -/
def weight_sum (logFn expFn : α → α) (exponent : α) (r_max : Nat) : α :=
  (weight_terms logFn expFn exponent r_max).foldl (fun acc w => acc + w) 0

/-- Second and third loop (lines 43-52): every term is divided by `prob_sum`, multiplied
by `r_max` and copied into `scaled_p`. -/
def scaled_weights (logFn expFn : α → α) (exponent : α) (r_max : Nat) : List α :=
  (weight_terms logFn expFn exponent r_max).map
    (fun w => w / weight_sum logFn expFn exponent r_max * (r_max : α))

/-- Variables of the alias construction (lines 54-105): the working copy `scaled_p`, the
two vectors of the table and the stacks `small` and `large`. -/
structure BuildState (α : Type) where
  scaled_p : List α
  prob : List α
  alias_ : List Nat
  small : List Nat
  large : List Nat

/-- Classification loop (lines 64-70): index `i` is pushed on `small` when
`scaled_p[i] < 1.0` and on `large` otherwise, for `i = 0..r_max-1`. -/
def classify (scaled_p : List α) (r_max : Nat) : List Nat × List Nat :=
  (List.range r_max).foldl
    (fun sl i => if scaled_p.getD i 0 < 1 then (i :: sl.1, sl.2) else (sl.1, i :: sl.2))
    ([], [])

/-- Body of the pairing loop (lines 74-89) once `l` and `g` are popped, `small` and
`large` being what is left of the stacks. -/
def pair_body (s : BuildState α) (l g : Nat) (small large : List Nat) : BuildState α :=
  let prob := s.prob.set l (s.scaled_p.getD l 0)
  let alias_ := s.alias_.set l g
  let scaled_p := s.scaled_p.set g (s.scaled_p.getD g 0 - (1 - prob.getD l 0))
  if scaled_p.getD g 0 < 1 then ⟨scaled_p, prob, alias_, g :: small, large⟩
  else ⟨scaled_p, prob, alias_, small, g :: large⟩

/-- Pairing loop `while(!small.empty() && !large.empty())` (lines 73-90). -/
def pair_loop (s : BuildState α) : BuildState α :=
  match hs : s.small, hl : s.large with
  | l :: small, g :: large =>
    have : (pair_body s l g small large).small.length
        + (pair_body s l g small large).large.length < s.small.length + s.large.length := by
      rw [hs, hl]
      unfold pair_body
      simp only
      split <;> simp only [List.length_cons] <;> omega
    pair_loop (pair_body s l g small large)
  | _, _ => s
termination_by s.small.length + s.large.length

/-- Drain loop (lines 93-98 and 100-105): every remaining index `g` gets `prob[g] = 1.0`
and `alias[g] = g`. -/
def drain (prob : List α) (alias_ : List Nat) : List Nat → List α × List Nat
  | [] => (prob, alias_)
  | g :: rest => drain (prob.set g 1) (alias_.set g g) rest

/-- Alias construction of `build_alias_table` (lines 54-107) from the vector `scaled_p`
of size `r_max`. -/
def alias_construct (scaled_p : List α) (r_max : Nat) : AliasTable α :=
  let sl := classify scaled_p r_max
  let s := pair_loop ⟨scaled_p, List.replicate r_max 0, List.replicate r_max 0, sl.1, sl.2⟩
  let d₁ := drain s.prob s.alias_ s.large
  let d₂ := drain d₁.1 d₁.2 s.small
  ⟨d₂.1, d₂.2⟩

/-- The function `build_alias_table(exponent, r_max)` (lines 16-108). -/
def build_alias_table (logFn expFn : α → α) (exponent : α) (r_max : Int) :
    Except BuildError (AliasTable α) :=
  if r_max < 0 then Except.error BuildError.length_error
  else
    Except.ok
      (alias_construct (scaled_weights logFn expFn exponent r_max.toNat) r_max.toNat)

/-- The function `sample_r(at, RNG, r_max)` (lines 110-123); `x₁` and `x₂` are the engine
outputs consumed by `generate_int` and by `generate_double`, in this order. -/
def sample_r (tab : AliasTable α) (x₁ x₂ : Nat) (r_max : Int) : Option Int :=
  match generate_int x₁ (size_t_of_int r_max) with
  | none => none
  | some n =>
    let i : Int := int_of_size_t n
    let u : α := generate_double x₂
    match tab.prob[size_t_of_int i]? with
    | none => none
    | some p =>
      if u < p then some (i + 1)
      else
        match tab.alias_[size_t_of_int i]? with
        | none => none
        | some a => some ((a : Int) + 1)

end Alias

/-! ## `weird_hashmap_lerw.cpp` -/

/-- Linear index `pos_index_2D`: `pos.x + L_real` and `pos.y + L_real` are `int` sums,
converted to `size_t`; the outer sum and the product are `size_t` operations. -/
def pos_index_2D (pos : Position2D) (L_real : Int) : Nat :=
  (size_t_of_int (int_wrap (pos.x + L_real))
    + size_t_of_int (int_wrap (pos.y + L_real))
        * ((2 * size_t_of_int L_real % 18446744073709551616 + 1) % 18446744073709551616)
        % 18446744073709551616) % 18446744073709551616

/-- Marking `set_visited_2D`: the byte `visited[index >> 3]` is or-ed with the
`uint8_t` mask `1U << (index & 7U)`. -/
def set_visited_2D (visited : List Nat) (pos : Position2D) (L_real : Int) :
    Option (List Nat) :=
  let index := pos_index_2D pos L_real
  let byte_index := index >>> 3
  let bit_mask := (1 <<< (index &&& 7)) % 4294967296 % 256
  match visited[byte_index]? with
  | none => none
  | some b => some (visited.set byte_index ((b ||| bit_mask) % 256))

/-- Unmarking `clear_visited_2D`: the byte `visited[index >> 3]` is and-ed with the
`uint8_t` mask `~(1U << (index & 7U))`. -/
def clear_visited_2D (visited : List Nat) (pos : Position2D) (L_real : Int) :
    Option (List Nat) :=
  let index := pos_index_2D pos L_real
  let byte_index := index >>> 3
  let bit_mask := (4294967295 - (1 <<< (index &&& 7)) % 4294967296) % 256
  match visited[byte_index]? with
  | none => none
  | some b => some (visited.set byte_index ((b &&& bit_mask) % 256))

/-- Query `is_visited_2D`: whether `visited[index >> 3] & (1U << (index & 7U))` is
non-zero. -/
def is_visited_2D (visited : List Nat) (pos : Position2D) (L_real : Int) : Option Bool :=
  let index := pos_index_2D pos L_real
  let byte_index := index >>> 3
  let bit_mask := (1 <<< (index &&& 7)) % 4294967296 % 256
  match visited[byte_index]? with
  | none => none
  | some b => some ((b &&& bit_mask) != 0)

/-- The global `L_real = 2 << 10`. -/
def L_real : Int := 2 <<< 10

/-- Number of lattice sites `grid_size` for half-width `L`, a `size_t` product. -/
def grid_size (L : Int) : Nat :=
  ((2 * size_t_of_int L % 18446744073709551616 + 1) % 18446744073709551616)
    * ((2 * size_t_of_int L % 18446744073709551616 + 1) % 18446744073709551616)
    % 18446744073709551616

/-- Number of bytes `byte_size = (grid_size + 7) >> 3` for half-width `L`. -/
def byte_size (L : Int) : Nat := ((grid_size L + 7) % 18446744073709551616) >>> 3

/-- The vector `visited(byte_size, 0)` for half-width `L`. -/
def visited (L : Int) : List Nat := List.replicate (byte_size L) 0

/-- A call of `set_visited_2D` or of `clear_visited_2D` at a position. -/
inductive VisitOp where
  | set (p : Position2D)
  | clear (p : Position2D)
deriving DecidableEq

/-- Position a call addresses. -/
def VisitOp.pos : VisitOp → Position2D
  | VisitOp.set p => p
  | VisitOp.clear p => p

/-- Effect of one call on the vector. -/
def apply_op (L : Int) (v : List Nat) : VisitOp → Option (List Nat)
  | VisitOp.set p => set_visited_2D v p L
  | VisitOp.clear p => clear_visited_2D v p L

/-- Effect of a sequence of calls, first call first. -/
def run_ops (L : Int) : List VisitOp → List Nat → Option (List Nat)
  | [], v => some v
  | op :: rest, v =>
    match apply_op L v op with
    | none => none
    | some v' => run_ops L rest v'

/-- Whether the last call of the sequence that addresses `p` is a `set_visited_2D`;
false when no call addresses `p`. -/
def last_op_is_set (ops : List VisitOp) (p : Position2D) : Bool :=
  match ops.reverse.find? (fun o => decide (o.pos = p)) with
  | some (VisitOp.set _) => true
  | _ => false


/-! ## Invariants of the alias construction -/

section AliasInvariants

variable {α : Type} [LinearOrderedField α]

/-- Shape of the construction state for a table of size `n`: the three vectors have
size `n`, the two stacks hold distinct indices below `n`, an index on `small` has weight
below one and an index on `large` weight at least one, and every alias entry is an index
below `n`. -/
structure Shape (n : Nat) (s : BuildState α) : Prop where
  len_sp : s.scaled_p.length = n
  len_pr : s.prob.length = n
  len_al : s.alias_.length = n
  nodup : (s.small ++ s.large).Nodup
  lt_n : ∀ i ∈ s.small ++ s.large, i < n
  small_lt : ∀ i ∈ s.small, s.scaled_p.getD i 0 < 1
  large_ge : ∀ i ∈ s.large, 1 ≤ s.scaled_p.getD i 0
  alias_lt : ∀ i < n, s.alias_.getD i 0 < n

/-- Sign invariant: a pending index has a non-negative weight and a finished index a
`prob` entry in `[0,1]`. -/
def NonNeg (n : Nat) (s : BuildState α) : Prop :=
  ∀ i < n, (i ∈ s.small ++ s.large → 0 ≤ s.scaled_p.getD i 0) ∧
    (i ∉ s.small ++ s.large → 0 ≤ s.prob.getD i 0 ∧ s.prob.getD i 0 ≤ 1)

/-- Mass invariant with respect to the input weights `p`: for every index `j` the weight
still held at `j` plus what the finished indices aliased to `j` give away is `p[j]`. -/
def Mass (p : List α) (n : Nat) (s : BuildState α) : Prop :=
  ∀ j < n,
    (if j ∈ s.small ++ s.large then s.scaled_p.getD j 0 else s.prob.getD j 0)
      + ∑ i in Finset.range n,
          (if i ∉ s.small ++ s.large ∧ s.alias_.getD i 0 = j then 1 - s.prob.getD i 0 else 0)
      = p.getD j 0

/-- Total invariant: the pending weights add up to the number of pending indices. -/
def Total (s : BuildState α) : Prop :=
  ((s.small ++ s.large).map (fun i => s.scaled_p.getD i 0)).sum
    = ((s.small ++ s.large).length : α)

end AliasInvariants

/-! ## Vocabulary for the occupancy vector -/

/-- The position lies in the lattice `[-L, L]²`. -/
def in_bounds (p : Position2D) (L : Int) : Prop :=
  -L ≤ p.x ∧ p.x ≤ L ∧ -L ≤ p.y ∧ p.y ≤ L

/-- Bit number `n` of the packed vector: bit `n & 7` of the byte `n >> 3`; a byte that the
vector does not have counts as zero. -/
def bit_at (v : List Nat) (n : Nat) : Bool := (v.getD (n >>> 3) 0).testBit (n &&& 7)

instance in_bounds_decidable (p : Position2D) (L : Int) : Decidable (in_bounds p L) := by
  unfold in_bounds
  infer_instance

/-! ## Instrumentation of the alias construction -/

section AliasInstrumentation

variable {α : Type} [LinearOrderedField α]

/-- State at the entry of the pairing loop (after lines 54-70): `prob` and `alias`
resized to `r_max` zeros, the stacks filled by the classification loop. -/
def init_state (scaled_p : List α) (r_max : Nat) : BuildState α :=
  ⟨scaled_p, List.replicate r_max 0, List.replicate r_max 0,
    (classify scaled_p r_max).1, (classify scaled_p r_max).2⟩

/-- One evaluation of `while(!small.empty() && !large.empty())`: the body is executed
when both stacks are non-empty, otherwise the state is left as it is. -/
def pair_step (s : BuildState α) : BuildState α :=
  match s.small, s.large with
  | l :: small, g :: large => pair_body s l g small large
  | _, _ => s

/-- Indices `l` whose entries `prob[l]` and `alias[l]` the successive iterations of the
pairing loop write (lines 80-81), one index per iteration, first iteration first. -/
def pair_loop_trace (s : BuildState α) : List Nat :=
  match hs : s.small, hl : s.large with
  | l :: small, g :: large =>
    have : (pair_body s l g small large).small.length
        + (pair_body s l g small large).large.length < s.small.length + s.large.length := by
      rw [hs, hl]
      unfold pair_body
      simp only
      split <;> simp only [List.length_cons] <;> omega
    l :: pair_loop_trace (pair_body s l g small large)
  | _, _ => []
termination_by s.small.length + s.large.length

end AliasInstrumentation

/-! ## Precision of the variables of the weight stage -/

/-- The constant `PREC = 32*7`, in bits. -/
def PREC : Nat := 32 * 7

/-- A GMP (`mpf_class`) or MPFR (`mpfr_t`) variable: the precision in bits it was
constructed with, and the value it holds. -/
structure PrecVar (α : Type) where
  prec : Nat
  val : α

section WeightPrecision

variable {α : Type} [LinearOrderedField α]

/-- Construction with a named precision, `mpf_class v(x, p)` or `mpfr_init2(v, p)` followed
by a first assignment of `x`: the variable has `p` bits and holds `x` rounded to `p` bits.
`rnd b x` stands for the rounding of `x` to `b` bits that the library performs. -/
def PrecVar.init (rnd : Nat → α → α) (p : Nat) (x : α) : PrecVar α := ⟨p, rnd p x⟩

/-- Writing a computed value into a library variable (`mpfr_log(term, term, ..)`,
`mpfr_get_f`, `=`, `+=`, `/=`, `*=`): the variable keeps the precision it was constructed
with and holds the value rounded to that precision. -/
def PrecVar.assign (rnd : Nat → α → α) (v : PrecVar α) (x : α) : PrecVar α :=
  ⟨v.prec, rnd v.prec x⟩

/-- The MPFR temporary `term` after lines 27-30 for the loop value `r`: initialised by
`mpfr_init2(term, PREC)`, then set to `r`, to its logarithm, multiplied by `-exponent`
and exponentiated, each operation writing `term`. -/
def weight_term_prec (rnd : Nat → α → α) (logFn expFn : α → α) (exponent : α) (r : Nat) :
    PrecVar α :=
  let term : PrecVar α := PrecVar.init rnd PREC (r : α)
  let term := term.assign rnd (logFn term.val)
  let term := term.assign rnd (term.val * (-exponent))
  term.assign rnd (expFn term.val)

end WeightPrecision
/-! ## Ring step: decoding of the index -/

theorem size_t_of_int_small (z : Int) (h0 : 0 ≤ z) (h1 : z < 18446744073709551616) :
    size_t_of_int z = z.toNat := by
  unfold size_t_of_int
  rw [Int.emod_eq_of_lt h0 h1]

theorem int_of_size_t_small (n : Nat) (h : n < 2147483648) : int_of_size_t n = n := by
  unfold int_of_size_t
  omega

theorem mod_lt_two_mul (k m : Nat) (h : k < 2 * m) :
    k % m = if k < m then k else k - m := by
  split
  · exact Nat.mod_eq_of_lt ‹_›
  · rw [Nat.mod_eq_sub_mod (by omega), Nat.mod_eq_of_lt (by omega)]

theorem int_wrap_small (z : Int) (h0 : -2147483648 ≤ z) (h1 : z ≤ 2147483647) :
    int_wrap z = z := by
  unfold int_wrap
  omega

/-- Displacement selected by index `k` on the ring of radius `r`, as four linear pieces;
`n` is the radius as a natural number. -/
theorem get_next_pos_2D_infL_eq (pos : Position2D) (r : Int) (n k : Nat) (hr : r = n)
    (hn : 1 ≤ n) (hn' : 8 * n ≤ 2147483647) (hk : k < 8 * n)
    (hx0 : -2147483648 ≤ pos.x - r) (hx1 : pos.x + r ≤ 2147483647)
    (hy0 : -2147483648 ≤ pos.y - r) (hy1 : pos.y + r ≤ 2147483647) :
    get_next_pos_2D_infL pos k r = some
      (if k < 2 * n + 1 then ⟨pos.x + r, pos.y + (k - r)⟩
       else if k < 2 * (2 * n + 1) then ⟨pos.x - r, pos.y + (k - (2 * r + 1) - r)⟩
       else if k < 2 * (2 * n + 1) + (2 * n - 1) then
         ⟨pos.x + (k - 2 * (2 * r + 1) - r + 1), pos.y + r⟩
       else ⟨pos.x + (k - 2 * (2 * r + 1) - (2 * r - 1) - r + 1), pos.y - r⟩) := by
  have w8 : int_wrap (8 * r) = 8 * r := int_wrap_small _ (by omega) (by omega)
  have w2 : int_wrap (2 * r) = 2 * r := int_wrap_small _ (by omega) (by omega)
  have w1 : int_wrap (2 * r + 1) = 2 * r + 1 := int_wrap_small _ (by omega) (by omega)
  have w4 : int_wrap (2 * (2 * r + 1)) = 2 * (2 * r + 1) :=
    int_wrap_small _ (by omega) (by omega)
  have w0 : int_wrap (2 * r - 1) = 2 * r - 1 := int_wrap_small _ (by omega) (by omega)
  have wn : int_wrap (-r) = -r := int_wrap_small _ (by omega) (by omega)
  have wn1 : int_wrap (-r + 1) = -r + 1 := int_wrap_small _ (by omega) (by omega)
  have e8 : size_t_of_int (8 * r) = 8 * n := by
    rw [size_t_of_int_small _ (by omega) (by omega)]; omega
  have e2 : size_t_of_int (2 * (2 * r + 1)) = 2 * (2 * n + 1) := by
    rw [size_t_of_int_small _ (by omega) (by omega)]; omega
  have e1 : size_t_of_int (2 * r + 1) = 2 * n + 1 := by
    rw [size_t_of_int_small _ (by omega) (by omega)]; omega
  have e0 : size_t_of_int (2 * r - 1) = 2 * n - 1 := by
    rw [size_t_of_int_small _ (by omega) (by omega)]; omega
  have hg : generate_int k (8 * n) = some k := by
    unfold generate_int
    rw [if_neg (by omega), Nat.mod_eq_of_lt hk]
  have hk2 : 2 * (2 * n + 1) ≤ k →
      (k + (18446744073709551616 - 2 * (2 * n + 1))) % 18446744073709551616
        = k - 2 * (2 * n + 1) := by
    intro h; omega
  have hmA : k < 2 * (2 * n + 1) →
      k % (2 * n + 1) = if k < 2 * n + 1 then k else k - (2 * n + 1) :=
    fun h => mod_lt_two_mul k (2 * n + 1) h
  have hmB : (k - 2 * (2 * n + 1)) % (2 * n - 1)
      = if k - 2 * (2 * n + 1) < 2 * n - 1 then k - 2 * (2 * n + 1)
        else k - 2 * (2 * n + 1) - (2 * n - 1) :=
    mod_lt_two_mul _ (2 * n - 1) (by omega)
  simp only [get_next_pos_2D_infL, w8, w2, w1, w4, w0, wn, wn1, e8, e2, e1, e0, hg]
  by_cases hA : k < 2 * (2 * n + 1)
  · simp only [if_pos hA, hmA hA]
    split_ifs <;>
      simp only [Option.some.injEq, Position2D.mk.injEq, int_of_size_t, int_wrap] <;>
      constructor <;> omega
  · simp only [if_neg hA, hk2 (by omega), hmB]
    split_ifs <;>
      simp only [Option.some.injEq, Position2D.mk.injEq, int_of_size_t, int_wrap] <;>
      constructor <;> omega

theorem cheb_eq_iff (a b r : Int) :
    max |a| |b| = r ↔ (-r ≤ a ∧ a ≤ r ∧ -r ≤ b ∧ b ≤ r ∧ (a = r ∨ a = -r ∨ b = r ∨ b = -r)) := by
  rcases abs_cases a with ⟨h1, h2⟩ | ⟨h1, h2⟩ <;> rcases abs_cases b with ⟨h3, h4⟩ | ⟨h3, h4⟩ <;>
    rw [h1, h3] <;> omega

theorem get_next_pos_2D_infL_on_ring_aux (pos : Position2D) (r : Int) (n k : Nat)
    (hr : r = n) (hn : 1 ≤ n) (hn' : 8 * n ≤ 2147483647) (hk : k < 8 * n)
    (hx0 : -2147483648 ≤ pos.x - r) (hx1 : pos.x + r ≤ 2147483647)
    (hy0 : -2147483648 ≤ pos.y - r) (hy1 : pos.y + r ≤ 2147483647) :
    ∃ p, get_next_pos_2D_infL pos k r = some p ∧
      max |p.x - pos.x| |p.y - pos.y| = r ∧
      norm_2D ⟨p.x - pos.x, p.y - pos.y⟩ = r := by
  refine ⟨_, get_next_pos_2D_infL_eq pos r n k hr hn hn' hk hx0 hx1 hy0 hy1, ?_⟩
  have key : ∀ p : Position2D, (-r ≤ p.x - pos.x ∧ p.x - pos.x ≤ r ∧
      -r ≤ p.y - pos.y ∧ p.y - pos.y ≤ r ∧
      (p.x - pos.x = r ∨ p.x - pos.x = -r ∨ p.y - pos.y = r ∨ p.y - pos.y = -r)) →
      max |p.x - pos.x| |p.y - pos.y| = r ∧ norm_2D ⟨p.x - pos.x, p.y - pos.y⟩ = r :=
    fun p h => ⟨(cheb_eq_iff _ _ _).2 h, (cheb_eq_iff _ _ _).2 h⟩
  apply key
  split_ifs <;> simp only <;> omega

theorem get_next_pos_2D_infL_mod (pos : Position2D) (r : Int) (x : Nat)
    (hr : 1 ≤ r) (hr' : 8 * r ≤ 2147483647) :
    generate_int x (size_t_of_int (8 * r)) = some (x % (8 * r).toNat) ∧
    get_next_pos_2D_infL pos x r = get_next_pos_2D_infL pos (x % (8 * r).toNat) r := by
  have w8 : int_wrap (8 * r) = 8 * r := int_wrap_small _ (by omega) (by omega)
  have hsz : size_t_of_int (8 * r) = (8 * r).toNat :=
    size_t_of_int_small _ (by omega) (by omega)
  have hgen : ∀ y : Nat, generate_int y (8 * r).toNat = some (y % (8 * r).toNat) := by
    intro y
    unfold generate_int
    rw [if_neg (by omega)]
  rw [hsz]
  refine ⟨hgen x, ?_⟩
  simp only [get_next_pos_2D_infL, w8, hsz, hgen, Nat.mod_mod]

/-- C1: for every radius `r ≥ 1` whose product `8 * r` the type `int` holds, every index
`k` with `0 ≤ k < 8r` and every current position `pos` whose ring lies in the range of
`int` (that is `INT_MIN ≤ pos.x - r`, `pos.x + r ≤ INT_MAX`, and the same for `pos.y`),
the draw of `generate_int` at engine output `k` is `k`, `get_next_pos_2D_infL` returns a
position, and its displacement from the current position has Chebyshev norm (`norm_2D`)
exactly `r`; an arbitrary engine output `x` gives the position of its draw `x mod 8r`. -/
theorem get_next_pos_2D_infL_on_ring (pos : Position2D) (r : Int) (k : Nat)
    (hr : 1 ≤ r) (hr' : 8 * r ≤ 2147483647) (hk : (k : Int) < 8 * r)
    (hx0 : -2147483648 ≤ pos.x - r) (hx1 : pos.x + r ≤ 2147483647)
    (hy0 : -2147483648 ≤ pos.y - r) (hy1 : pos.y + r ≤ 2147483647) :
    generate_int k (size_t_of_int (8 * r)) = some k ∧
    (∃ p, get_next_pos_2D_infL pos k r = some p ∧
      max |p.x - pos.x| |p.y - pos.y| = r ∧
      norm_2D ⟨p.x - pos.x, p.y - pos.y⟩ = r) ∧
    ∀ x : Nat, generate_int x (size_t_of_int (8 * r)) = some (x % (8 * r).toNat) ∧
      get_next_pos_2D_infL pos x r = get_next_pos_2D_infL pos (x % (8 * r).toNat) r := by
  obtain ⟨n, hn0⟩ := Int.eq_ofNat_of_zero_le (by omega : 0 ≤ r)
  have hn : 1 ≤ n := by omega
  have hk' : k < 8 * n := by omega
  refine ⟨?_, ?_, fun x => get_next_pos_2D_infL_mod pos r x hr hr'⟩
  · rw [(get_next_pos_2D_infL_mod pos r k hr hr').1, Nat.mod_eq_of_lt (by omega)]
  · exact get_next_pos_2D_infL_on_ring_aux pos r n k hn0 hn (by omega) hk' hx0 hx1 hy0 hy1

theorem get_next_pos_2D_infL_on_ring_witness :
    (1 : Int) ≤ 2 ∧ 8 * (2 : Int) ≤ 2147483647 ∧ ((11 : Nat) : Int) < 8 * 2 ∧
    -2147483648 ≤ (3 : Int) - 2 ∧ (3 : Int) + 2 ≤ 2147483647 ∧
    -2147483648 ≤ (-4 : Int) - 2 ∧ (-4 : Int) + 2 ≤ 2147483647 ∧
    ∃ p, get_next_pos_2D_infL ⟨3, -4⟩ 11 2 = some p ∧
      max |p.x - 3| |p.y - (-4)| = 2 ∧ norm_2D ⟨p.x - 3, p.y - (-4)⟩ = 2 :=
  ⟨by decide, by decide, by decide, by decide, by decide, by decide, by decide,
    (get_next_pos_2D_infL_on_ring ⟨3, -4⟩ 2 11 (by decide) (by decide) (by decide)
      (by decide) (by decide) (by decide) (by decide)).2.1⟩

theorem get_next_pos_2D_infL_inj (pos : Position2D) (r : Int) (n k₁ k₂ : Nat) (hr : r = n)
    (hn : 1 ≤ n) (hn' : 8 * n ≤ 2147483647) (h₁ : k₁ < 8 * n) (h₂ : k₂ < 8 * n)
    (hx0 : -2147483648 ≤ pos.x - r) (hx1 : pos.x + r ≤ 2147483647)
    (hy0 : -2147483648 ≤ pos.y - r) (hy1 : pos.y + r ≤ 2147483647)
    (h : get_next_pos_2D_infL pos k₁ r = get_next_pos_2D_infL pos k₂ r) : k₁ = k₂ := by
  rw [get_next_pos_2D_infL_eq pos r n k₁ hr hn hn' h₁ hx0 hx1 hy0 hy1,
    get_next_pos_2D_infL_eq pos r n k₂ hr hn hn' h₂ hx0 hx1 hy0 hy1] at h
  split_ifs at h <;> simp only [Option.some.injEq, Position2D.mk.injEq] at h <;> omega

theorem get_next_pos_2D_infL_surj (pos : Position2D) (r : Int) (n : Nat) (hr : r = n)
    (hn : 1 ≤ n) (hn' : 8 * n ≤ 2147483647)
    (hx0 : -2147483648 ≤ pos.x - r) (hx1 : pos.x + r ≤ 2147483647)
    (hy0 : -2147483648 ≤ pos.y - r) (hy1 : pos.y + r ≤ 2147483647)
    (dx dy : Int) (h : max |dx| |dy| = r) :
    ∃ k : Nat, k < 8 * n ∧ get_next_pos_2D_infL pos k r = some ⟨pos.x + dx, pos.y + dy⟩ := by
  rw [cheb_eq_iff] at h
  obtain ⟨h1, h2, h3, h4, h5⟩ := h
  by_cases hx : dx = r
  · refine ⟨(dy + r).toNat, by omega, ?_⟩
    rw [get_next_pos_2D_infL_eq pos r n _ hr hn hn' (by omega) hx0 hx1 hy0 hy1,
      if_pos (by omega)]
    simp only [Option.some.injEq, Position2D.mk.injEq]
    constructor <;> omega
  by_cases hx' : dx = -r
  · refine ⟨(dy + r).toNat + (2 * n + 1), by omega, ?_⟩
    rw [get_next_pos_2D_infL_eq pos r n _ hr hn hn' (by omega) hx0 hx1 hy0 hy1,
      if_neg (by omega), if_pos (by omega)]
    simp only [Option.some.injEq, Position2D.mk.injEq]
    constructor <;> omega
  by_cases hy : dy = r
  · refine ⟨2 * (2 * n + 1) + (dx + r - 1).toNat, by omega, ?_⟩
    rw [get_next_pos_2D_infL_eq pos r n _ hr hn hn' (by omega) hx0 hx1 hy0 hy1,
      if_neg (by omega), if_neg (by omega), if_pos (by omega)]
    simp only [Option.some.injEq, Position2D.mk.injEq]
    constructor <;> omega
  · refine ⟨2 * (2 * n + 1) + (2 * n - 1) + (dx + r - 1).toNat, by omega, ?_⟩
    rw [get_next_pos_2D_infL_eq pos r n _ hr hn hn' (by omega) hx0 hx1 hy0 hy1,
      if_neg (by omega), if_neg (by omega), if_neg (by omega)]
    simp only [Option.some.injEq, Position2D.mk.injEq]
    constructor <;> omega

/-- C2: for every radius `r ≥ 1` whose product `8 * r` the type `int` holds and every
current position `pos` whose ring lies in the range of `int` (`INT_MIN ≤ pos.x - r`,
`pos.x + r ≤ INT_MAX`, and the same for `pos.y`), `k ↦ get_next_pos_2D_infL pos k r` is a
bijection from `{0,…,8r-1}` onto the ring `{pos + (dx,dy) : max(|dx|,|dy|) = r}`: it is
injective on the indices, every index lands on the ring, every ring point is hit, the
image has exactly `8r` elements, and for `pos = (0,0)`, `r = 1` the indices `0..7` give the
eight Chebyshev neighbours `(1,-1),(1,0),(1,1),(-1,-1),(-1,0),(-1,1),(0,1),(0,-1)`. -/
theorem get_next_pos_2D_infL_bijection (pos : Position2D) (r : Int)
    (hr : 1 ≤ r) (hr' : 8 * r ≤ 2147483647)
    (hx0 : -2147483648 ≤ pos.x - r) (hx1 : pos.x + r ≤ 2147483647)
    (hy0 : -2147483648 ≤ pos.y - r) (hy1 : pos.y + r ≤ 2147483647) :
    (∀ k₁ k₂ : Nat, (k₁ : Int) < 8 * r → (k₂ : Int) < 8 * r →
        get_next_pos_2D_infL pos k₁ r = get_next_pos_2D_infL pos k₂ r → k₁ = k₂) ∧
    (∀ k : Nat, (k : Int) < 8 * r → ∃ p, get_next_pos_2D_infL pos k r = some p ∧
        norm_2D ⟨p.x - pos.x, p.y - pos.y⟩ = r) ∧
    (∀ dx dy : Int, max |dx| |dy| = r → ∃ k : Nat, (k : Int) < 8 * r ∧
        get_next_pos_2D_infL pos k r = some ⟨pos.x + dx, pos.y + dy⟩) ∧
    ((Finset.range (8 * r).toNat).image (fun k => get_next_pos_2D_infL pos k r)).card
        = (8 * r).toNat ∧
    (List.range 8).map (fun k => get_next_pos_2D_infL ⟨0, 0⟩ k 1) =
      [some ⟨1, -1⟩, some ⟨1, 0⟩, some ⟨1, 1⟩, some ⟨-1, -1⟩, some ⟨-1, 0⟩, some ⟨-1, 1⟩,
       some ⟨0, 1⟩, some ⟨0, -1⟩] := by
  obtain ⟨n, hn0⟩ := Int.eq_ofNat_of_zero_le (by omega : 0 ≤ r)
  have hn : 1 ≤ n := by omega
  have hn' : 8 * n ≤ 2147483647 := by omega
  refine ⟨?_, ?_, ?_, ?_, by decide⟩
  · intro k₁ k₂ h₁ h₂ h
    exact get_next_pos_2D_infL_inj pos r n k₁ k₂ hn0 hn hn' (by omega) (by omega)
      hx0 hx1 hy0 hy1 h
  · intro k hk
    obtain ⟨p, hp, _, hp'⟩ :=
      get_next_pos_2D_infL_on_ring_aux pos r n k hn0 hn hn' (by omega) hx0 hx1 hy0 hy1
    exact ⟨p, hp, hp'⟩
  · intro dx dy h
    obtain ⟨k, hk, hk'⟩ := get_next_pos_2D_infL_surj pos r n hn0 hn hn' hx0 hx1 hy0 hy1 dx dy h
    exact ⟨k, by omega, hk'⟩
  · rw [Finset.card_image_of_injOn, Finset.card_range]
    intro k₁ h₁ k₂ h₂ h
    simp only [Finset.coe_range, Set.mem_Iio] at h₁ h₂
    exact get_next_pos_2D_infL_inj pos r n k₁ k₂ hn0 hn hn' (by omega) (by omega)
      hx0 hx1 hy0 hy1 h

theorem get_next_pos_2D_infL_bijection_witness :
    (1 : Int) ≤ 3 ∧ 8 * (3 : Int) ≤ 2147483647 ∧
    -2147483648 ≤ (5 : Int) - 3 ∧ (5 : Int) + 3 ≤ 2147483647 ∧
    -2147483648 ≤ (-2 : Int) - 3 ∧ (-2 : Int) + 3 ≤ 2147483647 ∧
    ((Finset.range (8 * (3 : Int)).toNat).image
        (fun k => get_next_pos_2D_infL ⟨5, -2⟩ k 3)).card = (8 * (3 : Int)).toNat :=
  ⟨by decide, by decide, by decide, by decide, by decide, by decide,
    (get_next_pos_2D_infL_bijection ⟨5, -2⟩ 3 (by decide) (by decide)
      (by decide) (by decide) (by decide) (by decide)).2.2.2.1⟩

/-! ## Alias construction: invariants -/

section LoopUnfolding

variable {α : Type} [LinearOrderedField α]

theorem getD_set_self {β : Type} (l : List β) (i : Nat) (a d : β) (h : i < l.length) :
    (l.set i a).getD i d = a := by
  simp [h]

theorem getD_set_ne {β : Type} (l : List β) (i j : Nat) (a d : β) (h : i ≠ j) :
    (l.set i a).getD j d = l.getD j d := by
  simp [h]

theorem pair_loop_cons (s : BuildState α) (l g : Nat) (small large : List Nat)
    (hs : s.small = l :: small) (hl : s.large = g :: large) :
    pair_loop s = pair_loop (pair_body s l g small large) := by
  rw [pair_loop]
  split
  · rename_i l' small' g' large' hs' hl'
    rw [hs] at hs'
    rw [hl] at hl'
    cases hs'
    cases hl'
    rfl
  · rename_i h
    exact absurd hl (h l small g large hs)

theorem pair_loop_nil (s : BuildState α) (h : s.small = [] ∨ s.large = []) :
    pair_loop s = s := by
  rw [pair_loop]
  split
  · rename_i l' small' g' large' hs' hl'
    rcases h with h | h
    · rw [h] at hs'; cases hs'
    · rw [h] at hl'; cases hl'
  · rfl

/-- Fields of the state after one pairing step. -/
theorem pair_body_fields (s : BuildState α) (l g : Nat) (small large : List Nat)
    (hl : l < s.prob.length) :
    let v := s.scaled_p.getD g 0 - (1 - s.scaled_p.getD l 0)
    (pair_body s l g small large).scaled_p = s.scaled_p.set g v ∧
    (pair_body s l g small large).prob = s.prob.set l (s.scaled_p.getD l 0) ∧
    (pair_body s l g small large).alias_ = s.alias_.set l g ∧
    ((((s.scaled_p.set g v).getD g 0 < 1) ∧ (pair_body s l g small large).small = g :: small ∧
        (pair_body s l g small large).large = large) ∨
     ((¬ (s.scaled_p.set g v).getD g 0 < 1) ∧ (pair_body s l g small large).small = small ∧
        (pair_body s l g small large).large = g :: large)) := by
  intro v
  unfold pair_body
  simp only [getD_set_self _ _ _ _ hl]
  split
  · rename_i h
    exact ⟨rfl, rfl, rfl, Or.inl ⟨h, rfl, rfl⟩⟩
  · rename_i h
    exact ⟨rfl, rfl, rfl, Or.inr ⟨h, rfl, rfl⟩⟩

/-- Induction along the pairing loop: a property kept by every iteration holds at exit. -/
theorem pair_loop_induct (P : BuildState α → Prop)
    (hstep : ∀ s l g small large, s.small = l :: small → s.large = g :: large →
      P s → P (pair_body s l g small large))
    (s : BuildState α) (h : P s) :
    P (pair_loop s) ∧ ((pair_loop s).small = [] ∨ (pair_loop s).large = []) := by
  generalize hm : s.small.length + s.large.length = m
  induction m using Nat.strong_induction_on generalizing s with
  | _ m ih =>
    rcases hs : s.small with _ | ⟨l, small⟩
    · rw [pair_loop_nil s (Or.inl hs)]
      exact ⟨h, Or.inl hs⟩
    · rcases hl : s.large with _ | ⟨g, large⟩
      · rw [pair_loop_nil s (Or.inr hl)]
        exact ⟨h, Or.inr hl⟩
      · rw [pair_loop_cons s l g small large hs hl]
        have hlt : (pair_body s l g small large).small.length
            + (pair_body s l g small large).large.length < m := by
          rw [← hm, hs, hl]
          unfold pair_body
          simp only
          split <;> simp only [List.length_cons] <;> omega
        exact ih _ hlt _ (hstep s l g small large hs hl h) rfl

end LoopUnfolding

section ShapeStep

variable {α : Type} [LinearOrderedField α]

theorem shape_step (n : Nat) (s : BuildState α) (l g : Nat) (small large : List Nat)
    (hs : s.small = l :: small) (hl : s.large = g :: large) (h : Shape n s) :
    Shape n (pair_body s l g small large) := by
  obtain ⟨h1, h2, h3, h4, h5, h6, h7, h8⟩ := h
  rw [hs, hl] at h4 h5
  rw [hs] at h6
  rw [hl] at h7
  have hln : l < n := h5 l (by simp)
  have hgn : g < n := h5 g (by simp)
  obtain ⟨e1, e2, e3, e4⟩ := pair_body_fields s l g small large (by omega)
  simp only [List.cons_append, List.nodup_cons, List.mem_append, List.mem_cons, not_or,
    List.nodup_append, List.Disjoint] at h4
  obtain ⟨⟨hl1, hl2, hl3⟩, hnd1, ⟨hg1, hnd2⟩, hdis⟩ := h4
  have hg2 : g ∉ small := fun hm => hdis hm (Or.inl rfl)
  have hdis' : ∀ ⦃a : ℕ⦄, a ∈ small → a ∈ large → False := fun a ha hm => hdis ha (Or.inr hm)
  have keep : ∀ i, i ≠ g → (pair_body s l g small large).scaled_p.getD i 0
      = s.scaled_p.getD i 0 := by
    intro i hi
    rw [e1, getD_set_ne _ _ _ _ _ (Ne.symm hi)]
  have hal : ∀ i < n, (pair_body s l g small large).alias_.getD i 0 < n := by
    intro i hi
    rw [e3]
    by_cases hil : l = i
    · subst hil
      rw [getD_set_self _ _ _ _ (by omega)]
      exact hgn
    · rw [getD_set_ne _ _ _ _ _ hil]
      exact h8 i hi
  have hne : ∀ i, i ∈ small → i ≠ g := fun i hi hig => hg2 (hig ▸ hi)
  have hne' : ∀ i, i ∈ large → i ≠ g := fun i hi hig => hg1 (hig ▸ hi)
  rcases e4 with ⟨hv, es, el⟩ | ⟨hv, es, el⟩
  · refine ⟨by rw [e1, List.length_set, h1], by rw [e2, List.length_set, h2],
      by rw [e3, List.length_set, h3], ?_, ?_, ?_, ?_, hal⟩
    · rw [es, el]
      simp only [List.cons_append, List.nodup_cons, List.mem_append, not_or,
        List.nodup_append, List.Disjoint]
      exact ⟨⟨hg2, hg1⟩, hnd1, hnd2, hdis'⟩
    · rw [es, el]
      intro i hi
      apply h5
      simp only [List.cons_append, List.mem_cons, List.mem_append] at hi ⊢
      tauto
    · rw [es]
      intro i hi
      rcases List.mem_cons.1 hi with rfl | hi
      · rw [e1]; exact hv
      · rw [keep i (hne i hi)]
        exact h6 i (List.mem_cons_of_mem _ hi)
    · rw [el]
      intro i hi
      rw [keep i (hne' i hi)]
      exact h7 i (List.mem_cons_of_mem _ hi)
  · refine ⟨by rw [e1, List.length_set, h1], by rw [e2, List.length_set, h2],
      by rw [e3, List.length_set, h3], ?_, ?_, ?_, ?_, hal⟩
    · rw [es, el]
      simp only [List.nodup_cons, List.mem_append, not_or,
        List.nodup_append, List.Disjoint]
      refine ⟨hnd1, ⟨hg1, hnd2⟩, ?_⟩
      intro a ha hm
      exact hdis ha (List.mem_cons.1 hm)
    · rw [es, el]
      intro i hi
      apply h5
      simp only [List.cons_append, List.mem_cons, List.mem_append] at hi ⊢
      tauto
    · rw [es]
      intro i hi
      rw [keep i (hne i hi)]
      exact h6 i (List.mem_cons_of_mem _ hi)
    · rw [el]
      intro i hi
      rcases List.mem_cons.1 hi with rfl | hi
      · rw [e1]; exact not_lt.1 hv
      · rw [keep i (hne' i hi)]
        exact h7 i (List.mem_cons_of_mem _ hi)

end ShapeStep

section StepInvariants

variable {α : Type} [LinearOrderedField α]

/-- Facts that the shape invariant gives about the two popped indices. -/
theorem shape_popped (n : Nat) (s : BuildState α) (l g : Nat) (small large : List Nat)
    (hs : s.small = l :: small) (hl : s.large = g :: large) (h : Shape n s) :
    l < n ∧ g < n ∧ l ≠ g ∧ l ∉ small ∧ l ∉ large ∧ g ∉ small ∧ g ∉ large ∧
      s.scaled_p.getD l 0 < 1 ∧ 1 ≤ s.scaled_p.getD g 0 := by
  obtain ⟨_, _, _, h4, h5, h6, h7, _⟩ := h
  rw [hs, hl] at h4 h5
  rw [hs] at h6
  rw [hl] at h7
  simp only [List.cons_append, List.nodup_cons, List.mem_append, List.mem_cons, not_or,
    List.nodup_append, List.Disjoint] at h4
  obtain ⟨⟨hl1, hl2, hl3⟩, _, ⟨hg1, _⟩, hdis⟩ := h4
  exact ⟨h5 l (by simp), h5 g (by simp), hl2, hl1, hl3, fun hm => hdis hm (Or.inl rfl), hg1,
    h6 l (List.mem_cons_self _ _), h7 g (List.mem_cons_self _ _)⟩

/-- Pending indices after one pairing step: those before it, without `l`. -/
theorem pending_step (s : BuildState α) (l g : Nat) (small large : List Nat) (i : Nat) :
    i ∈ (pair_body s l g small large).small ++ (pair_body s l g small large).large ↔
      (i = g ∨ i ∈ small ∨ i ∈ large) := by
  unfold pair_body
  simp only
  split <;> simp only [List.mem_append, List.mem_cons] <;> tauto

theorem nonneg_step (n : Nat) (s : BuildState α) (l g : Nat) (small large : List Nat)
    (hs : s.small = l :: small) (hl : s.large = g :: large) (hsh : Shape n s)
    (h : NonNeg n s) : NonNeg n (pair_body s l g small large) := by
  obtain ⟨hln, hgn, hlg, hl1, hl2, hg1, hg2, hlt, hge⟩ := shape_popped n s l g small large hs hl hsh
  obtain ⟨e1, e2, _, _⟩ := pair_body_fields s l g small large (by rw [hsh.len_pr]; exact hln)
  have hl0 : 0 ≤ s.scaled_p.getD l 0 := (h l hln).1 (by rw [hs]; simp)
  intro i hi
  rw [pending_step, e1, e2]
  constructor
  · intro hmem
    by_cases hig : g = i
    · subst hig
      rw [getD_set_self _ _ _ _ (by rw [hsh.len_sp]; exact hgn)]
      linarith
    · rw [getD_set_ne _ _ _ _ _ hig]
      apply (h i hi).1
      rw [hs, hl]
      simp only [List.cons_append, List.mem_cons, List.mem_append]
      rcases hmem with hmem | hmem | hmem
      · exact absurd hmem.symm hig
      · exact Or.inr (Or.inl hmem)
      · exact Or.inr (Or.inr (Or.inr hmem))
  · intro hmem
    simp only [not_or] at hmem
    by_cases hil : l = i
    · subst hil
      rw [getD_set_self _ _ _ _ (by rw [hsh.len_pr]; exact hln)]
      exact ⟨hl0, le_of_lt hlt⟩
    · rw [getD_set_ne _ _ _ _ _ hil]
      apply (h i hi).2
      rw [hs, hl]
      simp only [List.cons_append, List.mem_cons, List.mem_append, not_or]
      exact ⟨Ne.symm hil, hmem.2.1, hmem.1, hmem.2.2⟩

theorem total_step (n : Nat) (s : BuildState α) (l g : Nat) (small large : List Nat)
    (hs : s.small = l :: small) (hl : s.large = g :: large) (hsh : Shape n s)
    (h : Total s) : Total (pair_body s l g small large) := by
  obtain ⟨hln, hgn, hlg, hl1, hl2, hg1, hg2, hlt, hge⟩ := shape_popped n s l g small large hs hl hsh
  obtain ⟨e1, _, _, e4⟩ := pair_body_fields s l g small large (by rw [hsh.len_pr]; exact hln)
  unfold Total at h ⊢
  rw [hs, hl] at h
  simp only [List.cons_append, List.map_cons, List.map_append, List.sum_cons, List.sum_append,
    List.length_cons, List.length_append, Nat.cast_add, Nat.cast_one] at h
  have keep : ∀ xs : List Nat, g ∉ xs →
      (xs.map (fun i => (pair_body s l g small large).scaled_p.getD i 0))
        = xs.map (fun i => s.scaled_p.getD i 0) := by
    intro xs hx
    apply List.map_congr_left
    intro i hi
    rw [e1, getD_set_ne]
    rintro rfl
    exact hx hi
  have hg' : (pair_body s l g small large).scaled_p.getD g 0
      = s.scaled_p.getD g 0 - (1 - s.scaled_p.getD l 0) := by
    rw [e1, getD_set_self _ _ _ _ (by rw [hsh.len_sp]; exact hgn)]
  rcases e4 with ⟨_, es, el⟩ | ⟨_, es, el⟩
  · rw [es, el]
    simp only [List.cons_append, List.map_cons, List.map_append, List.sum_cons,
      List.sum_append, List.length_cons, List.length_append, Nat.cast_add, Nat.cast_one]
    rw [keep small hg1, keep large hg2, hg']
    linarith
  · rw [es, el]
    simp only [List.map_cons, List.map_append, List.sum_cons,
      List.sum_append, List.length_cons, List.length_append, Nat.cast_add, Nat.cast_one]
    rw [keep small hg1, keep large hg2, hg']
    linarith

theorem mass_step (p : List α) (n : Nat) (s : BuildState α) (l g : Nat)
    (small large : List Nat)
    (hs : s.small = l :: small) (hl : s.large = g :: large) (hsh : Shape n s)
    (h : Mass p n s) : Mass p n (pair_body s l g small large) := by
  obtain ⟨hln, hgn, hlg, hl1, hl2, hg1, hg2, hlt, hge⟩ := shape_popped n s l g small large hs hl hsh
  obtain ⟨e1, e2, e3, _⟩ := pair_body_fields s l g small large (by rw [hsh.len_pr]; exact hln)
  have hU : ∀ i, i ∈ s.small ++ s.large ↔ (i = l ∨ i = g ∨ i ∈ small ∨ i ∈ large) := by
    intro i
    rw [hs, hl]
    simp only [List.cons_append, List.mem_cons, List.mem_append]
    tauto
  intro j hj
  have hsum : ∑ i in Finset.range n,
        (if i ∉ (pair_body s l g small large).small ++ (pair_body s l g small large).large
            ∧ (pair_body s l g small large).alias_.getD i 0 = j
          then 1 - (pair_body s l g small large).prob.getD i 0 else 0)
      = ∑ i in Finset.range n,
          ((if i ∉ s.small ++ s.large ∧ s.alias_.getD i 0 = j then 1 - s.prob.getD i 0 else 0)
            + (if i = l then (if g = j then 1 - s.scaled_p.getD l 0 else 0) else 0)) := by
    apply Finset.sum_congr rfl
    intro i _
    simp only [pending_step, hU, e2, e3]
    by_cases hil : i = l
    · subst hil
      have hp := getD_set_self s.prob i (s.scaled_p.getD i 0) 0 (by rw [hsh.len_pr]; exact hln)
      have ha := getD_set_self s.alias_ i g 0 (by rw [hsh.len_al]; exact hln)
      rw [hp, ha]
      simp [hlg, hl1, hl2]
    · rw [getD_set_ne _ _ _ _ _ (Ne.symm hil), getD_set_ne _ _ _ _ _ (Ne.symm hil)]
      simp [hil]
  rw [hsum, Finset.sum_add_distrib, Finset.sum_ite_eq' (Finset.range n) l,
    if_pos (Finset.mem_range.2 hln)]
  have hj' := h j hj
  simp only [pending_step, e1, e2]
  by_cases hjg : j = g
  · subst hjg
    rw [if_pos (Or.inl rfl), getD_set_self _ _ _ _ (by rw [hsh.len_sp]; exact hgn), if_pos rfl]
    rw [if_pos ((hU j).2 (Or.inr (Or.inl rfl)))] at hj'
    linarith
  · rw [getD_set_ne _ _ _ _ _ (Ne.symm hjg), if_neg (Ne.symm hjg), add_zero]
    by_cases hjl : j = l
    · subst hjl
      rw [if_neg (by simp [hjg, hl1, hl2]), getD_set_self _ _ _ _ (by rw [hsh.len_pr]; exact hln)]
      rw [if_pos ((hU j).2 (Or.inl rfl))] at hj'
      exact hj'
    · rw [getD_set_ne _ _ _ _ _ (Ne.symm hjl)]
      rw [← hj']
      congr 1
      simp only [hU, hjg, hjl, false_or]

end StepInvariants

section EntryAndDrain

variable {α : Type} [LinearOrderedField α]

theorem classify_succ (p : List α) (n : Nat) :
    classify p (n + 1) =
      if p.getD n 0 < 1 then (n :: (classify p n).1, (classify p n).2)
      else ((classify p n).1, n :: (classify p n).2) := by
  unfold classify
  rw [List.range_succ, List.foldl_append]
  rfl

/-- Result of the classification loop: the two stacks split `{0,…,n-1}` by the test
`scaled_p[i] < 1`, without repetition. -/
theorem classify_spec (p : List α) (n : Nat) :
    (∀ i, i ∈ (classify p n).1 ++ (classify p n).2 ↔ i < n) ∧
    ((classify p n).1 ++ (classify p n).2).Nodup ∧
    (∀ i ∈ (classify p n).1, p.getD i 0 < 1) ∧
    (∀ i ∈ (classify p n).2, 1 ≤ p.getD i 0) ∧
    (((classify p n).1 ++ (classify p n).2).map (fun i => p.getD i 0)).sum
      = ∑ i in Finset.range n, p.getD i 0 ∧
    ((classify p n).1 ++ (classify p n).2).length = n := by
  induction n with
  | zero => simp [classify]
  | succ n ih =>
    obtain ⟨h1, h2, h3, h4, h5, h6⟩ := ih
    have hn : n ∉ (classify p n).1 ++ (classify p n).2 := fun hm => by
      have := (h1 n).1 hm
      omega
    have hn' := hn
    simp only [List.mem_append, not_or] at hn'
    simp only [List.map_append, List.sum_append, List.length_append] at h5 h6
    have hdis : ∀ ⦃a : ℕ⦄, a ∈ (classify p n).1 → a ∈ (classify p n).2 → False := by
      intro a ha hb
      exact (List.nodup_append.1 h2).2.2 ha hb
    rw [classify_succ]
    by_cases hp : p.getD n 0 < 1
    · rw [if_pos hp]
      refine ⟨?_, ?_, ?_, h4, ?_, ?_⟩
      · intro i
        have := h1 i
        simp only [List.mem_append, List.cons_append, List.mem_cons] at this ⊢
        rw [this]
        omega
      · simp only [List.cons_append, List.nodup_cons]
        exact ⟨hn, h2⟩
      · intro i hi
        rcases List.mem_cons.1 hi with rfl | hi
        · exact hp
        · exact h3 i hi
      · simp only [List.cons_append, List.map_cons, List.map_append, List.sum_cons,
          List.sum_append, Finset.sum_range_succ]
        linarith
      · simp only [List.cons_append, List.length_cons, List.length_append]
        omega
    · rw [if_neg hp]
      refine ⟨?_, ?_, h3, ?_, ?_, ?_⟩
      · intro i
        have := h1 i
        simp only [List.mem_append, List.mem_cons] at this ⊢
        rw [Nat.lt_succ_iff_lt_or_eq, ← this]
        tauto
      · simp only [List.nodup_append, List.nodup_cons, List.Disjoint, List.mem_cons]
        refine ⟨(List.nodup_append.1 h2).1, ⟨hn'.2, (List.nodup_append.1 h2).2.1⟩, ?_⟩
        rintro a ha (rfl | hm)
        · exact hn'.1 ha
        · exact hdis ha hm
      · intro i hi
        rcases List.mem_cons.1 hi with rfl | hi
        · exact not_lt.1 hp
        · exact h4 i hi
      · simp only [List.map_cons, List.map_append, List.sum_cons,
          List.sum_append, Finset.sum_range_succ]
        linarith
      · simp only [List.length_cons, List.length_append]
        omega

theorem sum_range_getD (p : List α) : ∑ i in Finset.range p.length, p.getD i 0 = p.sum := by
  induction p with
  | nil => simp
  | cons a p ih =>
    rw [List.length_cons, Finset.sum_range_succ', List.sum_cons, ← ih]
    simp [add_comm]

theorem getD_nonneg (p : List α) (h : ∀ x ∈ p, 0 ≤ x) (i : Nat) : 0 ≤ p.getD i 0 := by
  rw [List.getD_eq_getElem?_getD]
  rcases hi : p[i]? with _ | x
  · simp
  · simp only [Option.getD_some]
    exact h x (List.getElem?_mem hi)

/-- State at the entry of the pairing loop. -/
theorem init_shape (p : List α) (n : Nat) (hlen : p.length = n) :
    Shape n ⟨p, List.replicate n 0, List.replicate n 0, (classify p n).1, (classify p n).2⟩ := by
  obtain ⟨h1, h2, h3, h4, _, _⟩ := classify_spec p n
  refine ⟨hlen, by simp, by simp, h2, fun i hi => (h1 i).1 hi, h3, h4, ?_⟩
  intro i hi
  simp only [List.getD_eq_getElem?_getD, List.getElem?_replicate, hi, if_true, Option.getD_some]
  omega

theorem init_nonneg (p : List α) (n : Nat) (hp : ∀ x ∈ p, 0 ≤ x) :
    NonNeg n ⟨p, List.replicate n 0, List.replicate n 0, (classify p n).1, (classify p n).2⟩ := by
  obtain ⟨h1, _⟩ := classify_spec p n
  intro i hi
  exact ⟨fun _ => getD_nonneg p hp i, fun hm => absurd ((h1 i).2 hi) hm⟩

theorem init_mass (p : List α) (n : Nat) :
    Mass p n ⟨p, List.replicate n 0, List.replicate n 0, (classify p n).1, (classify p n).2⟩ := by
  obtain ⟨h1, _⟩ := classify_spec p n
  intro j hj
  simp only
  rw [if_pos ((h1 j).2 hj), Finset.sum_eq_zero, add_zero]
  intro i hi
  rw [if_neg]
  intro hc
  exact hc.1 ((h1 i).2 (Finset.mem_range.1 hi))

theorem init_total (p : List α) (n : Nat) (hlen : p.length = n) (hsum : p.sum = (n : α)) :
    Total ⟨p, List.replicate n 0, List.replicate n 0, (classify p n).1, (classify p n).2⟩ := by
  obtain ⟨_, _, _, _, h5, h6⟩ := classify_spec p n
  unfold Total
  simp only
  rw [h5, h6, ← hlen, sum_range_getD, hsum, hlen]

theorem drain_spec (gs : List Nat) : ∀ (prob : List α) (alias_ : List Nat),
    (drain prob alias_ gs).1.length = prob.length ∧
    (drain prob alias_ gs).2.length = alias_.length ∧
    (∀ i, (∀ g ∈ gs, g < prob.length) →
      (drain prob alias_ gs).1.getD i 0 = if i ∈ gs then 1 else prob.getD i 0) ∧
    (∀ i, (∀ g ∈ gs, g < alias_.length) →
      (drain prob alias_ gs).2.getD i 0 = if i ∈ gs then i else alias_.getD i 0) := by
  induction gs with
  | nil =>
    intro prob alias_
    simp [drain]
  | cons g rest ih =>
    intro prob alias_
    obtain ⟨h1, h2, h3, h4⟩ := ih (prob.set g 1) (alias_.set g g)
    rw [List.length_set] at h1 h2
    refine ⟨h1, h2, ?_, ?_⟩
    · intro i hg
      have hg' : ∀ g' ∈ rest, g' < (prob.set g 1).length := by
        intro g' hm
        rw [List.length_set]
        exact hg g' (List.mem_cons_of_mem _ hm)
      show (drain (prob.set g 1) (alias_.set g g) rest).1.getD i 0 = _
      rw [h3 i hg']
      by_cases hi : i ∈ rest
      · rw [if_pos hi, if_pos (List.mem_cons_of_mem _ hi)]
      · rw [if_neg hi]
        by_cases hig : g = i
        · subst hig
          rw [getD_set_self _ _ _ _ (hg g (List.mem_cons_self _ _)),
            if_pos (List.mem_cons_self _ _)]
        · rw [getD_set_ne _ _ _ _ _ hig, if_neg]
          simp only [List.mem_cons, not_or]
          exact ⟨Ne.symm hig, hi⟩
    · intro i hg
      have hg' : ∀ g' ∈ rest, g' < (alias_.set g g).length := by
        intro g' hm
        rw [List.length_set]
        exact hg g' (List.mem_cons_of_mem _ hm)
      show (drain (prob.set g 1) (alias_.set g g) rest).2.getD i 0 = _
      rw [h4 i hg']
      by_cases hi : i ∈ rest
      · rw [if_pos hi, if_pos (List.mem_cons_of_mem _ hi)]
      · rw [if_neg hi]
        by_cases hig : g = i
        · subst hig
          rw [getD_set_self _ _ _ _ (hg g (List.mem_cons_self _ _)),
            if_pos (List.mem_cons_self _ _)]
        · rw [getD_set_ne _ _ _ _ _ hig, if_neg]
          simp only [List.mem_cons, not_or]
          exact ⟨Ne.symm hig, hi⟩

end EntryAndDrain

section ExitState

variable {α : Type} [LinearOrderedField α]

theorem sum_lt_length (xs : List α) (h : ∀ x ∈ xs, x < 1) (hne : xs ≠ []) :
    xs.sum < (xs.length : α) := by
  induction xs with
  | nil => exact absurd rfl hne
  | cons a xs ih =>
    have ha : a < 1 := h a (List.mem_cons_self _ _)
    rw [List.sum_cons, List.length_cons, Nat.cast_add, Nat.cast_one]
    rcases xs with _ | ⟨b, xs⟩
    · simp only [List.sum_nil, List.length_nil, Nat.cast_zero]
      linarith
    · have := ih (fun x hx => h x (List.mem_cons_of_mem _ hx)) (List.cons_ne_nil _ _)
      linarith

theorem length_le_sum (xs : List α) (h : ∀ x ∈ xs, 1 ≤ x) : (xs.length : α) ≤ xs.sum := by
  induction xs with
  | nil => simp
  | cons a xs ih =>
    have ha : 1 ≤ a := h a (List.mem_cons_self _ _)
    have := ih (fun x hx => h x (List.mem_cons_of_mem _ hx))
    rw [List.sum_cons, List.length_cons, Nat.cast_add, Nat.cast_one]
    linarith

theorem all_one_of_sum (xs : List α) (h : ∀ x ∈ xs, 1 ≤ x) (hs : xs.sum = (xs.length : α)) :
    ∀ x ∈ xs, x = 1 := by
  induction xs with
  | nil => intro x hx; cases hx
  | cons a xs ih =>
    have ha : 1 ≤ a := h a (List.mem_cons_self _ _)
    have hxs := length_le_sum xs (fun x hx => h x (List.mem_cons_of_mem _ hx))
    rw [List.sum_cons, List.length_cons, Nat.cast_add, Nat.cast_one] at hs
    intro x hx
    rcases List.mem_cons.1 hx with rfl | hx
    · linarith
    · exact ih (fun x hx => h x (List.mem_cons_of_mem _ hx)) (by linarith) x hx

/-- At the exit of the pairing loop every pending index has weight exactly one, when the
pending weights add up to their number. -/
theorem pending_all_one (n : Nat) (s : BuildState α) (hsh : Shape n s) (ht : Total s)
    (hexit : s.small = [] ∨ s.large = []) :
    ∀ i ∈ s.small ++ s.large, s.scaled_p.getD i 0 = 1 := by
  unfold Total at ht
  rcases hexit with he | he
  · rw [he] at ht ⊢
    simp only [List.nil_append] at ht ⊢
    intro i hi
    apply all_one_of_sum _ _ (by rw [List.length_map]; exact ht)
    · exact List.mem_map.2 ⟨i, hi, rfl⟩
    · intro x hx
      obtain ⟨k, hk, rfl⟩ := List.mem_map.1 hx
      exact hsh.large_ge k hk
  · rw [he] at ht ⊢
    simp only [List.append_nil] at ht ⊢
    by_cases hne : s.small = []
    · intro i hi
      rw [hne] at hi
      cases hi
    · exfalso
      have := sum_lt_length (s.small.map (fun i => s.scaled_p.getD i 0))
        (by
          intro x hx
          obtain ⟨k, hk, rfl⟩ := List.mem_map.1 hx
          exact hsh.small_lt k hk)
        (by simpa using hne)
      rw [ht, List.length_map] at this
      exact lt_irrefl _ this

/-- Entries of the finished table in terms of the state at the exit of the pairing loop:
a pending index is drained to `prob = 1`, `alias = itself`; the others are kept. -/
theorem alias_construct_entries (p : List α) (n : Nat) (hlen : p.length = n) :
    (alias_construct p n).prob.length = n ∧ (alias_construct p n).alias_.length = n ∧
    ∀ i,
      (alias_construct p n).prob.getD i 0
        = (if i ∈ (pair_loop ⟨p, List.replicate n 0, List.replicate n 0,
              (classify p n).1, (classify p n).2⟩).small
            ++ (pair_loop ⟨p, List.replicate n 0, List.replicate n 0,
              (classify p n).1, (classify p n).2⟩).large then 1
           else (pair_loop ⟨p, List.replicate n 0, List.replicate n 0,
              (classify p n).1, (classify p n).2⟩).prob.getD i 0) ∧
      (alias_construct p n).alias_.getD i 0
        = (if i ∈ (pair_loop ⟨p, List.replicate n 0, List.replicate n 0,
              (classify p n).1, (classify p n).2⟩).small
            ++ (pair_loop ⟨p, List.replicate n 0, List.replicate n 0,
              (classify p n).1, (classify p n).2⟩).large then i
           else (pair_loop ⟨p, List.replicate n 0, List.replicate n 0,
              (classify p n).1, (classify p n).2⟩).alias_.getD i 0) := by
  have hsh := (pair_loop_induct (Shape n) (fun s l g small large hs hl h =>
    shape_step n s l g small large hs hl h) _ (init_shape p n hlen)).1
  unfold alias_construct
  simp only
  generalize pair_loop ⟨p, List.replicate n 0, List.replicate n 0,
    (classify p n).1, (classify p n).2⟩ = s at hsh ⊢
  have hL : ∀ g ∈ s.large, g < n := fun g hg => hsh.lt_n g (List.mem_append_right _ hg)
  have hS : ∀ g ∈ s.small, g < n := fun g hg => hsh.lt_n g (List.mem_append_left _ hg)
  obtain ⟨a1, a2, a3, a4⟩ := drain_spec s.large s.prob s.alias_
  obtain ⟨b1, b2, b3, b4⟩ := drain_spec s.small (drain s.prob s.alias_ s.large).1
    (drain s.prob s.alias_ s.large).2
  refine ⟨by rw [b1, a1, hsh.len_pr], by rw [b2, a2, hsh.len_al], fun i => ⟨?_, ?_⟩⟩
  · rw [b3 i (by intro g hg; rw [a1, hsh.len_pr]; exact hS g hg),
      a3 i (by intro g hg; rw [hsh.len_pr]; exact hL g hg)]
    simp only [List.mem_append]
    split_ifs <;> first | rfl | tauto
  · rw [b4 i (by intro g hg; rw [a2, hsh.len_al]; exact hS g hg),
      a4 i (by intro g hg; rw [hsh.len_al]; exact hL g hg)]
    simp only [List.mem_append]
    split_ifs <;> first | rfl | tauto

end ExitState

section TableProperties

variable {α : Type} [LinearOrderedField α]

theorem foldl_add_eq_sum (xs : List α) : ∀ acc : α,
    xs.foldl (fun acc w => acc + w) acc = acc + xs.sum := by
  induction xs with
  | nil => intro acc; simp
  | cons a xs ih =>
    intro acc
    rw [List.foldl_cons, ih, List.sum_cons, add_assoc]

theorem weight_sum_eq (logFn expFn : α → α) (exponent : α) (r_max : Nat) :
    weight_sum logFn expFn exponent r_max = (weight_terms logFn expFn exponent r_max).sum := by
  unfold weight_sum
  rw [foldl_add_eq_sum, zero_add]

theorem weight_terms_pos (logFn expFn : α → α) (hexp : ∀ x, 0 < expFn x) (exponent : α)
    (r_max : Nat) : ∀ w ∈ weight_terms logFn expFn exponent r_max, 0 < w := by
  intro w hw
  obtain ⟨i, _, rfl⟩ := List.mem_map.1 hw
  exact hexp _

theorem scaled_weights_nonneg (logFn expFn : α → α) (hexp : ∀ x, 0 < expFn x) (exponent : α)
    (r_max : Nat) : ∀ x ∈ scaled_weights logFn expFn exponent r_max, 0 ≤ x := by
  intro x hx
  obtain ⟨w, hw, rfl⟩ := List.mem_map.1 hx
  have hw0 := weight_terms_pos logFn expFn hexp exponent r_max w hw
  have hS : 0 ≤ weight_sum logFn expFn exponent r_max := by
    rw [weight_sum_eq]
    exact List.sum_nonneg (fun y hy => le_of_lt (weight_terms_pos logFn expFn hexp exponent r_max y hy))
  exact mul_nonneg (div_nonneg (le_of_lt hw0) hS) (Nat.cast_nonneg _)

theorem scaled_weights_length (logFn expFn : α → α) (exponent : α) (r_max : Nat) :
    (scaled_weights logFn expFn exponent r_max).length = r_max := by
  simp [scaled_weights, weight_terms]

/-- Ranges of the entries of the table built from non-negative weights. -/
theorem alias_construct_ranges (p : List α) (n : Nat) (hlen : p.length = n)
    (hp : ∀ x ∈ p, 0 ≤ x) :
    (alias_construct p n).prob.length = n ∧ (alias_construct p n).alias_.length = n ∧
    (∀ x ∈ (alias_construct p n).prob, 0 ≤ x ∧ x ≤ 1) ∧
    (∀ a ∈ (alias_construct p n).alias_, a < n) := by
  obtain ⟨h1, h2, h3⟩ := alias_construct_entries p n hlen
  have hinv := (pair_loop_induct (fun s => Shape n s ∧ NonNeg n s)
    (fun s l g small large hs hl h =>
      ⟨shape_step n s l g small large hs hl h.1, nonneg_step n s l g small large hs hl h.1 h.2⟩)
    _ ⟨init_shape p n hlen, init_nonneg p n hp⟩).1
  obtain ⟨hsh, hnn⟩ := hinv
  refine ⟨h1, h2, ?_, ?_⟩
  · intro x hx
    obtain ⟨i, hi, rfl⟩ := List.getElem_of_mem hx
    have hg : (alias_construct p n).prob.getD i 0 = (alias_construct p n).prob[i] := by
      rw [List.getD_eq_getElem?_getD, List.getElem?_eq_getElem hi, Option.getD_some]
    rw [← hg, (h3 i).1]
    split
    · exact ⟨zero_le_one, le_refl _⟩
    · rename_i hm
      exact (hnn i (by omega)).2 hm
  · intro a ha
    obtain ⟨i, hi, rfl⟩ := List.getElem_of_mem ha
    have hg : (alias_construct p n).alias_.getD i 0 = (alias_construct p n).alias_[i] := by
      rw [List.getD_eq_getElem?_getD, List.getElem?_eq_getElem hi, Option.getD_some]
    rw [← hg, (h3 i).2]
    split
    · omega
    · exact hsh.alias_lt i (by omega)

/-- Alias entries of the table built from any weights are indices of the table. -/
theorem alias_construct_alias_lt (p : List α) (n : Nat) (hlen : p.length = n) :
    (alias_construct p n).prob.length = n ∧ (alias_construct p n).alias_.length = n ∧
    (∀ a ∈ (alias_construct p n).alias_, a < n) := by
  obtain ⟨h1, h2, h3⟩ := alias_construct_entries p n hlen
  have hsh := (pair_loop_induct (Shape n) (fun s l g small large hs hl h =>
    shape_step n s l g small large hs hl h) _ (init_shape p n hlen)).1
  refine ⟨h1, h2, ?_⟩
  intro a ha
  obtain ⟨i, hi, rfl⟩ := List.getElem_of_mem ha
  have hg : (alias_construct p n).alias_.getD i 0 = (alias_construct p n).alias_[i] := by
    rw [List.getD_eq_getElem?_getD, List.getElem?_eq_getElem hi, Option.getD_some]
  rw [← hg, (h3 i).2]
  split
  · omega
  · exact hsh.alias_lt i (by omega)

/-- Mass equation of the table built from weights of sum `n`. -/
theorem alias_construct_mass (p : List α) (n : Nat) (hlen : p.length = n)
    (hsum : p.sum = (n : α)) (j : Nat) (hj : j < n) :
    (alias_construct p n).prob.getD j 0
      + ∑ i in Finset.range n,
          (if (alias_construct p n).alias_.getD i 0 = j
            then 1 - (alias_construct p n).prob.getD i 0 else 0)
      = p.getD j 0 := by
  obtain ⟨_, _, h3⟩ := alias_construct_entries p n hlen
  have hinv := pair_loop_induct (fun s => Shape n s ∧ Mass p n s ∧ Total s)
    (fun s l g small large hs hl h =>
      ⟨shape_step n s l g small large hs hl h.1, mass_step p n s l g small large hs hl h.1 h.2.1,
        total_step n s l g small large hs hl h.1 h.2.2⟩)
    _ ⟨init_shape p n hlen, init_mass p n, init_total p n hlen hsum⟩
  obtain ⟨⟨hsh, hmass, htot⟩, hexit⟩ := hinv
  have hone := pending_all_one n _ hsh htot hexit
  rw [← hmass j hj]
  congr 1
  · rw [(h3 j).1]
    split
    · rename_i hm
      exact (hone j hm).symm
    · rfl
  · apply Finset.sum_congr rfl
    intro i _
    rw [(h3 i).1, (h3 i).2]
    split
    · rename_i hm
      simp [hm]
    · rename_i hm
      simp [hm]

end TableProperties

section AliasClaims

variable {α : Type} [LinearOrderedField α]

theorem generate_double_range (x : Nat) (hx : x < 18446744073709551616) :
    (0 : α) ≤ generate_double x ∧ (generate_double x : α) < 1 := by
  unfold generate_double
  have h53 : (1 <<< 53 : Nat) = 9007199254740992 := by decide
  have hlt : x >>> 11 < 9007199254740992 := by
    rw [Nat.shiftRight_eq_div_pow]
    omega
  rw [h53]
  have hpos : (0 : α) < ((9007199254740992 : Nat) : α) := by
    exact_mod_cast (by decide : 0 < 9007199254740992)
  constructor
  · exact mul_nonneg (Nat.cast_nonneg _) (div_nonneg zero_le_one (le_of_lt hpos))
  · have hlt' : ((x >>> 11 : Nat) : α) < ((9007199254740992 : Nat) : α) := Nat.cast_lt.2 hlt
    calc ((x >>> 11 : Nat) : α) * (1 / ((9007199254740992 : Nat) : α))
        < ((9007199254740992 : Nat) : α) * (1 / ((9007199254740992 : Nat) : α)) :=
          mul_lt_mul_of_pos_right hlt' (div_pos zero_lt_one hpos)
      _ = 1 := mul_one_div_cancel (ne_of_gt hpos)

/-- C3: over exact arithmetic, for every `r_max ≥ 1` and every non-negative weight
sequence `p` of length `r_max` whose arithmetic mean is 1, the table made by the alias
construction of `build_alias_table` reproduces `p`: for every index `j`,
`prob[j]` plus the sum of `1 - prob[i]` over the indices `i` with `alias[i] = j` is `p[j]`;
`prob[j]` is a probability; and drawing `i` uniformly in `[0, r_max)`, returning `i` with
probability `prob[i]` and `alias[i]` otherwise, yields `j` with probability
`p[j] / r_max`. -/
theorem alias_construct_reproduces (p : List α) (r_max : Nat) (hr : 1 ≤ r_max)
    (hlen : p.length = r_max) (hnn : ∀ x ∈ p, 0 ≤ x) (hmean : p.sum / (r_max : α) = 1) :
    ∀ j < r_max,
      ((alias_construct p r_max).prob.getD j 0
        + ∑ i in (Finset.range r_max).filter
            (fun i => (alias_construct p r_max).alias_.getD i 0 = j),
            (1 - (alias_construct p r_max).prob.getD i 0)
        = p.getD j 0) ∧
      (0 ≤ (alias_construct p r_max).prob.getD j 0 ∧
        (alias_construct p r_max).prob.getD j 0 ≤ 1) ∧
      (∑ i in Finset.range r_max, (1 / (r_max : α)) *
          ((if i = j then (alias_construct p r_max).prob.getD i 0 else 0)
            + (if (alias_construct p r_max).alias_.getD i 0 = j
                then 1 - (alias_construct p r_max).prob.getD i 0 else 0))
        = p.getD j 0 / (r_max : α)) := by
  have hpos : (0 : α) < (r_max : α) := by exact_mod_cast hr
  have hsum : p.sum = (r_max : α) := by
    rw [div_eq_one_iff_eq (ne_of_gt hpos)] at hmean
    exact hmean
  intro j hj
  have hm := alias_construct_mass p r_max hlen hsum j hj
  obtain ⟨hl1, _, hrange, _⟩ := alias_construct_ranges p r_max hlen hnn
  refine ⟨?_, ?_, ?_⟩
  · rw [Finset.sum_filter]
    exact hm
  · have hjl : j < (alias_construct p r_max).prob.length := by rw [hl1]; exact hj
    have hg : (alias_construct p r_max).prob.getD j 0 = (alias_construct p r_max).prob[j] := by
      rw [List.getD_eq_getElem?_getD, List.getElem?_eq_getElem hjl, Option.getD_some]
    rw [hg]
    exact hrange _ (List.getElem_mem _)
  · rw [← Finset.mul_sum, Finset.sum_add_distrib, Finset.sum_ite_eq' (Finset.range r_max) j,
      if_pos (Finset.mem_range.2 hj), hm]
    ring

theorem alias_construct_reproduces_witness :
    1 ≤ 2 ∧ ([1 / 2, 3 / 2] : List ℚ).length = 2 ∧
    (∀ j < 2,
      ((alias_construct ([1 / 2, 3 / 2] : List ℚ) 2).prob.getD j 0
        + ∑ i in (Finset.range 2).filter
            (fun i => (alias_construct ([1 / 2, 3 / 2] : List ℚ) 2).alias_.getD i 0 = j),
            (1 - (alias_construct ([1 / 2, 3 / 2] : List ℚ) 2).prob.getD i 0)
        = ([1 / 2, 3 / 2] : List ℚ).getD j 0)) :=
  ⟨by decide, rfl, fun j hj =>
    (alias_construct_reproduces ([1 / 2, 3 / 2] : List ℚ) 2 (by decide) rfl
      (by
        intro x hx
        simp only [List.mem_cons, List.mem_singleton, List.not_mem_nil, or_false] at hx
        rcases hx with rfl | rfl <;> norm_num)
      (by norm_num) j hj).1⟩

/-- C4: for every exponent and every `r_max ≥ 1`, with an exponential `expFn` of positive
values, `build_alias_table` returns a table whose vectors `prob` and `alias` have length
exactly `r_max`, with `0 ≤ prob[i] ≤ 1` and `alias[i] < r_max` for every entry; more
generally the alias construction has these properties on every non-negative weight
sequence of length `r_max`. -/
theorem build_alias_table_ranges (logFn expFn : α → α) (hexp : ∀ x, 0 < expFn x)
    (exponent : α) (r_max : Int) (hr : 1 ≤ r_max) :
    (∃ tab, build_alias_table logFn expFn exponent r_max = Except.ok tab ∧
      (tab.prob.length : Int) = r_max ∧ (tab.alias_.length : Int) = r_max ∧
      (∀ x ∈ tab.prob, 0 ≤ x ∧ x ≤ 1) ∧ (∀ a ∈ tab.alias_, 0 ≤ (a : Int) ∧ (a : Int) < r_max)) ∧
    (∀ p : List α, (p.length : Int) = r_max → (∀ x ∈ p, 0 ≤ x) →
      ((alias_construct p r_max.toNat).prob.length : Int) = r_max ∧
      ((alias_construct p r_max.toNat).alias_.length : Int) = r_max ∧
      (∀ x ∈ (alias_construct p r_max.toNat).prob, 0 ≤ x ∧ x ≤ 1) ∧
      (∀ a ∈ (alias_construct p r_max.toNat).alias_, 0 ≤ (a : Int) ∧ (a : Int) < r_max)) := by
  have key : ∀ p : List α, (p.length : Int) = r_max → (∀ x ∈ p, 0 ≤ x) →
      ((alias_construct p r_max.toNat).prob.length : Int) = r_max ∧
      ((alias_construct p r_max.toNat).alias_.length : Int) = r_max ∧
      (∀ x ∈ (alias_construct p r_max.toNat).prob, 0 ≤ x ∧ x ≤ 1) ∧
      (∀ a ∈ (alias_construct p r_max.toNat).alias_,
        0 ≤ (a : Int) ∧ (a : Int) < r_max) := by
    intro p hlen hp
    obtain ⟨h1, h2, h3, h4⟩ := alias_construct_ranges p r_max.toNat (by omega) hp
    refine ⟨by omega, by omega, h3, ?_⟩
    intro a ha
    have := h4 a ha
    omega
  refine ⟨⟨_, ?_, key _ ?_ (scaled_weights_nonneg logFn expFn hexp exponent r_max.toNat)⟩, key⟩
  · unfold build_alias_table
    rw [if_neg (by omega)]
  · rw [scaled_weights_length]
    omega

theorem build_alias_table_ranges_witness :
    (1 : Int) ≤ 4 ∧
    ∃ tab, build_alias_table Real.log Real.exp 2 4 = Except.ok tab ∧
      (tab.prob.length : Int) = 4 ∧ (tab.alias_.length : Int) = 4 ∧
      (∀ x ∈ tab.prob, 0 ≤ x ∧ x ≤ 1) ∧ (∀ a ∈ tab.alias_, 0 ≤ (a : Int) ∧ (a : Int) < 4) :=
  ⟨by decide, (build_alias_table_ranges Real.log Real.exp Real.exp_pos 2 4 (by decide)).1⟩

/-- Value of `sample_r` once the drawn index and the two table entries it reads are
known. -/
theorem sample_r_eq (tab : AliasTable α) (x₁ x₂ n i : Nat) (hn : 1 ≤ n) (hn' : n ≤ 2147483647)
    (hi : x₁ % n = i) (p : α) (a : Nat) (hp : tab.prob[i]? = some p)
    (ha : tab.alias_[i]? = some a) :
    sample_r tab x₁ x₂ (n : Int)
      = some (if (generate_double x₂ : α) < p then (i : Int) + 1 else (a : Int) + 1) := by
  have hin : i < n := by rw [← hi]; exact Nat.mod_lt _ (by omega)
  have hsz : size_t_of_int (n : Int) = n := by
    rw [size_t_of_int_small _ (by omega) (by omega)]
    simp
  have hg : generate_int x₁ n = some i := by
    unfold generate_int
    rw [if_neg (by omega), hi]
  have hio : int_of_size_t i = (i : Int) := int_of_size_t_small _ (by omega)
  have hsz' : size_t_of_int (i : Int) = i := by
    rw [size_t_of_int_small _ (Int.ofNat_nonneg _) (by omega)]
    exact Int.toNat_ofNat _
  unfold sample_r
  simp only [hsz, hg, hio, hsz', hp, ha]
  split <;> rfl

/-- C5: for every table built by `build_alias_table` with `1 ≤ r_max` (an `int`), and
every pair of engine outputs, the drawn index `i = x₁ mod r_max` lies in `[0, r_max)`, the
drawn `u` lies in `[0,1)`, both table accesses are in bounds, `sample_r` returns `i+1` if
`u < prob[i]` and `alias[i]+1` otherwise, and the returned radius lies in `[1, r_max]`. -/
theorem sample_r_spec (logFn expFn : α → α) (exponent : α) (r_max : Int)
    (tab : AliasTable α) (hr : 1 ≤ r_max) (hr' : r_max ≤ 2147483647)
    (htab : build_alias_table logFn expFn exponent r_max = Except.ok tab)
    (x₁ x₂ : Nat) (hx₂ : x₂ < 18446744073709551616) :
    generate_int x₁ (size_t_of_int r_max) = some (x₁ % r_max.toNat) ∧
    x₁ % r_max.toNat < r_max.toNat ∧
    (0 : α) ≤ generate_double x₂ ∧ (generate_double x₂ : α) < 1 ∧
    ∃ pi ai, tab.prob[x₁ % r_max.toNat]? = some pi ∧ tab.alias_[x₁ % r_max.toNat]? = some ai ∧
      sample_r tab x₁ x₂ r_max
        = some (if (generate_double x₂ : α) < pi then ((x₁ % r_max.toNat : Nat) : Int) + 1
                else (ai : Int) + 1) ∧
      ∃ r, sample_r tab x₁ x₂ r_max = some r ∧ 1 ≤ r ∧ r ≤ r_max := by
  obtain ⟨n, rfl⟩ := Int.eq_ofNat_of_zero_le (by omega : 0 ≤ r_max)
  simp only [Int.toNat_ofNat]
  have hn : 1 ≤ n := by omega
  unfold build_alias_table at htab
  rw [if_neg (by omega)] at htab
  simp only [Int.toNat_ofNat, Except.ok.injEq] at htab
  obtain ⟨h1, h2, h3⟩ := alias_construct_alias_lt (scaled_weights logFn expFn exponent n) n
    (scaled_weights_length logFn expFn exponent n)
  rw [htab] at h1 h2 h3
  have hi : x₁ % n < n := Nat.mod_lt _ (by omega)
  have hsz : size_t_of_int (n : Int) = n := by
    rw [size_t_of_int_small _ (by omega) (by omega)]
    simp
  have hg : generate_int x₁ n = some (x₁ % n) := by
    unfold generate_int
    rw [if_neg (by omega)]
  have hip : x₁ % n < tab.prob.length := by rw [h1]; exact hi
  have hia : x₁ % n < tab.alias_.length := by rw [h2]; exact hi
  have hp : tab.prob[x₁ % n]? = some (tab.prob[x₁ % n]) := List.getElem?_eq_getElem hip
  have ha : tab.alias_[x₁ % n]? = some (tab.alias_[x₁ % n]) := List.getElem?_eq_getElem hia
  have hal : tab.alias_[x₁ % n] < n := h3 _ (List.getElem_mem _)
  have hs := sample_r_eq tab x₁ x₂ n (x₁ % n) hn (by omega) rfl _ _ hp ha
  refine ⟨by rw [hsz]; exact hg, hi, (generate_double_range x₂ hx₂).1,
    (generate_double_range x₂ hx₂).2, _, _, hp, ha, hs, _, hs, ?_⟩
  split <;> omega

theorem sample_r_spec_witness :
    (1 : Int) ≤ 4 ∧ (4 : Int) ≤ 2147483647 ∧
    ∃ r, sample_r
        (alias_construct (scaled_weights (fun x : ℚ => x) (fun x => 4 / x ^ 2) 2 4) 4)
        5 9223372036854775808 4 = some r ∧ 1 ≤ r ∧ r ≤ 4 :=
  ⟨by decide, by decide, by
    obtain ⟨_, _, _, _, _, _, _, _, _, h⟩ :=
      sample_r_spec (fun x : ℚ => x) (fun x => 4 / x ^ 2) 2 4
        (alias_construct (scaled_weights (fun x : ℚ => x) (fun x => 4 / x ^ 2) 2 4) 4)
        (by decide) (by decide) rfl 5 9223372036854775808 (by decide)
    exact h⟩

end AliasClaims

/-! ## Occupancy vector -/

theorem and_seven (n : Nat) : n &&& 7 = n % 8 :=
  Nat.and_pow_two_sub_one_eq_mod n 3

theorem shift_three (n : Nat) : n >>> 3 = n / 8 :=
  Nat.shiftRight_eq_div_pow n 3

theorem mask_set_eq (n : Nat) :
    (1 <<< (n &&& 7)) % 4294967296 % 256 = 2 ^ (n % 8) := by
  rw [and_seven, Nat.one_shiftLeft]
  have h : n % 8 < 8 := Nat.mod_lt _ (by decide)
  generalize n % 8 = k at h
  interval_cases k <;> rfl

theorem mask_clear_eq (n : Nat) :
    (4294967295 - (1 <<< (n &&& 7)) % 4294967296) % 256 = 2 ^ 8 - (2 ^ (n % 8) + 1) := by
  rw [and_seven, Nat.one_shiftLeft]
  have h : n % 8 < 8 := Nat.mod_lt _ (by decide)
  generalize n % 8 = k at h
  interval_cases k <;> rfl

theorem and_two_pow_ne_zero (b k : Nat) : ((b &&& 2 ^ k) != 0) = b.testBit k := by
  cases hb : b.testBit k
  · have : b &&& 2 ^ k = 0 := by
      apply Nat.eq_of_testBit_eq
      intro i
      rw [Nat.testBit_and, Nat.testBit_two_pow, Nat.zero_testBit]
      by_cases hki : k = i
      · subst hki
        rw [hb]
        rfl
      · simp [hki]
    rw [this]
    rfl
  · have : b &&& 2 ^ k ≠ 0 := by
      intro h0
      have := congrArg (fun x => x.testBit k) h0
      simp only [Nat.testBit_and, Nat.testBit_two_pow_self, hb, Nat.zero_testBit] at this
      exact absurd this (by decide)
    simpa using this

theorem testBit_set_byte (b k j : Nat) (hj : j < 8) :
    ((b ||| 2 ^ k) % 256).testBit j = (b.testBit j || decide (k = j)) := by
  have h256 : (256 : Nat) = 2 ^ 8 := by decide
  rw [h256, Nat.testBit_mod_two_pow, Nat.testBit_or, Nat.testBit_two_pow]
  simp [hj]

theorem testBit_clear_byte (b k j : Nat) (hk : k < 8) (hj : j < 8) :
    ((b &&& (2 ^ 8 - (2 ^ k + 1))) % 256).testBit j = (b.testBit j && !decide (k = j)) := by
  have h256 : (256 : Nat) = 2 ^ 8 := by decide
  have hk' : 2 ^ k < 2 ^ 8 := Nat.pow_lt_pow_right (by decide) hk
  rw [h256, Nat.testBit_mod_two_pow, Nat.testBit_and, Nat.testBit_two_pow_sub_succ hk',
    Nat.testBit_two_pow]
  simp [hj]

/-- Linear index of a lattice position: the formula of the data model, and its range. -/
theorem pos_index_2D_eq (p : Position2D) (L : Int) (hL : 0 ≤ L) (hL' : L ≤ 1073741823)
    (hp : in_bounds p L) :
    pos_index_2D p L = ((p.x + L) + (p.y + L) * (2 * L + 1)).toNat ∧
    pos_index_2D p L = (p.x + L).toNat + (p.y + L).toNat * (2 * L.toNat + 1) ∧
    (p.x + L).toNat < 2 * L.toNat + 1 ∧ (p.y + L).toNat < 2 * L.toNat + 1 ∧
    pos_index_2D p L < grid_size L ∧
    grid_size L = (2 * L.toNat + 1) * (2 * L.toNat + 1) ∧
    pos_index_2D p L >>> 3 < byte_size L := by
  obtain ⟨h1, h2, h3, h4⟩ := hp
  obtain ⟨l, rfl⟩ := Int.eq_ofNat_of_zero_le hL
  obtain ⟨a, ha⟩ := Int.eq_ofNat_of_zero_le (by omega : 0 ≤ p.x + l)
  obtain ⟨b, hb⟩ := Int.eq_ofNat_of_zero_le (by omega : 0 ≤ p.y + l)
  have hal : a < 2 * l + 1 := by omega
  have hbl : b < 2 * l + 1 := by omega
  have hm : 2 * l + 1 ≤ 4294967295 := by omega
  have hprod : b * (2 * l + 1) ≤ (2 * l) * (2 * l + 1) := Nat.mul_le_mul_right _ (by omega)
  have hsq : (2 * l + 1) * (2 * l + 1) ≤ 4294967295 * 4294967295 := Nat.mul_le_mul hm hm
  have hidx : a + b * (2 * l + 1) < (2 * l + 1) * (2 * l + 1) := by
    calc a + b * (2 * l + 1) < (2 * l + 1) + b * (2 * l + 1) := by omega
      _ = (b + 1) * (2 * l + 1) := by ring
      _ ≤ (2 * l + 1) * (2 * l + 1) := Nat.mul_le_mul_right _ (by omega)
  have e1 : size_t_of_int (int_wrap (p.x + l)) = a := by
    rw [int_wrap_small _ (by omega) (by omega),
      size_t_of_int_small _ (by omega) (by omega), ha]; rfl
  have e2 : size_t_of_int (int_wrap (p.y + l)) = b := by
    rw [int_wrap_small _ (by omega) (by omega),
      size_t_of_int_small _ (by omega) (by omega), hb]; rfl
  have e3 : size_t_of_int (l : Int) = l := by
    rw [size_t_of_int_small _ (by omega) (by omega)]; rfl
  have e4 : (2 * l % 18446744073709551616 + 1) % 18446744073709551616 = 2 * l + 1 := by omega
  have hg : grid_size (l : Int) = (2 * l + 1) * (2 * l + 1) := by
    unfold grid_size
    rw [e3, e4]
    exact Nat.mod_eq_of_lt (by omega)
  have hi : pos_index_2D p l = a + b * (2 * l + 1) := by
    unfold pos_index_2D
    rw [e1, e2, e3, e4, Nat.mod_eq_of_lt (a := b * (2 * l + 1)) (by omega)]
    exact Nat.mod_eq_of_lt (by omega)
  have hxa : (p.x + l).toNat = a := by rw [ha]; rfl
  have hyb : (p.y + l).toNat = b := by rw [hb]; rfl
  simp only [Int.toNat_ofNat]
  refine ⟨?_, ?_, ?_, ?_, ?_, hg, ?_⟩
  · rw [hi, ha, hb]
    have : ((a : Int) + (b : Int) * (2 * (l : Int) + 1)) = ((a + b * (2 * l + 1) : Nat) : Int) := by
      push_cast; ring
    rw [this]
    rfl
  · rw [hi, hxa, hyb]
  · rw [hxa]; exact hal
  · rw [hyb]; exact hbl
  · rw [hi, hg]; exact hidx
  · unfold byte_size
    rw [hg, hi, shift_three, shift_three, Nat.mod_eq_of_lt (by omega)]
    omega

theorem pos_index_2D_inj (p q : Position2D) (L : Int) (hL : 0 ≤ L) (hL' : L ≤ 1073741823)
    (hp : in_bounds p L) (hq : in_bounds q L) (h : pos_index_2D p L = pos_index_2D q L) :
    p = q := by
  obtain ⟨_, ep, ap, bp, _⟩ := pos_index_2D_eq p L hL hL' hp
  obtain ⟨_, eq, aq, bq, _⟩ := pos_index_2D_eq q L hL hL' hq
  rw [ep, eq] at h
  have hm : 0 < 2 * L.toNat + 1 := by omega
  have hmod := congrArg (fun n => n % (2 * L.toNat + 1)) h
  have hdiv := congrArg (fun n => n / (2 * L.toNat + 1)) h
  simp only [Nat.add_mul_mod_self_right, Nat.mod_eq_of_lt ap, Nat.mod_eq_of_lt aq] at hmod
  simp only [Nat.add_mul_div_right _ _ hm, Nat.div_eq_of_lt ap, Nat.div_eq_of_lt aq,
    Nat.zero_add] at hdiv
  obtain ⟨h1, h2, h3, h4⟩ := hp
  obtain ⟨h5, h6, h7, h8⟩ := hq
  cases p
  cases q
  simp only [Position2D.mk.injEq] at *
  constructor <;> omega

theorem getD_eq_of_getElem? {β : Type} (v : List β) (m : Nat) (d b : β) (h : v[m]? = some b) :
    v.getD m d = b := by
  rw [List.getD_eq_getElem?_getD, h, Option.getD_some]

/-- Effect of `set_visited_2D` when the addressed byte exists: exactly the addressed bit
becomes one. -/
theorem set_visited_2D_spec (v : List Nat) (p : Position2D) (L : Int)
    (hb : pos_index_2D p L >>> 3 < v.length) :
    ∃ v', set_visited_2D v p L = some v' ∧ v'.length = v.length ∧
      (∀ m, m ≠ pos_index_2D p L >>> 3 → v'.getD m 0 = v.getD m 0) ∧
      ∀ n, bit_at v' n = if n = pos_index_2D p L then true else bit_at v n := by
  have hget : v[pos_index_2D p L >>> 3]? = some (v[pos_index_2D p L >>> 3]) :=
    List.getElem?_eq_getElem hb
  have hgetD := getD_eq_of_getElem? v _ 0 _ hget
  refine ⟨v.set (pos_index_2D p L >>> 3)
      ((v[pos_index_2D p L >>> 3] ||| (1 <<< (pos_index_2D p L &&& 7)) % 4294967296 % 256) % 256),
    by unfold set_visited_2D; simp only [hget], by rw [List.length_set], ?_, ?_⟩
  · intro m hm
    exact getD_set_ne _ _ _ _ _ (Ne.symm hm)
  · intro n
    unfold bit_at
    rw [mask_set_eq]
    by_cases hbyte : pos_index_2D p L >>> 3 = n >>> 3
    · rw [← hbyte, getD_set_self _ _ _ _ hb, hgetD, and_seven,
        testBit_set_byte _ _ _ (Nat.mod_lt _ (by decide))]
      simp only [shift_three] at hbyte
      by_cases hn : n = pos_index_2D p L
      · rw [if_pos hn, hn]
        simp
      · rw [if_neg hn]
        have : ¬ pos_index_2D p L % 8 = n % 8 := by omega
        simp [this]
    · rw [getD_set_ne _ _ _ _ _ hbyte, if_neg]
      rintro rfl
      exact hbyte rfl

/-- Effect of `clear_visited_2D` when the addressed byte exists: exactly the addressed bit
becomes zero. -/
theorem clear_visited_2D_spec (v : List Nat) (p : Position2D) (L : Int)
    (hb : pos_index_2D p L >>> 3 < v.length) :
    ∃ v', clear_visited_2D v p L = some v' ∧ v'.length = v.length ∧
      (∀ m, m ≠ pos_index_2D p L >>> 3 → v'.getD m 0 = v.getD m 0) ∧
      ∀ n, bit_at v' n = if n = pos_index_2D p L then false else bit_at v n := by
  have hget : v[pos_index_2D p L >>> 3]? = some (v[pos_index_2D p L >>> 3]) :=
    List.getElem?_eq_getElem hb
  have hgetD := getD_eq_of_getElem? v _ 0 _ hget
  refine ⟨v.set (pos_index_2D p L >>> 3)
      ((v[pos_index_2D p L >>> 3]
        &&& (4294967295 - (1 <<< (pos_index_2D p L &&& 7)) % 4294967296) % 256) % 256),
    by unfold clear_visited_2D; simp only [hget], by rw [List.length_set], ?_, ?_⟩
  · intro m hm
    exact getD_set_ne _ _ _ _ _ (Ne.symm hm)
  · intro n
    unfold bit_at
    rw [mask_clear_eq]
    by_cases hbyte : pos_index_2D p L >>> 3 = n >>> 3
    · rw [← hbyte, getD_set_self _ _ _ _ hb, hgetD, and_seven,
        testBit_clear_byte _ _ _ (Nat.mod_lt _ (by decide)) (Nat.mod_lt _ (by decide))]
      simp only [shift_three] at hbyte
      by_cases hn : n = pos_index_2D p L
      · rw [if_pos hn, hn]
        simp
      · rw [if_neg hn]
        have : ¬ pos_index_2D p L % 8 = n % 8 := by omega
        simp [this]
    · rw [getD_set_ne _ _ _ _ _ hbyte, if_neg]
      rintro rfl
      exact hbyte rfl

/-- Value of `is_visited_2D` when the addressed byte exists: the addressed bit. -/
theorem is_visited_2D_spec (v : List Nat) (p : Position2D) (L : Int)
    (hb : pos_index_2D p L >>> 3 < v.length) :
    is_visited_2D v p L = some (bit_at v (pos_index_2D p L)) := by
  have hget : v[pos_index_2D p L >>> 3]? = some (v[pos_index_2D p L >>> 3]) :=
    List.getElem?_eq_getElem hb
  have hgetD := getD_eq_of_getElem? v _ 0 _ hget
  unfold is_visited_2D bit_at
  simp only [hget, hgetD]
  rw [mask_set_eq, and_two_pow_ne_zero, and_seven]

theorem byte_in_range (v : List Nat) (p : Position2D) (L : Int) (hL : 0 ≤ L)
    (hL' : L ≤ 1073741823) (hv : v.length = byte_size L) (hp : in_bounds p L) :
    pos_index_2D p L >>> 3 < v.length := by
  rw [hv]
  exact (pos_index_2D_eq p L hL hL' hp).2.2.2.2.2.2

/-- The vector has `ceil((2L+1)² / 8)` bytes. -/
theorem byte_size_eq (L : Int) (hL : 0 ≤ L) (hL' : L ≤ 1073741823) :
    byte_size L = ((2 * L.toNat + 1) * (2 * L.toNat + 1) + 7) / 8 := by
  have hg := (pos_index_2D_eq ⟨0, 0⟩ L hL hL' ⟨by simpa using hL, hL, by simpa using hL, hL⟩).2.2.2.2.2.1
  have hm : 2 * L.toNat + 1 ≤ 4294967295 := by omega
  have hsq : (2 * L.toNat + 1) * (2 * L.toNat + 1) ≤ 4294967295 * 4294967295 :=
    Nat.mul_le_mul hm hm
  unfold byte_size
  rw [hg, shift_three, Nat.mod_eq_of_lt (by omega)]

/-- C6: for every half-width `L` with `0 ≤ L ≤ 2^30 - 1` (so that the `int` sums
`pos.x + L_real`, `pos.y + L_real` of an in-bounds position do not overflow), every bit vector of
`byte_size = ceil((2L+1)² / 8)` bytes and every position `p` with both coordinates in
`[-L, L]`, whatever the prior state: `set_visited_2D(p)` succeeds and `is_visited_2D(p)`
is then true, and `clear_visited_2D(p)` succeeds and `is_visited_2D(p)` is then false. -/
theorem set_clear_then_is_visited (L : Int) (hL : 0 ≤ L) (hL' : L ≤ 1073741823)
    (v : List Nat) (hv : v.length = byte_size L) (p : Position2D) (hp : in_bounds p L) :
    byte_size L = ((2 * L.toNat + 1) * (2 * L.toNat + 1) + 7) / 8 ∧
    (∃ v', set_visited_2D v p L = some v' ∧ is_visited_2D v' p L = some true) ∧
    (∃ v', clear_visited_2D v p L = some v' ∧ is_visited_2D v' p L = some false) := by
  have hb := byte_in_range v p L hL hL' hv hp
  refine ⟨byte_size_eq L hL hL', ?_, ?_⟩
  · obtain ⟨v', h1, h2, _, h4⟩ := set_visited_2D_spec v p L hb
    refine ⟨v', h1, ?_⟩
    rw [is_visited_2D_spec v' p L (by rw [h2]; exact hb), h4, if_pos rfl]
  · obtain ⟨v', h1, h2, _, h4⟩ := clear_visited_2D_spec v p L hb
    refine ⟨v', h1, ?_⟩
    rw [is_visited_2D_spec v' p L (by rw [h2]; exact hb), h4, if_pos rfl]

theorem set_clear_then_is_visited_witness :
    (0 : Int) ≤ 1 ∧ (1 : Int) ≤ 1073741823 ∧ ([255, 0] : List Nat).length = byte_size 1 ∧
    in_bounds ⟨1, -1⟩ 1 ∧
    (∃ v', set_visited_2D [255, 0] ⟨1, -1⟩ 1 = some v' ∧
      is_visited_2D v' ⟨1, -1⟩ 1 = some true) ∧
    (∃ v', clear_visited_2D [255, 0] ⟨1, -1⟩ 1 = some v' ∧
      is_visited_2D v' ⟨1, -1⟩ 1 = some false) :=
  ⟨by decide, by decide, by decide, by unfold in_bounds; decide,
    (set_clear_then_is_visited 1 (by decide) (by decide) [255, 0] (by decide) ⟨1, -1⟩
      (by unfold in_bounds; decide)).2⟩

/-- C7: for every half-width `L` with `0 ≤ L ≤ 2^30 - 1` (so that the `int` sums
`pos.x + L_real`, `pos.y + L_real` do not overflow) and every two in-bounds positions
`p ≠ q`, on a vector of `byte_size` bytes neither `set_visited_2D(q)` nor
`clear_visited_2D(q)` changes the value of `is_visited_2D(p)`; the call keeps the length of
the vector, every byte other than the addressed one, and every bit other than the one
at the linear index of `q`. -/
theorem set_clear_frame (L : Int) (hL : 0 ≤ L) (hL' : L ≤ 1073741823)
    (v : List Nat) (hv : v.length = byte_size L) (p q : Position2D)
    (hp : in_bounds p L) (hq : in_bounds q L) (hpq : p ≠ q) :
    (∃ v', set_visited_2D v q L = some v' ∧ is_visited_2D v' p L = is_visited_2D v p L ∧
      v'.length = v.length ∧
      (∀ m, m ≠ pos_index_2D q L >>> 3 → v'.getD m 0 = v.getD m 0) ∧
      (∀ n, n ≠ pos_index_2D q L → bit_at v' n = bit_at v n)) ∧
    (∃ v', clear_visited_2D v q L = some v' ∧ is_visited_2D v' p L = is_visited_2D v p L ∧
      v'.length = v.length ∧
      (∀ m, m ≠ pos_index_2D q L >>> 3 → v'.getD m 0 = v.getD m 0) ∧
      (∀ n, n ≠ pos_index_2D q L → bit_at v' n = bit_at v n)) := by
  have hbp := byte_in_range v p L hL hL' hv hp
  have hbq := byte_in_range v q L hL hL' hv hq
  have hne : pos_index_2D p L ≠ pos_index_2D q L :=
    fun h => hpq (pos_index_2D_inj p q L hL hL' hp hq h)
  constructor
  · obtain ⟨v', h1, h2, h3, h4⟩ := set_visited_2D_spec v q L hbq
    refine ⟨v', h1, ?_, h2, h3, fun n hn => by rw [h4, if_neg hn]⟩
    rw [is_visited_2D_spec v' p L (by rw [h2]; exact hbp), is_visited_2D_spec v p L hbp, h4,
      if_neg hne]
  · obtain ⟨v', h1, h2, h3, h4⟩ := clear_visited_2D_spec v q L hbq
    refine ⟨v', h1, ?_, h2, h3, fun n hn => by rw [h4, if_neg hn]⟩
    rw [is_visited_2D_spec v' p L (by rw [h2]; exact hbp), is_visited_2D_spec v p L hbp, h4,
      if_neg hne]

theorem set_clear_frame_witness :
    (0 : Int) ≤ 1 ∧ (1 : Int) ≤ 1073741823 ∧ ([16, 1] : List Nat).length = byte_size 1 ∧
    in_bounds ⟨0, 0⟩ 1 ∧ in_bounds ⟨1, 1⟩ 1 ∧ (⟨0, 0⟩ : Position2D) ≠ ⟨1, 1⟩ ∧
    (∃ v', clear_visited_2D [16, 1] ⟨1, 1⟩ 1 = some v' ∧
      is_visited_2D v' ⟨0, 0⟩ 1 = is_visited_2D [16, 1] ⟨0, 0⟩ 1 ∧
      v'.length = ([16, 1] : List Nat).length ∧
      (∀ m, m ≠ pos_index_2D ⟨1, 1⟩ 1 >>> 3 → v'.getD m 0 = ([16, 1] : List Nat).getD m 0) ∧
      (∀ n, n ≠ pos_index_2D ⟨1, 1⟩ 1 → bit_at v' n = bit_at [16, 1] n)) :=
  ⟨by decide, by decide, by decide, by unfold in_bounds; decide, by unfold in_bounds; decide,
    by decide,
    (set_clear_frame 1 (by decide) (by decide) [16, 1] (by decide) ⟨0, 0⟩ ⟨1, 1⟩
      (by unfold in_bounds; decide) (by unfold in_bounds; decide) (by decide)).2⟩

theorem run_ops_append (L : Int) (ops₁ ops₂ : List VisitOp) : ∀ v : List Nat,
    run_ops L (ops₁ ++ ops₂) v = (run_ops L ops₁ v).bind (run_ops L ops₂) := by
  induction ops₁ with
  | nil => intro v; rfl
  | cons op rest ih =>
    intro v
    simp only [List.cons_append, run_ops]
    cases apply_op L v op with
    | none => rfl
    | some v' => exact ih v'

theorem bit_at_replicate_zero (k n : Nat) : bit_at (List.replicate k 0) n = false := by
  unfold bit_at
  rw [List.getD_eq_getElem?_getD, List.getElem?_replicate]
  split <;> simp

/-- State of the vector after a sequence of in-bounds calls, started from any vector of
`byte_size` bytes: the bit of an in-bounds position is decided by the last call that
addresses it, and is the initial bit when no call does. -/
theorem run_ops_spec (L : Int) (hL : 0 ≤ L) (hL' : L ≤ 1073741823) (v : List Nat)
    (hv : v.length = byte_size L) (ops : List VisitOp) :
    (∀ o ∈ ops, in_bounds o.pos L) →
    ∃ v', run_ops L ops v = some v' ∧ v'.length = byte_size L ∧
      ∀ p, in_bounds p L →
        bit_at v' (pos_index_2D p L) =
          (match ops.reverse.find? (fun o => decide (o.pos = p)) with
            | some (VisitOp.set _) => true
            | some (VisitOp.clear _) => false
            | none => bit_at v (pos_index_2D p L)) := by
  induction ops using List.reverseRecOn with
  | nil =>
    intro _
    exact ⟨v, rfl, hv, fun p _ => rfl⟩
  | append_singleton ops op ih =>
    intro hops
    obtain ⟨v₁, h1, h2, h3⟩ := ih (fun o ho => hops o (List.mem_append_left _ ho))
    have hop : in_bounds op.pos L := hops op (List.mem_append_right _ (List.mem_singleton_self _))
    rw [run_ops_append, h1]
    simp only [Option.some_bind, run_ops, List.reverse_append, List.reverse_singleton,
      List.singleton_append, List.find?_cons]
    cases op with
    | set q =>
      obtain ⟨v₂, e1, e2, _, e4⟩ :=
        set_visited_2D_spec v₁ q L (byte_in_range v₁ q L hL hL' h2 hop)
      refine ⟨v₂, by simp only [apply_op, Option.some_bind, e1], by rw [e2, h2], ?_⟩
      intro p hp
      rw [e4]
      by_cases hqp : q = p
      · subst hqp
        simp [VisitOp.pos]
      · have hne : pos_index_2D p L ≠ pos_index_2D q L :=
          fun h => hqp (pos_index_2D_inj p q L hL hL' hp hop h).symm
        rw [if_neg hne, h3 p hp]
        simp [VisitOp.pos, hqp]
    | clear q =>
      obtain ⟨v₂, e1, e2, _, e4⟩ :=
        clear_visited_2D_spec v₁ q L (byte_in_range v₁ q L hL hL' h2 hop)
      refine ⟨v₂, by simp only [apply_op, Option.some_bind, e1], by rw [e2, h2], ?_⟩
      intro p hp
      rw [e4]
      by_cases hqp : q = p
      · subst hqp
        simp [VisitOp.pos]
      · have hne : pos_index_2D p L ≠ pos_index_2D q L :=
          fun h => hqp (pos_index_2D_inj p q L hL hL' hp hop h).symm
        rw [if_neg hne, h3 p hp]
        simp [VisitOp.pos, hqp]

/-- C8: for every half-width `L` with `0 ≤ L ≤ 2^30 - 1` (so that the `int` sums
`pos.x + L_real`, `pos.y + L_real` do not overflow),
starting from the all-zero vector `visited` and applying any finite sequence of
`set_visited_2D` / `clear_visited_2D` calls on in-bounds positions, every call succeeds
and for every in-bounds position `(x,y)` the bit at linear index
`(x+L) + (y+L)*(2L+1)` is set, and `is_visited_2D(x,y)` returns true, if and only if the
last call of the sequence that addresses `(x,y)` is a `set_visited_2D`; a position that no
call addresses reads as unvisited. -/
theorem visited_bit_iff_last_set (L : Int) (hL : 0 ≤ L) (hL' : L ≤ 1073741823)
    (ops : List VisitOp) (hops : ∀ o ∈ ops, in_bounds o.pos L) :
    ∃ v, run_ops L ops (visited L) = some v ∧
      ∀ p, in_bounds p L →
        (bit_at v ((p.x + L) + (p.y + L) * (2 * L + 1)).toNat = true
          ↔ last_op_is_set ops p = true) ∧
        (is_visited_2D v p L = some true ↔ last_op_is_set ops p = true) ∧
        is_visited_2D v p L = some (last_op_is_set ops p) := by
  have hv : (visited L).length = byte_size L := by simp [visited]
  obtain ⟨v, h1, h2, h3⟩ := run_ops_spec L hL hL' (visited L) hv ops hops
  refine ⟨v, h1, ?_⟩
  intro p hp
  have hbit : bit_at v (pos_index_2D p L) = last_op_is_set ops p := by
    rw [h3 p hp]
    unfold last_op_is_set
    generalize ops.reverse.find? (fun o => decide (o.pos = p)) = r
    rcases r with _ | ⟨q | q⟩
    · exact bit_at_replicate_zero _ _
    · rfl
    · rfl
  have hvis : is_visited_2D v p L = some (last_op_is_set ops p) := by
    rw [is_visited_2D_spec v p L (byte_in_range v p L hL hL' h2 hp), hbit]
  refine ⟨?_, ?_, hvis⟩
  · rw [← (pos_index_2D_eq p L hL hL' hp).1, hbit]
  · rw [hvis]
    simp

theorem visited_bit_iff_last_set_witness :
    (0 : Int) ≤ 1 ∧ (1 : Int) ≤ 1073741823 ∧
    ∃ v, run_ops 1
        [VisitOp.set ⟨0, 0⟩, VisitOp.set ⟨1, 0⟩, VisitOp.clear ⟨0, 0⟩, VisitOp.set ⟨-1, -1⟩]
        (visited 1) = some v ∧
      ∀ p, in_bounds p 1 →
        (bit_at v ((p.x + 1) + (p.y + 1) * (2 * 1 + 1)).toNat = true
          ↔ last_op_is_set
            [VisitOp.set ⟨0, 0⟩, VisitOp.set ⟨1, 0⟩, VisitOp.clear ⟨0, 0⟩, VisitOp.set ⟨-1, -1⟩]
            p = true) ∧
        (is_visited_2D v p 1 = some true
          ↔ last_op_is_set
            [VisitOp.set ⟨0, 0⟩, VisitOp.set ⟨1, 0⟩, VisitOp.clear ⟨0, 0⟩, VisitOp.set ⟨-1, -1⟩]
            p = true) ∧
        is_visited_2D v p 1 = some (last_op_is_set
            [VisitOp.set ⟨0, 0⟩, VisitOp.set ⟨1, 0⟩, VisitOp.clear ⟨0, 0⟩, VisitOp.set ⟨-1, -1⟩]
            p) :=
  ⟨by decide, by decide,
    visited_bit_iff_last_set 1 (by decide) (by decide)
      [VisitOp.set ⟨0, 0⟩, VisitOp.set ⟨1, 0⟩, VisitOp.clear ⟨0, 0⟩, VisitOp.set ⟨-1, -1⟩]
      (by decide)⟩

/-! ## Weight stage -/

section WeightStage

variable {α : Type} [LinearOrderedField α]

theorem sum_map_range (f : Nat → α) (n : Nat) :
    ((List.range n).map f).sum = ∑ i in Finset.range n, f i := by
  induction n with
  | zero => simp
  | succ n ih =>
    rw [List.range_succ, List.map_append, List.sum_append, ih, Finset.sum_range_succ]
    simp

theorem sum_map_div_mul (xs : List α) (s c : α) :
    (xs.map (fun w => w / s * c)).sum = xs.sum / s * c := by
  induction xs with
  | nil => simp
  | cons a xs ih =>
    rw [List.map_cons, List.sum_cons, ih, List.sum_cons]
    ring

theorem sum_map_div (xs : List α) (s : α) : (xs.map (fun w => w / s)).sum = xs.sum / s := by
  induction xs with
  | nil => simp
  | cons a xs ih =>
    rw [List.map_cons, List.sum_cons, ih, List.sum_cons]
    ring

theorem weight_sum_pos (logFn expFn : α → α) (hexp : ∀ x, 0 < expFn x) (exponent : α)
    (r_max : Nat) (hr : 1 ≤ r_max) : 0 < weight_sum logFn expFn exponent r_max := by
  rw [weight_sum_eq]
  obtain ⟨n, rfl⟩ : ∃ n, r_max = n + 1 := ⟨r_max - 1, by omega⟩
  unfold weight_terms
  rw [List.range_succ, List.map_append, List.sum_append]
  have h1 : 0 ≤ ((List.range n).map
      (fun i => expFn (logFn ((i + 1 : Nat) : α) * (-exponent)))).sum :=
    List.sum_nonneg (fun y hy => by
      obtain ⟨i, _, rfl⟩ := List.mem_map.1 hy
      exact le_of_lt (hexp _))
  have h2 : 0 < ([n].map (fun i => expFn (logFn ((i + 1 : Nat) : α) * (-exponent)))).sum := by
    simp only [List.map_cons, List.map_nil, List.sum_cons, List.sum_nil, add_zero]
    exact hexp _
  linarith

/-- The weights handed to the alias construction have arithmetic mean one. -/
theorem scaled_weights_sum (logFn expFn : α → α) (hexp : ∀ x, 0 < expFn x) (exponent : α)
    (r_max : Nat) (hr : 1 ≤ r_max) :
    (scaled_weights logFn expFn exponent r_max).sum = (r_max : α) := by
  unfold scaled_weights
  rw [sum_map_div_mul, ← weight_sum_eq,
    div_self (ne_of_gt (weight_sum_pos logFn expFn hexp exponent r_max hr)), one_mul]

end WeightStage

theorem exp_log_mul_neg (x e : ℝ) (hx : 0 < x) :
    Real.exp (Real.log x * (-e)) = x ^ (-e) := by
  rw [Real.rpow_def_of_pos hx]

/-- C9: over exact real arithmetic, with `mpfr_log` and `mpfr_exp` the real logarithm and
exponential, for every exponent `e` (in particular `e > 0`) and every `r_max ≥ 1` the
weight stage of `build_alias_table` computes `w(r) = exp(-e * ln r) = r^(-e)` for
`r = 1..r_max` (entry `r-1` of the vector), `S` the sum of the `w(r)`, and
`scaled_p[r-1] = (w(r)/S) * r_max`, which is what the alias construction receives; every
entry is non-negative, the normalized weights `w(r)/S` sum to 1 and the arithmetic mean of
`scaled_p` is 1. -/
theorem weight_stage_real (e : ℝ) (r_max : Nat) (hr : 1 ≤ r_max) :
    (∀ i < r_max,
      (weight_terms Real.log Real.exp e r_max)[i]? = some (((i + 1 : Nat) : ℝ) ^ (-e)) ∧
      ((i + 1 : Nat) : ℝ) ^ (-e) = Real.exp (-e * Real.log ((i + 1 : Nat) : ℝ))) ∧
    weight_sum Real.log Real.exp e r_max
      = ∑ i in Finset.range r_max, ((i + 1 : Nat) : ℝ) ^ (-e) ∧
    (∀ i < r_max,
      (scaled_weights Real.log Real.exp e r_max)[i]?
        = some (((i + 1 : Nat) : ℝ) ^ (-e)
            / (∑ k in Finset.range r_max, ((k + 1 : Nat) : ℝ) ^ (-e)) * (r_max : ℝ))) ∧
    (∀ x ∈ scaled_weights Real.log Real.exp e r_max, 0 ≤ x) ∧
    ((weight_terms Real.log Real.exp e r_max).map
        (fun w => w / weight_sum Real.log Real.exp e r_max)).sum = 1 ∧
    (scaled_weights Real.log Real.exp e r_max).sum / (r_max : ℝ) = 1 ∧
    build_alias_table Real.log Real.exp e (r_max : Int)
      = Except.ok (alias_construct (scaled_weights Real.log Real.exp e r_max) r_max) := by
  have hterm : ∀ i : Nat, Real.exp (Real.log ((i + 1 : Nat) : ℝ) * (-e))
      = ((i + 1 : Nat) : ℝ) ^ (-e) :=
    fun i => exp_log_mul_neg _ e (by exact_mod_cast Nat.succ_pos i)
  have hterms : weight_terms Real.log Real.exp e r_max
      = (List.range r_max).map (fun i => ((i + 1 : Nat) : ℝ) ^ (-e)) := by
    unfold weight_terms
    exact List.map_congr_left (fun i _ => hterm i)
  have hS : weight_sum Real.log Real.exp e r_max
      = ∑ i in Finset.range r_max, ((i + 1 : Nat) : ℝ) ^ (-e) := by
    rw [weight_sum_eq, hterms, sum_map_range]
  have hSpos := weight_sum_pos Real.log Real.exp Real.exp_pos e r_max hr
  have hrpos : (0 : ℝ) < (r_max : ℝ) := by exact_mod_cast hr
  refine ⟨?_, hS, ?_, scaled_weights_nonneg Real.log Real.exp Real.exp_pos e r_max, ?_, ?_, ?_⟩
  · intro i hi
    constructor
    · rw [hterms, List.getElem?_map, List.getElem?_range hi]
      rfl
    · rw [← hterm i]
      congr 1
      ring
  · intro i hi
    unfold scaled_weights
    rw [hS, hterms, List.getElem?_map, List.getElem?_map, List.getElem?_range hi]
    rfl
  · rw [sum_map_div, ← weight_sum_eq, div_self (ne_of_gt hSpos)]
  · rw [scaled_weights_sum Real.log Real.exp Real.exp_pos e r_max hr, div_self (ne_of_gt hrpos)]
  · unfold build_alias_table
    rw [if_neg (by omega)]
    rfl

theorem weight_stage_real_witness :
    1 ≤ 4 ∧
    (scaled_weights Real.log Real.exp 2 4).sum / ((4 : Nat) : ℝ) = 1 ∧
    weight_sum Real.log Real.exp 2 4 = ∑ i in Finset.range 4, ((i + 1 : Nat) : ℝ) ^ (-(2 : ℝ)) :=
  ⟨by decide, (weight_stage_real 2 4 (by decide)).2.2.2.2.2.1,
    (weight_stage_real 2 4 (by decide)).2.1⟩

/-! ## The table for exponent 2 and four radii -/

section Concrete

variable {α : Type} [LinearOrderedField α]

theorem classify_four :
    classify ([576 / 205, 144 / 205, 64 / 205, 36 / 205] : List α) 4 = ([3, 2, 1], [0]) := by
  have hr : List.range 4 = [0, 1, 2, 3] := by decide
  unfold classify
  rw [hr]
  simp only [List.foldl_cons, List.foldl_nil, List.getD_eq_getElem?_getD,
    List.getElem?_cons_zero, List.getElem?_cons_succ, Option.getD_some]
  norm_num

theorem pair_loop_four :
    pair_loop (⟨[576 / 205, 144 / 205, 64 / 205, 36 / 205], [0, 0, 0, 0], [0, 0, 0, 0],
        [3, 2, 1], [0]⟩ : BuildState α)
      = ⟨[1, 144 / 205, 64 / 205, 36 / 205], [0, 144 / 205, 64 / 205, 36 / 205],
          [0, 0, 0, 0], [], [0]⟩ := by
  have s1 : pair_body (⟨[576 / 205, 144 / 205, 64 / 205, 36 / 205], [0, 0, 0, 0],
        [0, 0, 0, 0], [3, 2, 1], [0]⟩ : BuildState α) 3 0 [2, 1] []
      = ⟨[407 / 205, 144 / 205, 64 / 205, 36 / 205], [0, 0, 0, 36 / 205], [0, 0, 0, 0],
          [2, 1], [0]⟩ := by
    simp only [pair_body, List.getD_eq_getElem?_getD, List.set_cons_succ, List.set_cons_zero,
      List.getElem?_cons_zero, List.getElem?_cons_succ, Option.getD_some]
    norm_num
  have s2 : pair_body (⟨[407 / 205, 144 / 205, 64 / 205, 36 / 205], [0, 0, 0, 36 / 205],
        [0, 0, 0, 0], [2, 1], [0]⟩ : BuildState α) 2 0 [1] []
      = ⟨[266 / 205, 144 / 205, 64 / 205, 36 / 205], [0, 0, 64 / 205, 36 / 205], [0, 0, 0, 0],
          [1], [0]⟩ := by
    simp only [pair_body, List.getD_eq_getElem?_getD, List.set_cons_succ, List.set_cons_zero,
      List.getElem?_cons_zero, List.getElem?_cons_succ, Option.getD_some]
    norm_num
  have s3 : pair_body (⟨[266 / 205, 144 / 205, 64 / 205, 36 / 205], [0, 0, 64 / 205, 36 / 205],
        [0, 0, 0, 0], [1], [0]⟩ : BuildState α) 1 0 [] []
      = ⟨[1, 144 / 205, 64 / 205, 36 / 205], [0, 144 / 205, 64 / 205, 36 / 205], [0, 0, 0, 0],
          [], [0]⟩ := by
    simp only [pair_body, List.getD_eq_getElem?_getD, List.set_cons_succ, List.set_cons_zero,
      List.getElem?_cons_zero, List.getElem?_cons_succ, Option.getD_some]
    norm_num
  rw [pair_loop_cons _ 3 0 [2, 1] [] rfl rfl, s1, pair_loop_cons _ 2 0 [1] [] rfl rfl, s2,
    pair_loop_cons _ 1 0 [] [] rfl rfl, s3, pair_loop_nil _ (Or.inl rfl)]

theorem alias_construct_four :
    alias_construct ([576 / 205, 144 / 205, 64 / 205, 36 / 205] : List α) 4
      = ⟨[1, 144 / 205, 64 / 205, 36 / 205], [0, 0, 0, 0]⟩ := by
  unfold alias_construct
  simp only [classify_four, List.replicate, pair_loop_four, drain, List.set_cons_zero]

end Concrete

theorem weight_terms_two_four :
    weight_terms Real.log Real.exp 2 4 = [1, 1 / 4, 1 / 9, 1 / 16] := by
  have hr : List.range 4 = [0, 1, 2, 3] := by decide
  have h : ∀ x : ℝ, 0 < x → Real.exp (Real.log x * (-2)) = 1 / x ^ 2 := by
    intro x hx
    rw [exp_log_mul_neg x 2 hx, Real.rpow_neg (le_of_lt hx), Real.rpow_two, one_div]
  unfold weight_terms
  rw [hr]
  simp only [List.map_cons, List.map_nil]
  rw [h _ (by norm_num), h _ (by norm_num), h _ (by norm_num), h _ (by norm_num)]
  norm_num

theorem scaled_weights_two_four :
    scaled_weights Real.log Real.exp 2 4 = [576 / 205, 144 / 205, 64 / 205, 36 / 205] := by
  unfold scaled_weights
  rw [weight_sum_eq, weight_terms_two_four]
  simp only [List.map_cons, List.map_nil, List.sum_cons, List.sum_nil]
  norm_num

/-- C10: for exponent 2 and `r_max = 4`, over exact arithmetic, the weights are
`1, 1/4, 1/9, 1/16` with sum `205/144` and normalized values
`144/205, 36/205, 16/205, 9/205`, `build_alias_table` returns exactly
`prob = [1, 144/205, 64/205, 36/205]` and `alias = [0, 0, 0, 0]`, and this table encodes
that distribution of the radii `1..4`;
with drawn index `i = 0` (any engine output that is a multiple of 4) `sample_r` returns
radius 1 whatever `u` is: `prob[0] = 1` and `alias[0] + 1 = 1`, in particular for
`u = 0` and for the `u` of engine output `9007190247541737 * 2^11`, which is the
double nearest to `0.999999`. -/
theorem build_alias_table_two_four :
    weight_terms Real.log Real.exp 2 4 = [1, 1 / 4, 1 / 9, 1 / 16] ∧
    weight_sum Real.log Real.exp 2 4 = 205 / 144 ∧
    (weight_terms Real.log Real.exp 2 4).map (fun w => w / weight_sum Real.log Real.exp 2 4)
      = [144 / 205, 36 / 205, 16 / 205, 9 / 205] ∧
    build_alias_table Real.log Real.exp 2 4
      = Except.ok ⟨[1, 144 / 205, 64 / 205, 36 / 205], [0, 0, 0, 0]⟩ ∧
    (∀ j < 4,
      (1 / 4 : ℝ) * (([1, 144 / 205, 64 / 205, 36 / 205] : List ℝ).getD j 0
        + ∑ i in (Finset.range 4).filter (fun i => ([0, 0, 0, 0] : List Nat).getD i 0 = j),
            (1 - ([1, 144 / 205, 64 / 205, 36 / 205] : List ℝ).getD i 0))
      = ([144 / 205, 36 / 205, 16 / 205, 9 / 205] : List ℝ).getD j 0) ∧
    (∀ m x₂ : Nat,
      sample_r (⟨[1, 144 / 205, 64 / 205, 36 / 205], [0, 0, 0, 0]⟩ : AliasTable ℝ) (4 * m) x₂ 4
        = some 1) ∧
    (generate_double 0 : ℝ) = 0 ∧
    sample_r (⟨[1, 144 / 205, 64 / 205, 36 / 205], [0, 0, 0, 0]⟩ : AliasTable ℝ) 0 0 4
      = some 1 ∧
    |(generate_double (9007190247541737 <<< 11) : ℝ) - 999999 / 1000000|
      < 1 / 9007199254740992 ∧
    sample_r (⟨[1, 144 / 205, 64 / 205, 36 / 205], [0, 0, 0, 0]⟩ : AliasTable ℝ) 0
      (9007190247541737 <<< 11) 4 = some 1 := by
  have hs : ∀ m x₂ : Nat,
      sample_r (⟨[1, 144 / 205, 64 / 205, 36 / 205], [0, 0, 0, 0]⟩ : AliasTable ℝ) (4 * m) x₂ 4
        = some 1 := by
    intro m x₂
    have h := sample_r_eq (⟨[1, 144 / 205, 64 / 205, 36 / 205], [0, 0, 0, 0]⟩ : AliasTable ℝ)
      (4 * m) x₂ 4 0 (by decide) (by decide) (Nat.mul_mod_right 4 m) 1 0 rfl rfl
    rw [show ((4 : Nat) : Int) = 4 from rfl] at h
    rw [h]
    split <;> rfl
  have hsum : weight_sum Real.log Real.exp 2 4 = 205 / 144 := by
    rw [weight_sum_eq, weight_terms_two_four]
    norm_num
  refine ⟨weight_terms_two_four, hsum, ?_, ?_, ?_, hs, ?_, hs 0 0, ?_, hs 0 _⟩
  · rw [hsum, weight_terms_two_four]
    simp only [List.map_cons, List.map_nil]
    norm_num
  · unfold build_alias_table
    rw [if_neg (by decide)]
    have h4 : (4 : Int).toNat = 4 := by decide
    rw [h4, scaled_weights_two_four, alias_construct_four]
  · intro j hj
    interval_cases j <;>
      simp only [Finset.sum_filter, Finset.sum_range_succ, Finset.sum_range_zero,
        List.getD_eq_getElem?_getD, List.getElem?_cons_zero, List.getElem?_cons_succ,
        Option.getD_some] <;>
      norm_num
  · simp [generate_double]
  · have h1 : (9007190247541737 <<< 11) >>> 11 = 9007190247541737 := by decide
    have h2 : (1 <<< 53 : Nat) = 9007199254740992 := by decide
    unfold generate_double
    rw [h1, h2, abs_lt]
    constructor <;> norm_num

/-! ## Occupancy vector: addressing, no-op clear, positions outside the lattice -/

theorem pos_index_2D_surj (L : Int) (hL : 0 ≤ L) (hL' : L ≤ 1073741823) (n : Nat)
    (hn : n < (2 * L.toNat + 1) * (2 * L.toNat + 1)) :
    ∃ p, in_bounds p L ∧ pos_index_2D p L = n := by
  have hm : 0 < 2 * L.toNat + 1 := by omega
  have hmod : n % (2 * L.toNat + 1) < 2 * L.toNat + 1 := Nat.mod_lt _ hm
  have hdiv : n / (2 * L.toNat + 1) < 2 * L.toNat + 1 := Nat.div_lt_of_lt_mul hn
  have hb : in_bounds ⟨((n % (2 * L.toNat + 1) : Nat) : Int) - L,
      ((n / (2 * L.toNat + 1) : Nat) : Int) - L⟩ L := by
    unfold in_bounds
    simp only
    have h1 : (0 : Int) ≤ ((n % (2 * L.toNat + 1) : Nat) : Int) := Int.ofNat_nonneg _
    have h2 : (0 : Int) ≤ ((n / (2 * L.toNat + 1) : Nat) : Int) := Int.ofNat_nonneg _
    have h3 : ((n % (2 * L.toNat + 1) : Nat) : Int) < ((2 * L.toNat + 1 : Nat) : Int) :=
      Int.ofNat_lt.2 hmod
    have h4 : ((n / (2 * L.toNat + 1) : Nat) : Int) < ((2 * L.toNat + 1 : Nat) : Int) :=
      Int.ofNat_lt.2 hdiv
    generalize ((n % (2 * L.toNat + 1) : Nat) : Int) = a at h1 h3
    generalize ((n / (2 * L.toNat + 1) : Nat) : Int) = b at h2 h4
    omega
  refine ⟨_, hb, ?_⟩
  rw [(pos_index_2D_eq _ L hL hL' hb).2.1]
  simp only [sub_add_cancel, Int.toNat_ofNat]
  exact Nat.mod_add_div' n (2 * L.toNat + 1)

/-- C17: for every half-width `L` with `0 ≤ L ≤ 2^30 - 1` (so that the `int` sums
`pos.x + L_real`, `pos.y + L_real` do not overflow), `pos_index_2D` on the positions with
`x, y` in `[-L, L]` equals `(x+L) + (y+L)*(2L+1)` and is a bijection onto
`[0, (2L+1)²)`; `grid_size` is `(2L+1)²` and `byte_size` is `((2L+1)² + 7) >> 3`; for
every in-bounds position the byte index `index >> 3` is below `byte_size`, so on a vector
of `byte_size` bytes `set_visited_2D`, `clear_visited_2D` and `is_visited_2D` make no
access out of range, and the bit they address is bit `index & 7` of that byte. -/
theorem pos_index_2D_bijection (L : Int) (hL : 0 ≤ L) (hL' : L ≤ 1073741823) :
    (∀ p, in_bounds p L →
      pos_index_2D p L = ((p.x + L) + (p.y + L) * (2 * L + 1)).toNat ∧
      pos_index_2D p L < ((2 * L + 1) ^ 2).toNat) ∧
    (∀ p q, in_bounds p L → in_bounds q L → pos_index_2D p L = pos_index_2D q L → p = q) ∧
    (∀ n, n < ((2 * L + 1) ^ 2).toNat → ∃ p, in_bounds p L ∧ pos_index_2D p L = n) ∧
    grid_size L = ((2 * L + 1) ^ 2).toNat ∧
    byte_size L = (((2 * L + 1) ^ 2).toNat + 7) >>> 3 ∧
    (∀ p, in_bounds p L → pos_index_2D p L >>> 3 < byte_size L) ∧
    (∀ v : List Nat, v.length = byte_size L → ∀ p, in_bounds p L →
      (∃ v', set_visited_2D v p L = some v') ∧ (∃ v', clear_visited_2D v p L = some v') ∧
      is_visited_2D v p L
        = some ((v.getD (pos_index_2D p L >>> 3) 0).testBit (pos_index_2D p L &&& 7))) := by
  have hsq : ((2 * L + 1) ^ 2).toNat = (2 * L.toNat + 1) * (2 * L.toNat + 1) := by
    obtain ⟨l, rfl⟩ := Int.eq_ofNat_of_zero_le hL
    have : ((2 * (l : Int) + 1) ^ 2) = (((2 * l + 1) * (2 * l + 1) : Nat) : Int) := by
      push_cast
      ring
    rw [this]
    rfl
  have hgrid : grid_size L = (2 * L.toNat + 1) * (2 * L.toNat + 1) :=
    (pos_index_2D_eq ⟨0, 0⟩ L hL hL' ⟨by simpa using hL, hL, by simpa using hL, hL⟩).2.2.2.2.2.1
  refine ⟨?_, ?_, ?_, ?_, ?_, ?_, ?_⟩
  · intro p hp
    obtain ⟨h1, _, _, _, h5, h6, _⟩ := pos_index_2D_eq p L hL hL' hp
    exact ⟨h1, by rw [hsq, ← h6]; exact h5⟩
  · intro p q hp hq h
    exact pos_index_2D_inj p q L hL hL' hp hq h
  · intro n hn
    exact pos_index_2D_surj L hL hL' n (by rw [← hsq]; exact hn)
  · rw [hsq, hgrid]
  · rw [hsq, byte_size_eq L hL hL', shift_three]
  · intro p hp
    exact (pos_index_2D_eq p L hL hL' hp).2.2.2.2.2.2
  · intro v hv p hp
    have hb := byte_in_range v p L hL hL' hv hp
    obtain ⟨v₁, h1, _⟩ := set_visited_2D_spec v p L hb
    obtain ⟨v₂, h2, _⟩ := clear_visited_2D_spec v p L hb
    exact ⟨⟨v₁, h1⟩, ⟨v₂, h2⟩, is_visited_2D_spec v p L hb⟩

theorem pos_index_2D_bijection_witness :
    (0 : Int) ≤ 2 ∧ (2 : Int) ≤ 1073741823 ∧
    (∀ n, n < ((2 * (2 : Int) + 1) ^ 2).toNat → ∃ p, in_bounds p 2 ∧ pos_index_2D p 2 = n) ∧
    byte_size 2 = (((2 * (2 : Int) + 1) ^ 2).toNat + 7) >>> 3 :=
  ⟨by decide, by decide,
    (pos_index_2D_bijection 2 (by decide) (by decide)).2.2.1,
    (pos_index_2D_bijection 2 (by decide) (by decide)).2.2.2.2.1⟩

theorem clear_byte_noop (b k : Nat) (hb : b < 256) (hk : k < 8) (hbit : b.testBit k = false) :
    (b &&& (2 ^ 8 - (2 ^ k + 1))) % 256 = b := by
  apply Nat.eq_of_testBit_eq
  intro j
  by_cases hj : j < 8
  · rw [testBit_clear_byte b k j hk hj]
    by_cases hkj : k = j
    · subst hkj
      rw [hbit]
      rfl
    · simp [hkj]
  · have h256 : (256 : Nat) = 2 ^ 8 := by decide
    have hpow : (2 : Nat) ^ 8 ≤ 2 ^ j := Nat.pow_le_pow_right (by decide) (by omega)
    rw [h256, Nat.testBit_mod_two_pow, Nat.testBit_lt_two_pow (by omega : b < 2 ^ j)]
    simp [hj]

theorem set_getElem_eq {β : Type} (v : List β) : ∀ (i : Nat) (h : i < v.length),
    v.set i (v.get ⟨i, h⟩) = v := by
  induction v with
  | nil => intro i h; cases h
  | cons a v ih =>
    intro i h
    cases i with
    | zero => rfl
    | succ i =>
      simp only [List.set_cons_succ, List.get_cons_succ]
      rw [ih i (Nat.lt_of_succ_lt_succ h)]

theorem clear_visited_2D_unmarked (v : List Nat) (p : Position2D) (L : Int)
    (hb : pos_index_2D p L >>> 3 < v.length) (hbytes : ∀ b ∈ v, b < 256)
    (h : is_visited_2D v p L = some false) : clear_visited_2D v p L = some v := by
  have hget : v[pos_index_2D p L >>> 3]? = some (v[pos_index_2D p L >>> 3]) :=
    List.getElem?_eq_getElem hb
  have hgetD := getD_eq_of_getElem? v _ 0 _ hget
  rw [is_visited_2D_spec v p L hb] at h
  have hbit : (v[pos_index_2D p L >>> 3]).testBit (pos_index_2D p L % 8) = false := by
    have := Option.some.inj h
    unfold bit_at at this
    rw [hgetD, and_seven] at this
    exact this
  unfold clear_visited_2D
  simp only [hget]
  rw [mask_clear_eq, clear_byte_noop _ _ (hbytes _ (List.getElem_mem _))
    (Nat.mod_lt _ (by decide)) hbit]
  exact congrArg some (set_getElem_eq v _ hb)

/-- C12: for every half-width `L` with `0 ≤ L ≤ 2^30 - 1` (so that the `int` sums
`pos.x + L_real`, `pos.y + L_real` do not overflow),
every in-bounds position `p` and every state of the vector (of `byte_size`
bytes, each a `uint8_t` value) in which `is_visited_2D(p)` is false, `clear_visited_2D(p)`
succeeds and returns the vector unchanged; hence `clear_visited_2D` is idempotent: a
second call at the same position changes nothing. -/
theorem clear_visited_2D_idempotent (L : Int) (hL : 0 ≤ L) (hL' : L ≤ 1073741823)
    (v : List Nat) (hv : v.length = byte_size L) (hbytes : ∀ b ∈ v, b < 256)
    (p : Position2D) (hp : in_bounds p L) :
    (is_visited_2D v p L = some false → clear_visited_2D v p L = some v) ∧
    (∃ v', clear_visited_2D v p L = some v' ∧ clear_visited_2D v' p L = some v') := by
  have hb := byte_in_range v p L hL hL' hv hp
  refine ⟨clear_visited_2D_unmarked v p L hb hbytes, ?_⟩
  obtain ⟨v', h1, h2, _, h4⟩ := clear_visited_2D_spec v p L hb
  have hb' : pos_index_2D p L >>> 3 < v'.length := by rw [h2]; exact hb
  refine ⟨v', h1, clear_visited_2D_unmarked v' p L hb' ?_ ?_⟩
  · have hv' : v' = v.set (pos_index_2D p L >>> 3)
        ((v[pos_index_2D p L >>> 3]
          &&& (4294967295 - (1 <<< (pos_index_2D p L &&& 7)) % 4294967296) % 256) % 256) := by
      have hget : v[pos_index_2D p L >>> 3]? = some (v[pos_index_2D p L >>> 3]) :=
        List.getElem?_eq_getElem hb
      unfold clear_visited_2D at h1
      simp only [hget] at h1
      exact (Option.some.inj h1).symm
    intro b hbm
    rw [hv'] at hbm
    rcases List.mem_or_eq_of_mem_set hbm with hm | rfl
    · exact hbytes b hm
    · exact Nat.mod_lt _ (by decide)
  · rw [is_visited_2D_spec v' p L hb', h4, if_pos rfl]

theorem clear_visited_2D_idempotent_witness :
    (0 : Int) ≤ 1 ∧ (1 : Int) ≤ 1073741823 ∧ ([239, 1] : List Nat).length = byte_size 1 ∧
    (∀ b ∈ ([239, 1] : List Nat), b < 256) ∧ in_bounds ⟨0, 0⟩ 1 ∧
    (is_visited_2D [239, 1] ⟨0, 0⟩ 1 = some false →
      clear_visited_2D [239, 1] ⟨0, 0⟩ 1 = some [239, 1]) ∧
    (∃ v', clear_visited_2D [239, 1] ⟨0, 0⟩ 1 = some v' ∧
      clear_visited_2D v' ⟨0, 0⟩ 1 = some v') :=
  ⟨by decide, by decide, by decide, by decide, by decide,
    clear_visited_2D_idempotent 1 (by decide) (by decide) [239, 1] (by decide) (by decide)
      ⟨0, 0⟩ (by decide)⟩

/-! ## Arguments outside the contract -/

/-- Counterexample to C15: with `L = 1` the position `(2, 0)` is out of bounds, yet
`set_visited_2D` accepts it and sets bit 6 of the vector, which is the bit of the
in-bounds position `(-1, 1)`: `is_visited_2D(-1, 1)` turns from false to true. -/
theorem out_of_bounds_counterexample :
    ¬ in_bounds ⟨2, 0⟩ 1 ∧ in_bounds ⟨-1, 1⟩ 1 ∧
    is_visited_2D (visited 1) ⟨-1, 1⟩ 1 = some false ∧
    set_visited_2D (visited 1) ⟨2, 0⟩ 1 = some [64, 0] ∧
    is_visited_2D [64, 0] ⟨-1, 1⟩ 1 = some true ∧
    is_visited_2D [64, 0] ⟨2, 0⟩ 1 = some true ∧
    clear_visited_2D [64, 0] ⟨2, 0⟩ 1 = some [0, 0] := by
  decide

/-- C15 (amended): the three operations make no bounds check and depend on the position
only through `pos_index_2D`. For every half-width `L` with `0 ≤ L ≤ 2^30 - 1` (so that the
`int` sum `(L+1) + L` does not overflow) and every `y` with
`-L ≤ y < L`, the out-of-bound position `(L+1, y)` has the linear index of the in-bounds
position `(-L, y+1)`, so on every vector `set_visited_2D`, `clear_visited_2D` and
`is_visited_2D` act at `(L+1, y)` exactly as at `(-L, y+1)`; and a position whose byte
index is not below the size of the vector is an access outside the vector. -/
theorem out_of_bounds_aliasing (L : Int) (hL : 0 ≤ L) (hL' : L ≤ 1073741823) (y : Int)
    (hy : -L ≤ y) (hy' : y < L) :
    ¬ in_bounds ⟨L + 1, y⟩ L ∧ in_bounds ⟨-L, y + 1⟩ L ∧
    pos_index_2D ⟨L + 1, y⟩ L = pos_index_2D ⟨-L, y + 1⟩ L ∧
    (∀ v : List Nat,
      set_visited_2D v ⟨L + 1, y⟩ L = set_visited_2D v ⟨-L, y + 1⟩ L ∧
      clear_visited_2D v ⟨L + 1, y⟩ L = clear_visited_2D v ⟨-L, y + 1⟩ L ∧
      is_visited_2D v ⟨L + 1, y⟩ L = is_visited_2D v ⟨-L, y + 1⟩ L) ∧
    (∀ (v : List Nat) (p : Position2D), v.length ≤ pos_index_2D p L >>> 3 →
      set_visited_2D v p L = none ∧ clear_visited_2D v p L = none ∧
      is_visited_2D v p L = none) := by
  have hidx : pos_index_2D ⟨L + 1, y⟩ L = pos_index_2D ⟨-L, y + 1⟩ L := by
    obtain ⟨l, rfl⟩ := Int.eq_ofNat_of_zero_le hL
    obtain ⟨b, hb⟩ := Int.eq_ofNat_of_zero_le (by omega : 0 ≤ y + l)
    have e1 : size_t_of_int (int_wrap ((l : Int) + 1 + l)) = 2 * l + 1 := by
      rw [int_wrap_small _ (by omega) (by omega),
        size_t_of_int_small _ (by omega) (by omega)]; omega
    have e2 : size_t_of_int (int_wrap (y + l)) = b := by
      rw [int_wrap_small _ (by omega) (by omega),
        size_t_of_int_small _ (by omega) (by omega), hb]; rfl
    have e3 : size_t_of_int (int_wrap (-(l : Int) + l)) = 0 := by
      rw [int_wrap_small _ (by omega) (by omega),
        size_t_of_int_small _ (by omega) (by omega)]; omega
    have e4 : size_t_of_int (int_wrap (y + 1 + l)) = b + 1 := by
      rw [int_wrap_small _ (by omega) (by omega),
        size_t_of_int_small _ (by omega) (by omega)]; omega
    have e5 : size_t_of_int (l : Int) = l := by
      rw [size_t_of_int_small _ (by omega) (by omega)]; rfl
    have e6 : (2 * l % 18446744073709551616 + 1) % 18446744073709551616 = 2 * l + 1 := by
      omega
    have hbl : b ≤ 2 * l := by omega
    have h1 : b * (2 * l + 1) ≤ 2 * l * (2 * l + 1) := Nat.mul_le_mul_right _ hbl
    have h2 : 2 * l * (2 * l + 1) ≤ 4294967294 * 4294967295 :=
      Nat.mul_le_mul (by omega) (by omega)
    have h3 : (b + 1) * (2 * l + 1) = b * (2 * l + 1) + (2 * l + 1) := by ring
    unfold pos_index_2D
    simp only [e1, e2, e3, e4, e5, e6, h3]
    generalize b * (2 * l + 1) = P at h1 h2 h3
    omega
  refine ⟨?_, ?_, hidx, ?_, ?_⟩
  · unfold in_bounds
    simp only
    omega
  · unfold in_bounds
    simp only
    omega
  · intro v
    unfold set_visited_2D clear_visited_2D is_visited_2D
    rw [hidx]
    exact ⟨rfl, rfl, rfl⟩
  · intro v p h
    have hnone : v[pos_index_2D p L >>> 3]? = none := List.getElem?_eq_none h
    simp only [set_visited_2D, clear_visited_2D, is_visited_2D, hnone, and_self]

theorem out_of_bounds_aliasing_witness :
    (0 : Int) ≤ 1 ∧ (1 : Int) ≤ 1073741823 ∧ -(1 : Int) ≤ 0 ∧ (0 : Int) < 1 ∧
    ¬ in_bounds ⟨1 + 1, 0⟩ 1 ∧ in_bounds ⟨-1, 0 + 1⟩ 1 ∧
    pos_index_2D ⟨1 + 1, 0⟩ 1 = pos_index_2D ⟨-1, 0 + 1⟩ 1 :=
  ⟨by decide, by decide, by decide, by decide,
    (out_of_bounds_aliasing 1 (by decide) (by decide) 0 (by decide) (by decide)).1,
    (out_of_bounds_aliasing 1 (by decide) (by decide) 0 (by decide) (by decide)).2.1,
    (out_of_bounds_aliasing 1 (by decide) (by decide) 0 (by decide) (by decide)).2.2.1⟩

/-- Counterexample to C14: with radius `r = -1` and engine output 0 the call is not
rejected; it returns the position `(-1, 1)` from `(0, 0)`. -/
theorem nonpositive_radius_counterexample :
    (-1 : Int) ≤ 0 ∧ get_next_pos_2D_infL ⟨0, 0⟩ 0 (-1) = some ⟨-1, 1⟩ := by
  decide

/-- C14 (amended): `get_next_pos_2D_infL` makes no check of the radius. For every
negative radius `r` (with `8 * r` an `int`) the call returns a position, for every
current position and every engine output; for `r = 0` the draw `rng() % 0` is a division
by zero and no position is produced. -/
theorem get_next_pos_2D_infL_unchecked (pos : Position2D) (x : Nat) (r : Int)
    (hr : r ≤ 0) (hr' : -2147483648 ≤ 8 * r) :
    (r < 0 → ∃ p, get_next_pos_2D_infL pos x r = some p) ∧
    (r = 0 → generate_int x (size_t_of_int (8 * r)) = none ∧
      get_next_pos_2D_infL pos x r = none) := by
  constructor
  · intro hneg
    have w8 : int_wrap (8 * r) = 8 * r := int_wrap_small _ hr' (by omega)
    have hsz : size_t_of_int (8 * r) ≠ 0 := by
      unfold size_t_of_int
      omega
    have hg : generate_int x (size_t_of_int (8 * r))
        = some (x % size_t_of_int (8 * r)) := by
      unfold generate_int
      rw [if_neg hsz]
    simp only [get_next_pos_2D_infL, w8, hg]
    split
    · exact ⟨_, rfl⟩
    · exact ⟨_, rfl⟩
  · intro h0
    subst h0
    have hg : generate_int x (size_t_of_int (8 * 0)) = none := by
      have : size_t_of_int (8 * 0) = 0 := by decide
      rw [this]
      rfl
    have w8 : int_wrap (8 * 0) = 8 * 0 := by decide
    refine ⟨hg, ?_⟩
    simp only [get_next_pos_2D_infL, w8, hg]

theorem get_next_pos_2D_infL_unchecked_witness :
    (-3 : Int) ≤ 0 ∧ -2147483648 ≤ 8 * (-3 : Int) ∧
    ∃ p, get_next_pos_2D_infL ⟨5, 5⟩ 12345 (-3) = some p :=
  ⟨by decide, by decide,
    (get_next_pos_2D_infL_unchecked ⟨5, 5⟩ 12345 (-3) (by decide) (by decide)).1 (by decide)⟩

/-! ## Random number wrapper -/

/-- C18: for every 64-bit engine output `x`, `generate_double` returns exactly
`(x >> 11) / 2^53`, a value `v` with `0 ≤ v < 1`; and for every `n ≥ 1`,
`generate_int(n)` returns `x mod n`, an integer in `[0, n)`. -/
theorem rng_draws {α : Type} [LinearOrderedField α] (x : Nat)
    (hx : x < 18446744073709551616) :
    (generate_double x : α) = ((x >>> 11 : Nat) : α) / 2 ^ 53 ∧
    (generate_double x : α) = ((x / 2 ^ 11 : Nat) : α) / 2 ^ 53 ∧
    (0 : α) ≤ generate_double x ∧ (generate_double x : α) < 1 ∧
    ∀ n : Nat, 1 ≤ n → generate_int x n = some (x % n) ∧ x % n < n := by
  have h53 : (1 <<< 53 : Nat) = 2 ^ 53 := Nat.one_shiftLeft 53
  have h1 : (generate_double x : α) = ((x >>> 11 : Nat) : α) / 2 ^ 53 := by
    unfold generate_double
    rw [h53, mul_one_div, Nat.cast_pow, Nat.cast_ofNat]
  refine ⟨h1, ?_, (generate_double_range x hx).1, (generate_double_range x hx).2, ?_⟩
  · rw [h1, Nat.shiftRight_eq_div_pow]
  · intro n hn
    constructor
    · unfold generate_int
      rw [if_neg (by omega)]
    · exact Nat.mod_lt _ (by omega)

theorem rng_draws_witness :
    (12345678901234567890 : Nat) < 18446744073709551616 ∧
    (generate_double 12345678901234567890 : ℚ)
      = ((12345678901234567890 >>> 11 : Nat) : ℚ) / 2 ^ 53 ∧
    (generate_double 12345678901234567890 : ℚ) < 1 :=
  ⟨by decide, (rng_draws 12345678901234567890 (by decide)).1,
    (rng_draws 12345678901234567890 (by decide)).2.2.2.1⟩

/-! ## Iterations of the pairing loop -/

section LoopIterations

variable {α : Type} [LinearOrderedField α]

theorem alias_construct_eq (p : List α) (n : Nat) :
    alias_construct p n
      = ⟨(drain (drain (pair_loop (init_state p n)).prob (pair_loop (init_state p n)).alias_
            (pair_loop (init_state p n)).large).1
          (drain (pair_loop (init_state p n)).prob (pair_loop (init_state p n)).alias_
            (pair_loop (init_state p n)).large).2 (pair_loop (init_state p n)).small).1,
        (drain (drain (pair_loop (init_state p n)).prob (pair_loop (init_state p n)).alias_
            (pair_loop (init_state p n)).large).1
          (drain (pair_loop (init_state p n)).prob (pair_loop (init_state p n)).alias_
            (pair_loop (init_state p n)).large).2 (pair_loop (init_state p n)).small).2⟩ :=
  rfl

theorem pair_loop_trace_cons (s : BuildState α) (l g : Nat) (small large : List Nat)
    (hs : s.small = l :: small) (hl : s.large = g :: large) :
    pair_loop_trace s = l :: pair_loop_trace (pair_body s l g small large) := by
  rw [pair_loop_trace]
  split
  · rename_i l' small' g' large' hs' hl'
    rw [hs] at hs'
    rw [hl] at hl'
    cases hs'
    cases hl'
    rfl
  · rename_i h
    exact absurd hl (h l small g large hs)

theorem pair_loop_trace_nil (s : BuildState α) (h : s.small = [] ∨ s.large = []) :
    pair_loop_trace s = [] := by
  rw [pair_loop_trace]
  split
  · rename_i l' small' g' large' hs' hl'
    rcases h with h | h
    · rw [h] at hs'; cases hs'
    · rw [h] at hl'; cases hl'
  · rfl

theorem pair_step_cons (s : BuildState α) (l g : Nat) (small large : List Nat)
    (hs : s.small = l :: small) (hl : s.large = g :: large) :
    pair_step s = pair_body s l g small large := by
  unfold pair_step
  rw [hs, hl]

theorem pair_body_pending_length (s : BuildState α) (l g : Nat) (small large : List Nat) :
    (pair_body s l g small large).small.length + (pair_body s l g small large).large.length
      = small.length + large.length + 1 := by
  unfold pair_body
  simp only
  split <;> simp only [List.length_cons] <;> omega

/-- The pairing loop is the iteration of its body as many times as the trace is long;
before that many iterations both stacks are non-empty, after them one is empty; and the
indices written by the loop together with the indices left on the stacks are the indices
that were on the stacks at the start. -/
theorem pair_loop_iterations (s : BuildState α) :
    pair_loop s = Nat.iterate pair_step (pair_loop_trace s).length s ∧
    ((pair_loop s).small = [] ∨ (pair_loop s).large = []) ∧
    (∀ k < (pair_loop_trace s).length,
      (Nat.iterate pair_step k s).small ≠ [] ∧ (Nat.iterate pair_step k s).large ≠ []) ∧
    (pair_loop_trace s ++ ((pair_loop s).small ++ (pair_loop s).large)).Perm
      (s.small ++ s.large) := by
  generalize hm : s.small.length + s.large.length = m
  induction m using Nat.strong_induction_on generalizing s with
  | _ m ih =>
    rcases hs : s.small with _ | ⟨l, small⟩
    · rw [pair_loop_nil s (Or.inl hs), pair_loop_trace_nil s (Or.inl hs)]
      refine ⟨rfl, Or.inl hs, fun k hk => absurd hk (Nat.not_lt_zero k), ?_⟩
      rw [hs]
      exact List.Perm.refl _
    · rcases hl : s.large with _ | ⟨g, large⟩
      · rw [pair_loop_nil s (Or.inr hl), pair_loop_trace_nil s (Or.inr hl)]
        refine ⟨rfl, Or.inr hl, fun k hk => absurd hk (Nat.not_lt_zero k), ?_⟩
        rw [hs, hl]
        exact List.Perm.refl _
      · have hlt : (pair_body s l g small large).small.length
            + (pair_body s l g small large).large.length < m := by
          rw [pair_body_pending_length, ← hm, hs, hl]
          simp only [List.length_cons]
          omega
        obtain ⟨h1, h2, h3, h4⟩ := ih _ hlt (pair_body s l g small large) rfl
        rw [pair_loop_cons s l g small large hs hl, pair_loop_trace_cons s l g small large hs hl]
        have hstep : pair_step s = pair_body s l g small large :=
          pair_step_cons s l g small large hs hl
        refine ⟨?_, h2, ?_, ?_⟩
        · rw [List.length_cons, Function.iterate_succ_apply, hstep]
          exact h1
        · intro k hk
          cases k with
          | zero =>
            rw [Function.iterate_zero_apply, hs, hl]
            exact ⟨List.cons_ne_nil _ _, List.cons_ne_nil _ _⟩
          | succ k =>
            rw [Function.iterate_succ_apply, hstep]
            exact h3 k (by simpa using hk)
        · have hp : ((pair_body s l g small large).small
              ++ (pair_body s l g small large).large).Perm (small ++ g :: large) := by
            unfold pair_body
            simp only
            split
            · exact (List.perm_middle).symm
            · exact List.Perm.refl _
          rw [List.cons_append, List.cons_append]
          exact List.Perm.cons l (h4.trans hp)

/-- After at least one iteration, and at the start when the table is not empty, some index
is on a stack. -/
theorem pair_loop_pending_ne_nil (s : BuildState α) (h : s.small ++ s.large ≠ []) :
    (pair_loop s).small ++ (pair_loop s).large ≠ [] := by
  refine (pair_loop_induct (fun s => s.small ++ s.large ≠ []) ?_ s h).1
  intro s l g small large _ _ _
  unfold pair_body
  simp only
  split <;> simp

theorem init_pending (p : List α) (n : Nat) :
    ((init_state p n).small ++ (init_state p n).large).Perm (List.range n) := by
  obtain ⟨h1, h2, _⟩ := classify_spec p n
  apply (List.perm_ext_iff_of_nodup h2 (List.nodup_range n)).2
  intro i
  rw [List.mem_range]
  exact h1 i

/-- Write log of the construction: the indices written by the pairing loop followed by the
indices written by the two drain loops form a permutation of `0..n-1`. -/
theorem writes_perm (p : List α) (n : Nat) :
    (pair_loop_trace (init_state p n) ++ (pair_loop (init_state p n)).large
      ++ (pair_loop (init_state p n)).small).Perm (List.range n) := by
  have h := (pair_loop_iterations (init_state p n)).2.2.2
  refine List.Perm.trans ?_ (h.trans (init_pending p n))
  rw [List.append_assoc]
  exact List.Perm.append_left _ List.perm_append_comm

theorem trace_length_add (p : List α) (n : Nat) :
    (pair_loop_trace (init_state p n)).length
      + ((pair_loop (init_state p n)).small ++ (pair_loop (init_state p n)).large).length
      = n := by
  have h := ((pair_loop_iterations (init_state p n)).2.2.2.trans (init_pending p n)).length_eq
  rw [List.length_append, List.length_range] at h
  exact h

/-- C20: for every `r_max ≥ 0` and every input weight sequence (whatever its sum or
sign), the alias construction of `build_alias_table` terminates: the pairing loop is the
iteration of its body a number of times that is at most `max(r_max - 1, 0)`, after which
one stack is empty; every iteration of the pairing loop and of a drain loop removes exactly
one entry from `small` plus `large`; and in the log of the writes to `prob` and `alias`
(pairing loop, then drain of `large`, then drain of `small`) every index of `[0, r_max)`
occurs exactly once, the table having `r_max` entries. -/
theorem alias_construct_terminates (p : List α) (r_max : Nat) :
    (pair_loop (init_state p r_max)
        = Nat.iterate pair_step (pair_loop_trace (init_state p r_max)).length
            (init_state p r_max) ∧
      ((pair_loop (init_state p r_max)).small = [] ∨
        (pair_loop (init_state p r_max)).large = []) ∧
      ∀ k < (pair_loop_trace (init_state p r_max)).length,
        (Nat.iterate pair_step k (init_state p r_max)).small ≠ [] ∧
        (Nat.iterate pair_step k (init_state p r_max)).large ≠ []) ∧
    (pair_loop_trace (init_state p r_max)).length ≤ r_max - 1 ∧
    (∀ (s : BuildState α) (l g : Nat) (small large : List Nat),
      s.small = l :: small → s.large = g :: large →
      (pair_step s).small.length + (pair_step s).large.length + 1
        = s.small.length + s.large.length ∧
      (pair_step s).prob = s.prob.set l (s.scaled_p.getD l 0) ∧
      (pair_step s).alias_ = s.alias_.set l g) ∧
    (∀ (prob : List α) (alias_ : List Nat) (g : Nat) (rest : List Nat),
      drain prob alias_ (g :: rest) = drain (prob.set g 1) (alias_.set g g) rest ∧
      rest.length + 1 = (g :: rest).length) ∧
    (∀ i < r_max,
      (pair_loop_trace (init_state p r_max) ++ (pair_loop (init_state p r_max)).large
        ++ (pair_loop (init_state p r_max)).small).count i = 1) ∧
    (pair_loop_trace (init_state p r_max) ++ (pair_loop (init_state p r_max)).large
        ++ (pair_loop (init_state p r_max)).small).length = r_max ∧
    (p.length = r_max →
      (alias_construct p r_max).prob.length = r_max ∧
      (alias_construct p r_max).alias_.length = r_max) := by
  obtain ⟨h1, h2, h3, _⟩ := pair_loop_iterations (init_state p r_max)
  have hperm := writes_perm p r_max
  refine ⟨⟨h1, h2, h3⟩, ?_, ?_, ?_, ?_, ?_, ?_⟩
  · have hadd := trace_length_add p r_max
    by_cases hn : r_max = 0
    · omega
    · have hne : (init_state p r_max).small ++ (init_state p r_max).large ≠ [] := by
        intro h0
        have := (init_pending p r_max).length_eq
        rw [h0, List.length_range] at this
        exact hn this.symm
      have := pair_loop_pending_ne_nil (init_state p r_max) hne
      have hpos : 0 < ((pair_loop (init_state p r_max)).small
          ++ (pair_loop (init_state p r_max)).large).length := List.length_pos.2 this
      omega
  · intro s l g small large hs hl
    rw [pair_step_cons s l g small large hs hl, pair_body_pending_length, hs, hl]
    refine ⟨by simp only [List.length_cons]; omega, ?_, ?_⟩
    · unfold pair_body
      simp only
      split <;> rfl
    · unfold pair_body
      simp only
      split <;> rfl
  · intro prob alias_ g rest
    exact ⟨rfl, rfl⟩
  · intro i hi
    rw [hperm.count_eq]
    exact List.count_eq_one_of_mem (List.nodup_range r_max) (List.mem_range.2 hi)
  · rw [hperm.length_eq, List.length_range]
  · intro hlen
    obtain ⟨a, b, _⟩ := alias_construct_entries p r_max hlen
    exact ⟨a, b⟩

end LoopIterations

/-! ## Which indices are their own alias -/

section SelfAlias

variable {α : Type} [LinearOrderedField α]

theorem resolved_step (n : Nat) (s : BuildState α) (l g : Nat) (small large : List Nat)
    (hs : s.small = l :: small) (hl : s.large = g :: large) (hsh : Shape n s)
    (h : ∀ i < n, i ∉ s.small ++ s.large → s.prob.getD i 0 < 1 ∧ s.alias_.getD i 0 ≠ i) :
    ∀ i < n, i ∉ (pair_body s l g small large).small ++ (pair_body s l g small large).large →
      (pair_body s l g small large).prob.getD i 0 < 1 ∧
      (pair_body s l g small large).alias_.getD i 0 ≠ i := by
  obtain ⟨hln, hgn, hlg, hl1, hl2, hg1, hg2, hlt, hge⟩ := shape_popped n s l g small large hs hl hsh
  obtain ⟨_, e2, e3, _⟩ := pair_body_fields s l g small large (by rw [hsh.len_pr]; exact hln)
  intro i hi hmem
  rw [pending_step] at hmem
  simp only [not_or] at hmem
  rw [e2, e3]
  by_cases hil : l = i
  · subst hil
    rw [getD_set_self _ _ _ _ (by rw [hsh.len_pr]; exact hln),
      getD_set_self _ _ _ _ (by rw [hsh.len_al]; exact hln)]
    exact ⟨hlt, Ne.symm hlg⟩
  · rw [getD_set_ne _ _ _ _ _ hil, getD_set_ne _ _ _ _ _ hil]
    apply h i hi
    rw [hs, hl]
    simp only [List.cons_append, List.mem_cons, List.mem_append, not_or]
    exact ⟨Ne.symm hil, hmem.2.1, hmem.1, hmem.2.2⟩

theorem getElem?_of_getD {β : Type} (v : List β) (i : Nat) (d : β) (h : i < v.length) :
    v[i]? = some (v.getD i d) := by
  rw [List.getD_eq_getElem?_getD, List.getElem?_eq_getElem h, Option.getD_some]

/-- Entries of the finished table, index by index: an index written by the pairing loop
has `prob < 1` and another index as alias, an index left to a drain loop has `prob = 1`
and itself as alias. -/
theorem alias_construct_cases (p : List α) (n : Nat) (hlen : p.length = n) (i : Nat)
    (hi : i < n) :
    (alias_construct p n).prob[i]? = some ((alias_construct p n).prob.getD i 0) ∧
    (alias_construct p n).alias_[i]? = some ((alias_construct p n).alias_.getD i 0) ∧
    (i ∈ pair_loop_trace (init_state p n) ∨
      i ∈ (pair_loop (init_state p n)).large ++ (pair_loop (init_state p n)).small) ∧
    (i ∈ pair_loop_trace (init_state p n) →
      (alias_construct p n).prob.getD i 0 < 1 ∧ (alias_construct p n).alias_.getD i 0 ≠ i) ∧
    (i ∈ (pair_loop (init_state p n)).large ++ (pair_loop (init_state p n)).small →
      (alias_construct p n).prob.getD i 0 = 1 ∧ (alias_construct p n).alias_.getD i 0 = i) := by
  obtain ⟨a1, a2, a3⟩ := alias_construct_entries p n hlen
  have hinv := (pair_loop_induct
    (fun s => Shape n s ∧
      ∀ i < n, i ∉ s.small ++ s.large → s.prob.getD i 0 < 1 ∧ s.alias_.getD i 0 ≠ i)
    (fun s l g small large hs hl h =>
      ⟨shape_step n s l g small large hs hl h.1,
        resolved_step n s l g small large hs hl h.1 h.2⟩)
    (init_state p n)
    ⟨init_shape p n hlen, fun i hi hm =>
      absurd ((init_pending p n).mem_iff.2 (List.mem_range.2 hi)) hm⟩).1
  obtain ⟨_, hres⟩ := hinv
  have hperm := (pair_loop_iterations (init_state p n)).2.2.2.trans (init_pending p n)
  have hnd : (pair_loop_trace (init_state p n)
      ++ ((pair_loop (init_state p n)).small ++ (pair_loop (init_state p n)).large)).Nodup :=
    hperm.nodup_iff.2 (List.nodup_range n)
  have hmem : i ∈ pair_loop_trace (init_state p n)
      ++ ((pair_loop (init_state p n)).small ++ (pair_loop (init_state p n)).large) :=
    hperm.mem_iff.2 (List.mem_range.2 hi)
  have e1 := (a3 i).1
  have e2 := (a3 i).2
  change (alias_construct p n).prob.getD i 0
    = (if i ∈ (pair_loop (init_state p n)).small ++ (pair_loop (init_state p n)).large then 1
       else (pair_loop (init_state p n)).prob.getD i 0) at e1
  change (alias_construct p n).alias_.getD i 0
    = (if i ∈ (pair_loop (init_state p n)).small ++ (pair_loop (init_state p n)).large then i
       else (pair_loop (init_state p n)).alias_.getD i 0) at e2
  refine ⟨getElem?_of_getD _ i 0 (by rw [a1]; exact hi),
    getElem?_of_getD _ i 0 (by rw [a2]; exact hi), ?_, ?_, ?_⟩
  · rcases List.mem_append.1 hmem with h | h
    · exact Or.inl h
    · right
      rw [List.mem_append] at h ⊢
      exact h.symm
  · intro ht
    have hnot : i ∉ (pair_loop (init_state p n)).small ++ (pair_loop (init_state p n)).large :=
      fun hm => (List.nodup_append.1 hnd).2.2 ht hm
    rw [e1, e2, if_neg hnot, if_neg hnot]
    exact hres i hi hnot
  · intro hd
    have hin : i ∈ (pair_loop (init_state p n)).small ++ (pair_loop (init_state p n)).large := by
      rw [List.mem_append] at hd ⊢
      exact hd.symm
    rw [e1, e2, if_pos hin, if_pos hin]
    exact ⟨rfl, rfl⟩

/-- C19: for every input weight sequence, the table made by the alias construction of
`build_alias_table` satisfies, for every index `i`, exactly one of: `prob[i] < 1` and
`alias[i] ≠ i`, which holds when `i` was written by a pairing step, or `prob[i] = 1` and
`alias[i] = i`, which holds when `i` was written by a drain loop; so an index is its own
alias if and only if its `prob` entry is 1. The same holds for every table that
`build_alias_table` returns. -/
theorem self_alias_iff_prob_one (p : List α) (r_max : Nat) (hlen : p.length = r_max) :
    (∀ i < r_max, ∃ pi ai,
      (alias_construct p r_max).prob[i]? = some pi ∧
      (alias_construct p r_max).alias_[i]? = some ai ∧
      (i ∈ pair_loop_trace (init_state p r_max) ∨
        i ∈ (pair_loop (init_state p r_max)).large ++ (pair_loop (init_state p r_max)).small) ∧
      (i ∈ pair_loop_trace (init_state p r_max) → pi < 1 ∧ ai ≠ i) ∧
      (i ∈ (pair_loop (init_state p r_max)).large ++ (pair_loop (init_state p r_max)).small →
        pi = 1 ∧ ai = i) ∧
      ((pi < 1 ∧ ai ≠ i) ∨ (pi = 1 ∧ ai = i)) ∧
      ¬ ((pi < 1 ∧ ai ≠ i) ∧ (pi = 1 ∧ ai = i)) ∧
      (ai = i ↔ pi = 1)) ∧
    (∀ (logFn expFn : α → α) (exponent : α) (tab : AliasTable α),
      build_alias_table logFn expFn exponent (r_max : Int) = Except.ok tab →
      ∀ i < r_max, ∃ pi ai, tab.prob[i]? = some pi ∧ tab.alias_[i]? = some ai ∧
        ((pi < 1 ∧ ai ≠ i) ∨ (pi = 1 ∧ ai = i)) ∧
        ¬ ((pi < 1 ∧ ai ≠ i) ∧ (pi = 1 ∧ ai = i)) ∧
        (ai = i ↔ pi = 1)) := by
  have key : ∀ (q : List α), q.length = r_max → ∀ i < r_max, ∃ pi ai,
      (alias_construct q r_max).prob[i]? = some pi ∧
      (alias_construct q r_max).alias_[i]? = some ai ∧
      (i ∈ pair_loop_trace (init_state q r_max) ∨
        i ∈ (pair_loop (init_state q r_max)).large ++ (pair_loop (init_state q r_max)).small) ∧
      (i ∈ pair_loop_trace (init_state q r_max) → pi < 1 ∧ ai ≠ i) ∧
      (i ∈ (pair_loop (init_state q r_max)).large ++ (pair_loop (init_state q r_max)).small →
        pi = 1 ∧ ai = i) ∧
      ((pi < 1 ∧ ai ≠ i) ∨ (pi = 1 ∧ ai = i)) ∧
      ¬ ((pi < 1 ∧ ai ≠ i) ∧ (pi = 1 ∧ ai = i)) ∧
      (ai = i ↔ pi = 1) := by
    intro q hq i hi
    obtain ⟨c1, c2, c3, c4, c5⟩ := alias_construct_cases q r_max hq i hi
    refine ⟨_, _, c1, c2, c3, c4, c5, ?_, ?_, ?_⟩
    · rcases c3 with h | h
      · exact Or.inl (c4 h)
      · exact Or.inr (c5 h)
    · rintro ⟨⟨h1, _⟩, ⟨h2, _⟩⟩
      rw [h2] at h1
      exact lt_irrefl _ h1
    · rcases c3 with h | h
      · obtain ⟨h1, h2⟩ := c4 h
        exact ⟨fun ha => absurd ha h2, fun hp => absurd hp (ne_of_lt h1)⟩
      · obtain ⟨h1, h2⟩ := c5 h
        exact ⟨fun _ => h1, fun _ => h2⟩
  refine ⟨key p hlen, ?_⟩
  intro logFn expFn exponent tab htab i hi
  unfold build_alias_table at htab
  rw [if_neg (by omega)] at htab
  simp only [Int.toNat_ofNat, Except.ok.injEq] at htab
  obtain ⟨pi, ai, h1, h2, _, _, _, h6, h7, h8⟩ :=
    key (scaled_weights logFn expFn exponent r_max)
      (scaled_weights_length logFn expFn exponent r_max) i hi
  rw [htab] at h1 h2
  exact ⟨pi, ai, h1, h2, h6, h7, h8⟩

theorem self_alias_iff_prob_one_witness :
    ([3 / 2, 1 / 4, 5 / 4] : List ℚ).length = 3 ∧
    (∀ i < 3, ∃ pi ai,
      (alias_construct ([3 / 2, 1 / 4, 5 / 4] : List ℚ) 3).prob[i]? = some pi ∧
      (alias_construct ([3 / 2, 1 / 4, 5 / 4] : List ℚ) 3).alias_[i]? = some ai ∧
      (i ∈ pair_loop_trace (init_state ([3 / 2, 1 / 4, 5 / 4] : List ℚ) 3) ∨
        i ∈ (pair_loop (init_state ([3 / 2, 1 / 4, 5 / 4] : List ℚ) 3)).large
          ++ (pair_loop (init_state ([3 / 2, 1 / 4, 5 / 4] : List ℚ) 3)).small) ∧
      (i ∈ pair_loop_trace (init_state ([3 / 2, 1 / 4, 5 / 4] : List ℚ) 3) →
        pi < 1 ∧ ai ≠ i) ∧
      (i ∈ (pair_loop (init_state ([3 / 2, 1 / 4, 5 / 4] : List ℚ) 3)).large
          ++ (pair_loop (init_state ([3 / 2, 1 / 4, 5 / 4] : List ℚ) 3)).small →
        pi = 1 ∧ ai = i) ∧
      ((pi < 1 ∧ ai ≠ i) ∨ (pi = 1 ∧ ai = i)) ∧
      ¬ ((pi < 1 ∧ ai ≠ i) ∧ (pi = 1 ∧ ai = i)) ∧
      (ai = i ↔ pi = 1)) :=
  ⟨rfl, (self_alias_iff_prob_one ([3 / 2, 1 / 4, 5 / 4] : List ℚ) 3 rfl).1⟩

end SelfAlias

/-! ## Number of pairing steps for decreasing weights -/

section PairingCount

variable {α : Type} [LinearOrderedField α]

theorem tail_big_step (n : Nat) (s : BuildState α) (l g : Nat) (small large : List Nat)
    (hs : s.small = l :: small) (hl : s.large = g :: large) (hsh : Shape n s)
    (h : ∀ i ∈ s.large.tail, 1 < s.scaled_p.getD i 0) :
    ∀ i ∈ (pair_body s l g small large).large.tail,
      1 < (pair_body s l g small large).scaled_p.getD i 0 := by
  obtain ⟨hln, _, _, _, _, _, hg2, _, _⟩ := shape_popped n s l g small large hs hl hsh
  obtain ⟨e1, _, _, e4⟩ := pair_body_fields s l g small large (by rw [hsh.len_pr]; exact hln)
  rw [hl, List.tail_cons] at h
  have hsub : ∀ i ∈ (pair_body s l g small large).large.tail, i ∈ large := by
    intro i hi
    rcases e4 with ⟨_, _, el⟩ | ⟨_, _, el⟩
    · rw [el] at hi
      exact List.mem_of_mem_tail hi
    · rw [el, List.tail_cons] at hi
      exact hi
  intro i hi
  have hil := hsub i hi
  have hgi : g ≠ i := by
    rintro rfl
    exact hg2 hil
  rw [e1, getD_set_ne _ _ _ _ _ hgi]
  exact h i hil

theorem classify_tail_big (p : List α) (N : Nat)
    (hdec : ∀ i j, i < j → j < N → p.getD j 0 < p.getD i 0) :
    ∀ n ≤ N, ∀ i ∈ (classify p n).2.tail, 1 < p.getD i 0 := by
  intro n
  induction n with
  | zero =>
    intro _ i hi
    simp [classify] at hi
  | succ n ih =>
    intro hn i hi
    rw [classify_succ] at hi
    by_cases hp : p.getD n 0 < 1
    · rw [if_pos hp] at hi
      exact ih (by omega) i hi
    · rw [if_neg hp] at hi
      simp only [List.tail_cons] at hi
      obtain ⟨h1, _⟩ := classify_spec p n
      have hin : i < n := (h1 i).1 (List.mem_append_right _ hi)
      exact lt_of_le_of_lt (not_lt.1 hp) (hdec i n hin (by omega))

/-- For strictly decreasing weights of arithmetic mean one the pairing loop leaves exactly
one index to the drain loops, so it runs `n - 1` times. -/
theorem pair_loop_decreasing (p : List α) (n : Nat) (hn : 1 ≤ n) (hlen : p.length = n)
    (hdec : ∀ i j, i < j → j < n → p.getD j 0 < p.getD i 0) (hsum : p.sum = (n : α)) :
    (pair_loop_trace (init_state p n)).length = n - 1 ∧
    ∃ i, i < n ∧
      (pair_loop (init_state p n)).small ++ (pair_loop (init_state p n)).large = [i] ∧
      (pair_loop (init_state p n)).small = [] ∧
      i ∉ pair_loop_trace (init_state p n) ∧
      (∀ j < n, j ≠ i → j ∈ pair_loop_trace (init_state p n)) ∧
      (alias_construct p n).prob[i]? = some 1 ∧ (alias_construct p n).alias_[i]? = some i := by
  have hinv := pair_loop_induct
    (fun s => Shape n s ∧ Total s ∧ ∀ i ∈ s.large.tail, 1 < s.scaled_p.getD i 0)
    (fun s l g small large hs hl h =>
      ⟨shape_step n s l g small large hs hl h.1, total_step n s l g small large hs hl h.1 h.2.1,
        tail_big_step n s l g small large hs hl h.1 h.2.2⟩)
    (init_state p n)
    ⟨init_shape p n hlen, init_total p n hlen hsum, classify_tail_big p n hdec n (le_refl n)⟩
  obtain ⟨⟨hsh, htot, htail⟩, hexit⟩ := hinv
  have hone := pending_all_one n _ hsh htot hexit
  have hne : (init_state p n).small ++ (init_state p n).large ≠ [] := by
    intro h0
    have := (init_pending p n).length_eq
    rw [h0, List.length_range] at this
    simp only [List.length_nil] at this
    omega
  have hpne := pair_loop_pending_ne_nil (init_state p n) hne
  have htl : (pair_loop (init_state p n)).large.tail = [] := by
    apply List.eq_nil_iff_forall_not_mem.2
    intro i hi
    have h1 := htail i hi
    have h2 := hone i (List.mem_append_right _ (List.mem_of_mem_tail hi))
    rw [h2] at h1
    exact lt_irrefl _ h1
  have hsmall : (pair_loop (init_state p n)).small = [] := by
    rcases hexit with he | he
    · exact he
    · by_contra hs
      have hlt := sum_lt_length ((pair_loop (init_state p n)).small.map
          (fun i => (pair_loop (init_state p n)).scaled_p.getD i 0))
        (by
          intro x hx
          obtain ⟨k, hk, rfl⟩ := List.mem_map.1 hx
          exact hsh.small_lt k hk)
        (by simpa using hs)
      have ht := htot
      unfold Total at ht
      rw [he, List.append_nil] at ht
      rw [ht, List.length_map] at hlt
      exact lt_irrefl _ hlt
  obtain ⟨i, hi⟩ : ∃ i, (pair_loop (init_state p n)).large = [i] := by
    rcases hlg : (pair_loop (init_state p n)).large with _ | ⟨g, rest⟩
    · rw [hsmall, hlg] at hpne
      exact absurd rfl hpne
    · rw [hlg, List.tail_cons] at htl
      exact ⟨g, by rw [htl]⟩
  have hpend : (pair_loop (init_state p n)).small ++ (pair_loop (init_state p n)).large = [i] := by
    rw [hsmall, hi, List.nil_append]
  have hadd := trace_length_add p n
  rw [hpend] at hadd
  simp only [List.length_singleton] at hadd
  have hin : i < n := hsh.lt_n i (by rw [hpend]; exact List.mem_singleton_self i)
  have hperm := (pair_loop_iterations (init_state p n)).2.2.2.trans (init_pending p n)
  rw [hpend] at hperm
  have hnd : (pair_loop_trace (init_state p n) ++ [i]).Nodup :=
    hperm.nodup_iff.2 (List.nodup_range n)
  obtain ⟨c1, c2, _, _, c5⟩ := alias_construct_cases p n hlen i hin
  have hdr := c5 (by rw [hi, hsmall, List.append_nil]; exact List.mem_singleton_self i)
  refine ⟨by omega, i, hin, hpend, hsmall, ?_, ?_, ?_, ?_⟩
  · intro ht
    exact (List.nodup_append.1 hnd).2.2 ht (List.mem_singleton_self i)
  · intro j hj hji
    have hm : j ∈ pair_loop_trace (init_state p n) ++ [i] :=
      hperm.mem_iff.2 (List.mem_range.2 hj)
    rcases List.mem_append.1 hm with h | h
    · exact h
    · exact absurd (List.mem_singleton.1 h) hji
  · rw [c1, hdr.1]
  · rw [c2, hdr.2]

theorem scaled_weights_getD (logFn expFn : α → α) (exponent : α) (r_max i : Nat)
    (hi : i < r_max) :
    (scaled_weights logFn expFn exponent r_max).getD i 0
      = expFn (logFn ((i + 1 : Nat) : α) * (-exponent))
          / weight_sum logFn expFn exponent r_max * (r_max : α) := by
  unfold scaled_weights weight_terms
  rw [List.getD_eq_getElem?_getD, List.getElem?_map, List.getElem?_map,
    List.getElem?_range hi]
  rfl

end PairingCount

theorem scaled_weights_real_decreasing (e : ℝ) (he : 0 < e) (r_max : Nat) (hr : 1 ≤ r_max) :
    ∀ i j, i < j → j < r_max →
      (scaled_weights Real.log Real.exp e r_max).getD j 0
        < (scaled_weights Real.log Real.exp e r_max).getD i 0 := by
  intro i j hij hj
  rw [scaled_weights_getD _ _ _ _ j hj, scaled_weights_getD _ _ _ _ i (by omega)]
  have hS := weight_sum_pos Real.log Real.exp Real.exp_pos e r_max hr
  have hrpos : (0 : ℝ) < (r_max : ℝ) := by exact_mod_cast hr
  have hlog : Real.log ((i + 1 : Nat) : ℝ) < Real.log ((j + 1 : Nat) : ℝ) :=
    Real.log_lt_log (by exact_mod_cast Nat.succ_pos i) (by exact_mod_cast Nat.succ_lt_succ hij)
  have hexp : Real.exp (Real.log ((j + 1 : Nat) : ℝ) * (-e))
      < Real.exp (Real.log ((i + 1 : Nat) : ℝ) * (-e)) := by
    apply Real.exp_lt_exp.2
    nlinarith
  exact mul_lt_mul_of_pos_right (div_lt_div_of_pos_right hexp hS) hrpos

/-- C11: over exact real arithmetic, for every exponent `e > 0` and every `r_max ≥ 1`, the
rescaled power-law weights are strictly decreasing with arithmetic mean one, and with
them as input the pairing loop of `build_alias_table` executes exactly `r_max - 1`
iterations before a list empties: it is the `(r_max - 1)`-fold iteration of its body,
both lists being non-empty before each iteration and `small` empty after the last; each
iteration writes `prob` and `alias` of one index, all different, and the single
remaining index is the one the drain loops write (`prob = 1`, alias itself). The same
holds for every strictly decreasing input of arithmetic mean one. -/
theorem pairing_steps_power_law (e : ℝ) (he : 0 < e) (r_max : Nat) (hr : 1 ≤ r_max) :
    (∀ i j, i < j → j < r_max →
      (scaled_weights Real.log Real.exp e r_max).getD j 0
        < (scaled_weights Real.log Real.exp e r_max).getD i 0) ∧
    (scaled_weights Real.log Real.exp e r_max).sum / (r_max : ℝ) = 1 ∧
    (∀ p : List ℝ, p.length = r_max →
      (∀ i j, i < j → j < r_max → p.getD j 0 < p.getD i 0) → p.sum / (r_max : ℝ) = 1 →
      (pair_loop_trace (init_state p r_max)).length = r_max - 1 ∧
      pair_loop (init_state p r_max) = Nat.iterate pair_step (r_max - 1) (init_state p r_max) ∧
      (∀ k < r_max - 1,
        (Nat.iterate pair_step k (init_state p r_max)).small ≠ [] ∧
        (Nat.iterate pair_step k (init_state p r_max)).large ≠ []) ∧
      (pair_loop_trace (init_state p r_max)).Nodup ∧
      ∃ i, i < r_max ∧
        (pair_loop (init_state p r_max)).small = [] ∧
        (pair_loop (init_state p r_max)).large = [i] ∧
        i ∉ pair_loop_trace (init_state p r_max) ∧
        (∀ j < r_max, j ≠ i → j ∈ pair_loop_trace (init_state p r_max)) ∧
        (alias_construct p r_max).prob[i]? = some 1 ∧
        (alias_construct p r_max).alias_[i]? = some i) ∧
    (pair_loop_trace (init_state (scaled_weights Real.log Real.exp e r_max) r_max)).length
      = r_max - 1 ∧
    pair_loop (init_state (scaled_weights Real.log Real.exp e r_max) r_max)
      = Nat.iterate pair_step (r_max - 1)
          (init_state (scaled_weights Real.log Real.exp e r_max) r_max) := by
  have hrpos : (0 : ℝ) < (r_max : ℝ) := by exact_mod_cast hr
  have hdec := scaled_weights_real_decreasing e he r_max hr
  have hsum := scaled_weights_sum Real.log Real.exp Real.exp_pos e r_max hr
  have key : ∀ p : List ℝ, p.length = r_max →
      (∀ i j, i < j → j < r_max → p.getD j 0 < p.getD i 0) → p.sum / (r_max : ℝ) = 1 →
      (pair_loop_trace (init_state p r_max)).length = r_max - 1 ∧
      pair_loop (init_state p r_max) = Nat.iterate pair_step (r_max - 1) (init_state p r_max) ∧
      (∀ k < r_max - 1,
        (Nat.iterate pair_step k (init_state p r_max)).small ≠ [] ∧
        (Nat.iterate pair_step k (init_state p r_max)).large ≠ []) ∧
      (pair_loop_trace (init_state p r_max)).Nodup ∧
      ∃ i, i < r_max ∧
        (pair_loop (init_state p r_max)).small = [] ∧
        (pair_loop (init_state p r_max)).large = [i] ∧
        i ∉ pair_loop_trace (init_state p r_max) ∧
        (∀ j < r_max, j ≠ i → j ∈ pair_loop_trace (init_state p r_max)) ∧
        (alias_construct p r_max).prob[i]? = some 1 ∧
        (alias_construct p r_max).alias_[i]? = some i := by
    intro p hlen hd hmean
    have hs : p.sum = (r_max : ℝ) := by
      rw [div_eq_one_iff_eq (ne_of_gt hrpos)] at hmean
      exact hmean
    obtain ⟨hcount, i, hi, hpend, hsmall, hnot, hall, hp1, hp2⟩ :=
      pair_loop_decreasing p r_max hr hlen hd hs
    obtain ⟨h1, _, h3, h4⟩ := pair_loop_iterations (init_state p r_max)
    have hnd : (pair_loop_trace (init_state p r_max)).Nodup :=
      (List.nodup_append.1 ((h4.trans (init_pending p r_max)).nodup_iff.2
        (List.nodup_range r_max))).1
    rw [hcount] at h1 h3
    refine ⟨hcount, h1, h3, hnd, i, hi, hsmall, ?_, hnot, hall, hp1, hp2⟩
    rw [hsmall, List.nil_append] at hpend
    exact hpend
  have hreal := key (scaled_weights Real.log Real.exp e r_max)
    (scaled_weights_length Real.log Real.exp e r_max) hdec
    (by rw [hsum, div_self (ne_of_gt hrpos)])
  exact ⟨hdec, by rw [hsum, div_self (ne_of_gt hrpos)], key, hreal.1, hreal.2.1⟩

theorem pairing_steps_power_law_witness :
    (0 : ℝ) < 2 ∧ 1 ≤ 4 ∧
    (pair_loop_trace (init_state (scaled_weights Real.log Real.exp 2 4) 4)).length = 4 - 1 ∧
    pair_loop (init_state (scaled_weights Real.log Real.exp 2 4) 4)
      = Nat.iterate pair_step (4 - 1) (init_state (scaled_weights Real.log Real.exp 2 4) 4) :=
  ⟨by norm_num, by decide,
    (pairing_steps_power_law 2 (by norm_num) 4 (by decide)).2.2.2.1,
    (pairing_steps_power_law 2 (by norm_num) 4 (by decide)).2.2.2.2⟩

/-! ## `build_alias_table` on arguments outside the contract -/

section Unchecked

variable {α : Type} [LinearOrderedField α]

/-- When no weight is below one the pairing loop does not run and the table is the
uniform one. -/
theorem alias_construct_all_large (p : List α) (n : Nat) (hlen : p.length = n)
    (hall : ∀ i < n, 1 ≤ p.getD i 0) (i : Nat) (hi : i < n) :
    (pair_loop_trace (init_state p n)) = [] ∧
    (alias_construct p n).prob[i]? = some 1 ∧ (alias_construct p n).alias_[i]? = some i := by
  obtain ⟨h1, _, h3, _⟩ := classify_spec p n
  have hsmall : (init_state p n).small = [] := by
    apply List.eq_nil_iff_forall_not_mem.2
    intro k hk
    have hk' : k < n := (h1 k).1 (List.mem_append_left _ hk)
    exact absurd (h3 k hk) (not_lt.2 (hall k hk'))
  have hloop : pair_loop (init_state p n) = init_state p n :=
    pair_loop_nil _ (Or.inl hsmall)
  obtain ⟨c1, c2, _, _, c5⟩ := alias_construct_cases p n hlen i hi
  have hmem : i ∈ (pair_loop (init_state p n)).large ++ (pair_loop (init_state p n)).small := by
    rw [hloop, List.mem_append]
    rcases List.mem_append.1 ((h1 i).2 hi) with h | h
    · exact Or.inr h
    · exact Or.inl h
  have hdr := c5 hmem
  exact ⟨pair_loop_trace_nil _ (Or.inl hsmall), by rw [c1, hdr.1], by rw [c2, hdr.2]⟩

theorem scaled_weights_exponent_zero (logFn expFn : α → α) (hexp : expFn 0 = 1)
    (r_max : Nat) (hr : 1 ≤ r_max) (i : Nat) (hi : i < r_max) :
    (scaled_weights logFn expFn 0 r_max).getD i 0 = 1 := by
  have hterms : weight_terms logFn expFn 0 r_max = List.replicate r_max 1 := by
    unfold weight_terms
    simp only [neg_zero, mul_zero, hexp]
    exact List.map_const' _ _ |>.trans (by rw [List.length_range])
  have hS : weight_sum logFn expFn 0 r_max = (r_max : α) := by
    rw [weight_sum_eq, hterms, List.sum_replicate, nsmul_eq_mul, mul_one]
  have hrpos : (0 : α) < (r_max : α) := by exact_mod_cast hr
  rw [scaled_weights_getD _ _ _ _ i hi, hS]
  simp only [neg_zero, mul_zero, hexp]
  rw [div_mul_cancel₀ _ (ne_of_gt hrpos)]

end Unchecked

/-- Counterexample to C13: `build_alias_table(2.0, 0)` is not rejected, it returns the
empty table; and `build_alias_table(0.0, 2)` is not rejected, it returns the uniform
table `prob = [1, 1]`, `alias = [0, 1]`. -/
theorem build_alias_table_counterexample :
    (0 : Int) < 1 ∧ (0 : ℝ) ≤ 0 ∧
    build_alias_table Real.log Real.exp 2 0 = Except.ok ⟨[], []⟩ ∧
    (∃ tab, build_alias_table Real.log Real.exp 0 2 = Except.ok tab ∧
      tab.prob[0]? = some 1 ∧ tab.prob[1]? = some 1 ∧
      tab.alias_[0]? = some 0 ∧ tab.alias_[1]? = some 1 ∧
      tab.prob.length = 2 ∧ tab.alias_.length = 2) := by
  refine ⟨by decide, le_refl _, ?_, ?_⟩
  · unfold build_alias_table
    rw [if_neg (by decide)]
    have h0 : (0 : Int).toNat = 0 := rfl
    rw [h0]
    have hs : scaled_weights Real.log Real.exp 2 0 = [] := rfl
    rw [hs, alias_construct_eq]
    have hinit : init_state ([] : List ℝ) 0 = ⟨[], [], [], [], []⟩ := rfl
    rw [hinit, pair_loop_nil _ (Or.inl rfl)]
    rfl
  · refine ⟨alias_construct (scaled_weights Real.log Real.exp 0 2) 2, ?_, ?_⟩
    · unfold build_alias_table
      rw [if_neg (by decide)]
      rfl
    · have hall : ∀ i < 2, (1 : ℝ) ≤ (scaled_weights Real.log Real.exp 0 2).getD i 0 :=
        fun i hi => le_of_eq
          (scaled_weights_exponent_zero Real.log Real.exp Real.exp_zero 2 (by decide) i hi).symm
      have hlen := scaled_weights_length Real.log Real.exp (0 : ℝ) 2
      obtain ⟨_, a0, b0⟩ := alias_construct_all_large _ 2 hlen hall 0 (by decide)
      obtain ⟨_, a1, b1⟩ := alias_construct_all_large _ 2 hlen hall 1 (by decide)
      obtain ⟨l1, l2, _⟩ := alias_construct_entries _ 2 hlen
      exact ⟨a0, a1, b0, b1, l1, l2⟩

/-- C13 (amended): `build_alias_table` makes no check of its arguments. For every
exponent, positive or not, and every `r_max ≥ 0` it returns a table whose vectors have
length `r_max`: the empty table for `r_max = 0`, and for exponent `0` (with
`exp(0) = 1`) and `r_max ≥ 1` the uniform table `prob[i] = 1`, `alias[i] = i`. A
negative `r_max` makes the call fail, with the length error of the vector constructor. -/
theorem build_alias_table_unchecked {α : Type} [LinearOrderedField α]
    (logFn expFn : α → α) (exponent : α) (r_max : Int) :
    (r_max < 0 →
      build_alias_table logFn expFn exponent r_max = Except.error BuildError.length_error) ∧
    (0 ≤ r_max → ∃ tab, build_alias_table logFn expFn exponent r_max = Except.ok tab ∧
      (tab.prob.length : Int) = r_max ∧ (tab.alias_.length : Int) = r_max) ∧
    (r_max = 0 → build_alias_table logFn expFn exponent r_max = Except.ok ⟨[], []⟩) ∧
    (1 ≤ r_max → exponent = 0 → expFn 0 = 1 →
      ∃ tab, build_alias_table logFn expFn exponent r_max = Except.ok tab ∧
        ∀ i : Nat, (i : Int) < r_max → tab.prob[i]? = some 1 ∧ tab.alias_[i]? = some i) := by
  refine ⟨?_, ?_, ?_, ?_⟩
  · intro h
    unfold build_alias_table
    rw [if_pos h]
  · intro h
    refine ⟨alias_construct (scaled_weights logFn expFn exponent r_max.toNat) r_max.toNat,
      ?_, ?_⟩
    · unfold build_alias_table
      rw [if_neg (by omega)]
    · obtain ⟨l1, l2, _⟩ := alias_construct_entries _ r_max.toNat
        (scaled_weights_length logFn expFn exponent r_max.toNat)
      rw [l1, l2]
      omega
  · intro h
    subst h
    unfold build_alias_table
    rw [if_neg (by decide)]
    have h0 : (0 : Int).toNat = 0 := rfl
    rw [h0]
    have hs : scaled_weights logFn expFn exponent 0 = [] := rfl
    rw [hs, alias_construct_eq]
    have hinit : init_state ([] : List α) 0 = ⟨[], [], [], [], []⟩ := rfl
    rw [hinit, pair_loop_nil _ (Or.inl rfl)]
    rfl
  · intro h he hexp
    subst he
    refine ⟨alias_construct (scaled_weights logFn expFn 0 r_max.toNat) r_max.toNat, ?_, ?_⟩
    · unfold build_alias_table
      rw [if_neg (by omega)]
    · intro i hi
      have hall : ∀ k < r_max.toNat,
          (1 : α) ≤ (scaled_weights logFn expFn 0 r_max.toNat).getD k 0 :=
        fun k hk => le_of_eq
          (scaled_weights_exponent_zero logFn expFn hexp r_max.toNat (by omega) k hk).symm
      obtain ⟨_, a, b⟩ := alias_construct_all_large _ r_max.toNat
        (scaled_weights_length logFn expFn 0 r_max.toNat) hall i (by omega)
      exact ⟨a, b⟩

theorem build_alias_table_unchecked_witness :
    (-1 : Int) < 0 ∧ (0 : Int) ≤ 3 ∧
    build_alias_table Real.log Real.exp (-1) (-1) = Except.error BuildError.length_error ∧
    (∃ tab, build_alias_table Real.log Real.exp (-1) 3 = Except.ok tab ∧
      (tab.prob.length : Int) = 3 ∧ (tab.alias_.length : Int) = 3) :=
  ⟨by decide, by decide,
    (build_alias_table_unchecked Real.log Real.exp (-1) (-1)).1 (by decide),
    (build_alias_table_unchecked Real.log Real.exp (-1) 3).2.1 (by decide)⟩
/-! ## Precision of the weight stage -/

section PrecisionProofs

variable {α : Type} [LinearOrderedField α]

theorem weight_term_prec_prec (rnd : Nat → α → α) (logFn expFn : α → α) (exponent : α)
    (r : Nat) : (weight_term_prec rnd logFn expFn exponent r).prec = PREC := rfl

theorem weight_term_prec_val (rnd : Nat → α → α) (logFn expFn : α → α) (exponent : α)
    (r : Nat) :
    (weight_term_prec rnd logFn expFn exponent r).val
      = rnd PREC (expFn (rnd PREC (rnd PREC (logFn (rnd PREC (r : α))) * (-exponent)))) :=
  rfl

end PrecisionProofs

/-- Beyond `L = 2^30 - 1` the `int` sums of `pos_index_2D` wrap: at `L = 2^30` the corner
`(L, L)` has linear index `13835058050987196416`, whose byte lies outside a vector of
`byte_size` bytes, and at `L = 2^31 - 1` the in-bounds positions `(1, 0)` and `(0, -1)`
share the linear index `9223372028264841217`. -/
theorem pos_index_2D_wraps :
    pos_index_2D ⟨1073741824, 1073741824⟩ 1073741824 = 13835058050987196416 ∧
    byte_size 1073741824 = 576460752840294401 ∧
    pos_index_2D ⟨1073741824, 1073741824⟩ 1073741824 >>> 3 = 1729382256373399552 ∧
    pos_index_2D ⟨1, 0⟩ 2147483647 = 9223372028264841217 ∧
    pos_index_2D ⟨0, -1⟩ 2147483647 = 9223372028264841217 := by
  decide

/-- A current position whose ring leaves the range of `int` wraps: from
`(2147483647, 0)` the step of radius 1 at index 0 returns `(-2147483648, -1)`. -/
theorem get_next_pos_2D_infL_wraps :
    get_next_pos_2D_infL ⟨2147483647, 0⟩ 0 1 = some ⟨-2147483648, -1⟩ := by
  decide

end LrSim
